import Mathlib

/-! # Containers: the chained hash set (`src/unordered_set.c`)

A shallow embedding of the hash set of the Containers library, followed by the
properties proved about it.

Modelling conventions.

* A key is a fixed-size byte record that the set copies on insertion; the
  embedding is generic in the type `K` of key records, and the copy made by
  `memcpy` is the value itself.
* `unsigned long` values are natural numbers below `ULONG_SIZE`; xor and right
  shifts never leave that range, so no further reduction is needed after the
  user hash has been brought into it.
* `int` values (`size`, return codes) are integers.  `capacity` is an `int` that
  only ever receives `STARTING_BUCKETS` or the truncated product with `1.5`; it
  is never negative and is kept as a natural number.  The embedding is exact as
  long as these values stay within the range of `int`.
* The two `double` constants are dyadic rationals (`0.75 = 3/4`, `1.5 = 3/2`)
  and every `int` converts to `double` exactly, so the floating point comparison
  and the truncating conversion of the source are the integer expressions used
  here.
* A bucket chain (a `NULL`-terminated singly linked list of nodes) is a `List`
  of nodes, the bucket array a `List` of chains.
* `malloc`/`calloc` may fail: every function that allocates takes the outcome of
  each allocation as a Boolean argument.
* Indexing the bucket array outside its bounds is undefined in the source; the
  embedding then reads an empty chain and writes nothing.  A table whose array has
  `capacity > 0` entries (`WellFormed`), as every reachable one has, never does so.
-/

namespace USet

/-! ## Constants -/

/-- The source constant `STARTING_BUCKETS = 8`. -/
def STARTING_BUCKETS : Nat := 8

/-- Numerator of the source constant `RESIZE_AT = 0.75 = 3/4`. -/
def RESIZE_AT_NUM : Int := 3

/-- Denominator of the source constant `RESIZE_AT = 0.75 = 3/4`. -/
def RESIZE_AT_DEN : Int := 4

/-- Numerator of the source constant for the growth factor, `1.5 = 3/2`. -/
def RESIZE_FACTOR_NUM : Nat := 3

/-- Denominator of the source constant for the growth factor, `1.5 = 3/2`. -/
def RESIZE_FACTOR_DEN : Nat := 2

/-- The errno value `ENOMEM`. -/
def ENOMEM : Int := 12

/-- Number of values of an `unsigned long` (64 bits wide, as on LP64 targets). -/
def ULONG_SIZE : Nat := 2 ^ 64

/-! ## Data model -/

/-- The source `struct node`: the owned key copy and the stored (mixed) hash.
The `next` link is the tail of the list the node sits in. -/
structure node (K : Type) where
  key : K
  hash : Nat

/-- The source `struct internal_unordered_set`. -/
structure unordered_set (K : Type) where
  key_size : Nat
  hash : K → Nat
  comparator : K → K → Int
  size : Int
  capacity : Nat
  buckets : List (List (node K))

/-- Allocation outcomes met by one call of `unordered_set_put`: the `calloc` of
`unordered_set_resize` and the two `malloc`s of `unordered_set_create_element`. -/
structure put_alloc where
  resize_ok : Bool
  node_ok : Bool
  key_ok : Bool

/-- Every allocation of a put succeeds. -/
def alloc_ok : put_alloc := { resize_ok := true, node_ok := true, key_ok := true }

variable {K : Type}

/-! ## Operations -/

/-- The avalanche mix of `unordered_set_hash`, on an `unsigned long` value. -/
def hash_mix (h : Nat) : Nat :=
  let hash := h ^^^ ((h >>> 20) ^^^ (h >>> 12))
  (hash ^^^ (hash >>> 7)) ^^^ (hash >>> 4)

/-- The source `unordered_set_hash`: user hash (an `unsigned long`), then the mix. -/
def unordered_set_hash (me : unordered_set K) (key : K) : Nat :=
  hash_mix (me.hash key % ULONG_SIZE)

/-- The source `unordered_set_init`.  An unset function pointer is `none`; the
result `none` is the `NULL` handle. -/
def unordered_set_init (key_size : Nat) (hash : Option (K → Nat))
    (comparator : Option (K → K → Int)) (malloc_ok calloc_ok : Bool) :
    Option (unordered_set K) :=
  match hash, comparator with
  | some h, some c =>
    if key_size = 0 then none
    else if !malloc_ok then none
    else if !calloc_ok then none
    else some { key_size := key_size, hash := h, comparator := c, size := 0,
                capacity := STARTING_BUCKETS,
                buckets := List.replicate STARTING_BUCKETS [] }
  | _, _ => none

/-- The source `unordered_set_add_item`: link the node at the tail of the chain of
bucket `hash % capacity` (an empty chain becomes the node alone). -/
def unordered_set_add_item (me : unordered_set K) (add : node K) : unordered_set K :=
  let index := add.hash % me.capacity
  match me.buckets.getD index [] with
  | [] => { me with buckets := me.buckets.set index [add] }
  | traverse :: rest => { me with buckets := me.buckets.set index (traverse :: rest ++ [add]) }

/-- The source `unordered_set_rehash`: a fresh bucket array of the same capacity,
every node of every old chain gets its hash recomputed and is linked again. -/
def unordered_set_rehash (calloc_ok : Bool) (me : unordered_set K) :
    Int × unordered_set K :=
  let old_buckets := me.buckets
  if !calloc_ok then (-ENOMEM, me)
  else
    let fresh := { me with buckets := List.replicate me.capacity [] }
    (0, (List.range me.capacity).foldl
      (fun acc i => (old_buckets.getD i []).foldl
        (fun acc traverse =>
          unordered_set_add_item acc
            { traverse with hash := unordered_set_hash acc traverse.key })
        acc)
      fresh)

/-- The source `unordered_set_size`. -/
def unordered_set_size (me : unordered_set K) : Int := me.size

/-- The source `unordered_set_is_empty`. -/
def unordered_set_is_empty (me : unordered_set K) : Int :=
  if unordered_set_size me = 0 then 1 else 0

/-- The source `unordered_set_resize`: a fresh bucket array of
`(int) (capacity * 1.5)` entries, every node linked again under its stored hash. -/
def unordered_set_resize (calloc_ok : Bool) (me : unordered_set K) :
    Int × unordered_set K :=
  let old_capacity := me.capacity
  let new_capacity := me.capacity * RESIZE_FACTOR_NUM / RESIZE_FACTOR_DEN
  let old_buckets := me.buckets
  if !calloc_ok then (-ENOMEM, me)
  else
    let fresh := { me with buckets := List.replicate new_capacity [],
                           capacity := new_capacity }
    (0, (List.range old_capacity).foldl
      (fun acc i => (old_buckets.getD i []).foldl unordered_set_add_item acc)
      fresh)

/-- The source `unordered_set_is_equal`. -/
def unordered_set_is_equal (me : unordered_set K) (item : node K) (hash : Nat)
    (key : K) : Bool :=
  item.hash == hash && me.comparator item.key key == 0

/-- The source `unordered_set_create_element`; `none` is the `NULL` result. -/
def unordered_set_create_element (node_ok key_ok : Bool) (_me : unordered_set K)
    (hash : Nat) (key : K) : Option (node K) :=
  if !node_ok then none
  else if !key_ok then none
  else some { key := key, hash := hash }

/-- The growth step at the head of `unordered_set_put`: when
`size + 1 >= RESIZE_AT * capacity` the table is resized, and the return code of
the resize is passed on. -/
def put_grow (a : put_alloc) (me : unordered_set K) : Int × unordered_set K :=
  if RESIZE_AT_DEN * (me.size + 1) ≥ RESIZE_AT_NUM * (me.capacity : Int) then
    unordered_set_resize a.resize_ok me
  else (0, me)

/-- The rest of `unordered_set_put`, after the growth step: scan the chain of
bucket `hash % capacity`, return at a node equal to the key, else link a new
element at the tail of the chain and count it. -/
def put_insert (a : put_alloc) (me : unordered_set K) (hash : Nat) (key : K) :
    Int × unordered_set K :=
  let index := hash % me.capacity
  match me.buckets.getD index [] with
  | [] =>
    match unordered_set_create_element a.node_ok a.key_ok me hash key with
    | none => (-ENOMEM, me)
    | some created =>
      (0, { me with buckets := me.buckets.set index [created], size := me.size + 1 })
  | traverse :: rest =>
    if (traverse :: rest).any (fun item => unordered_set_is_equal me item hash key) then
      (0, me)
    else
      match unordered_set_create_element a.node_ok a.key_ok me hash key with
      | none => (-ENOMEM, me)
      | some created =>
        (0, { me with buckets := me.buckets.set index (traverse :: rest ++ [created]),
                      size := me.size + 1 })

/-- The source `unordered_set_put`; the result is the return code and the set
after the call. -/
def unordered_set_put (a : put_alloc) (me : unordered_set K) (key : K) :
    Int × unordered_set K :=
  let hash := unordered_set_hash me key
  let grown := put_grow a me
  if grown.1 ≠ 0 then (grown.1, grown.2)
  else put_insert a grown.2 hash key

/-- The source `unordered_set_contains`. -/
def unordered_set_contains (me : unordered_set K) (key : K) : Int :=
  let hash := unordered_set_hash me key
  let index := hash % me.capacity
  if (me.buckets.getD index []).any (fun item => unordered_set_is_equal me item hash key)
  then 1 else 0

/-- The scan of `unordered_set_remove` along one chain: the chain without its
first node equal to the key, or `none` when the scan reaches the end. -/
def remove_chain (me : unordered_set K) (hash : Nat) (key : K) :
    List (node K) → Option (List (node K))
  | [] => none
  | traverse :: next =>
    if unordered_set_is_equal me traverse hash key then some next
    else (remove_chain me hash key next).map (fun rest => traverse :: rest)

/-- The source `unordered_set_remove`; the result is the return code and the set
after the call. -/
def unordered_set_remove (me : unordered_set K) (key : K) : Int × unordered_set K :=
  let hash := unordered_set_hash me key
  let index := hash % me.capacity
  match remove_chain me hash key (me.buckets.getD index []) with
  | none => (0, me)
  | some chain =>
    (1, { me with buckets := me.buckets.set index chain, size := me.size - 1 })

/-- The source `unordered_set_clear`: every node is freed and the bucket array is
replaced by a fresh one of the starting capacity. -/
def unordered_set_clear (calloc_ok : Bool) (me : unordered_set K) :
    Int × unordered_set K :=
  if !calloc_ok then (-ENOMEM, me)
  else
    (0, { me with size := 0, capacity := STARTING_BUCKETS,
                  buckets := List.replicate STARTING_BUCKETS [] })

/-! ## Reachable states and invariants -/

/-- Every node of the table, bucket after bucket. -/
def nodes (me : unordered_set K) : List (node K) := me.buckets.flatten

/-- The states a caller can reach: a set returned by `unordered_set_init`, and
the set after any call of put, remove, rehash or clear, whatever the allocation
outcomes and the return code. -/
inductive Reachable : unordered_set K → Prop
  | init (key_size : Nat) (hash : Option (K → Nat)) (comparator : Option (K → K → Int))
      (malloc_ok calloc_ok : Bool) (me : unordered_set K)
      (h : unordered_set_init key_size hash comparator malloc_ok calloc_ok = some me) :
      Reachable me
  | put (a : put_alloc) (me : unordered_set K) (key : K) (h : Reachable me) :
      Reachable (unordered_set_put a me key).2
  | remove (me : unordered_set K) (key : K) (h : Reachable me) :
      Reachable (unordered_set_remove me key).2
  | rehash (calloc_ok : Bool) (me : unordered_set K) (h : Reachable me) :
      Reachable (unordered_set_rehash calloc_ok me).2
  | clear (calloc_ok : Bool) (me : unordered_set K) (h : Reachable me) :
      Reachable (unordered_set_clear calloc_ok me).2

/-- The bucket array has `capacity` entries and there is at least one bucket. -/
def WellFormed (me : unordered_set K) : Prop :=
  me.buckets.length = me.capacity ∧ 0 < me.capacity

/-- Every node sits in the bucket its stored hash selects. -/
def Placed (me : unordered_set K) : Prop :=
  ∀ i, ∀ n ∈ me.buckets.getD i [], n.hash % me.capacity = i

/-- The comparator result `0` is an equivalence relation on keys. -/
def comparator_equiv (cmp : K → K → Int) : Prop :=
  (∀ a, cmp a a = 0) ∧ (∀ a b, cmp a b = 0 → cmp b a = 0) ∧
    (∀ a b c, cmp a b = 0 → cmp b c = 0 → cmp a c = 0)

/-- Keys the comparator reports equal have equal (`unsigned long`) hashes. -/
def hash_consistent (cmp : K → K → Int) (hash : K → Nat) : Prop :=
  ∀ a b, cmp a b = 0 → hash a % ULONG_SIZE = hash b % ULONG_SIZE

/-- No two nodes of the table hold keys the comparator reports equal. -/
def Unique (me : unordered_set K) : Prop :=
  (nodes me).Pairwise
    (fun a b => me.comparator a.key b.key ≠ 0 ∧ me.comparator b.key a.key ≠ 0)

/-- The invariant of the reachable states. -/
structure Inv (me : unordered_set K) : Prop where
  length_eq : me.buckets.length = me.capacity
  capacity_ge : STARTING_BUCKETS ≤ me.capacity
  placed : Placed me
  stored : ∀ n ∈ nodes me, n.hash = unordered_set_hash me n.key
  size_eq : me.size = ((nodes me).length : Int)
  load : RESIZE_AT_DEN * me.size < RESIZE_AT_NUM * (me.capacity : Int)
  key_size_ne : me.key_size ≠ 0

/-- Two states of one set: same key size, hash function and comparator. -/
structure SameFunctions (a b : unordered_set K) : Prop where
  key_size : a.key_size = b.key_size
  hash : a.hash = b.hash
  comparator : a.comparator = b.comparator

/-- The state `g` holds the nodes of `me` linked again, in a table that is at
least as large: what the growth step of a put leaves behind. -/
structure Relinked (me g : unordered_set K) : Prop where
  same : SameFunctions g me
  size_eq : g.size = me.size
  capacity_le : me.capacity ≤ g.capacity
  length_eq : g.buckets.length = g.capacity
  placed : Placed g
  perm : (nodes g).Perm (nodes me)


/-! ## Sequences of puts and the count of distinct keys -/

/-- The keys of a list put one after the other, no allocation failing. -/
def put_all (me : unordered_set K) (keys : List K) : unordered_set K :=
  keys.foldl (fun acc key => (unordered_set_put alloc_ok acc key).2) me

/-- Number of distinct keys of a list, two keys being the same when the comparator
reports `0`: the length of the list with duplicates filtered out (`List.dedup`
with the comparator in the place of equality). -/
def distinct_count (cmp : K → K → Int) (keys : List K) : Nat :=
  (keys.pwFilter (fun a b => cmp a b ≠ 0)).length

/-! ## A concrete set of numbers -/

/-- A hash function on numbers: the number itself. -/
def nat_hash (k : Nat) : Nat := k

/-- A comparator on numbers: the difference, as the comparator of the tests. -/
def nat_compare (a b : Nat) : Int := (a : Int) - (b : Int)

/-- The set of numbers as `unordered_set_init` creates it. -/
def nat_set : unordered_set Nat :=
  { key_size := 4, hash := nat_hash, comparator := nat_compare, size := 0,
    capacity := STARTING_BUCKETS, buckets := List.replicate STARTING_BUCKETS [] }

/-- A well-formed table whose single node went stale: key `3` with stored hash `999`
in bucket `0`. -/
def stale_set : unordered_set Nat :=
  { key_size := 4, hash := nat_hash, comparator := nat_compare, size := 1,
    capacity := 8, buckets := [[{ key := 3, hash := 999 }], [], [], [], [], [], [], []] }

/-! ## Sequences of puts and removes and the insertion order -/

/-- A call of a sequence of puts and removes. -/
inductive set_op (K : Type) where
  | put (key : K)
  | remove (key : K)

/-- The set after one call, no allocation failing. -/
def run_op (me : unordered_set K) : set_op K → unordered_set K
  | set_op.put key => (unordered_set_put alloc_ok me key).2
  | set_op.remove key => (unordered_set_remove me key).2

/-- The set after a sequence of calls. -/
def run_ops (me : unordered_set K) (ops : List (set_op K)) : unordered_set K :=
  ops.foldl run_op me

/-- The surviving keys in the order of their insertion, after one more call: a put
of a key that has no equal among them inserts it last, a remove takes the keys equal
to its key away. -/
def survivors_step (cmp : K → K → Int) (acc : List K) : set_op K → List K
  | set_op.put key => if acc.any (fun x => cmp x key == 0) then acc else acc ++ [key]
  | set_op.remove key => acc.filter (fun x => !(cmp x key == 0))

/-- The surviving keys of a sequence of calls on a new set, in the order of their
insertion. -/
def survivors (cmp : K → K → Int) (ops : List (set_op K)) : List K :=
  ops.foldl (survivors_step cmp) []

/-- The keys of the chain of bucket `i`, in scan order. -/
def chain_keys (me : unordered_set K) (i : Nat) : List K :=
  (me.buckets.getD i []).map node.key

/-- The keys of a list that the set places in bucket `i`, in the order of the list. -/
def keys_of_bucket (me : unordered_set K) (keys : List K) (i : Nat) : List K :=
  keys.filter (fun key => unordered_set_hash me key % me.capacity == i)

end USet

/-! # Containers: the ordered map (`map.c`)

The implementation file of the ordered map is not available; its definitions below
are modelled from the specification (sections 3 and 4.2), and the functions of the
test file `tst/map.c` are translated from that file.  A tree is a value: the upward
walk along the parent links after an insertion or removal is the way back of the
recursive descent.
-/

namespace OMap

/-! ## Data model -/

/-- The errno value `ENOMEM`. -/
def ENOMEM : Int := 12

/-- Modelled from the spec: the `Node` of section 3 (`map.c` is missing; `tst/map.c`
declares the same `struct node`).  A value of this type is a link to a node:
`null` is the empty link, `mk` a node with its exclusively owned children, its key,
its value and its signed balance factor.  The parent back-reference is the position
of the node inside the tree that holds it. -/
inductive node (K V : Type) where
  | null : node K V
  | mk (left : node K V) (key : K) (value : V) (balance : Int) (right : node K V) : node K V

/-- Modelled from the spec: the `Map` of section 3 (`map.c` is missing; `tst/map.c`
declares the same `struct internal_map`). -/
structure internal_map (K V : Type) where
  key_size : Nat
  value_size : Nat
  comparator : K → K → Int
  size : Int
  root : node K V

/-- Allocation outcomes met by one call of `map_put`: the node, its key buffer and
its value buffer (the three allocations `test_put_out_of_memory` lets fail). -/
structure node_alloc where
  node_ok : Bool
  key_ok : Bool
  value_ok : Bool

/-- Every allocation of a put succeeds. -/
def node_alloc_ok : node_alloc := { node_ok := true, key_ok := true, value_ok := true }

/-- Outcome of the insertion into a subtree: `undefined` when Repair is evaluated
where the spec gives it no meaning, `enomem` when an allocation failed, else the new
subtree, whether its height grew (the upward walk goes on) and whether a node was
added. -/
inductive put_result (K V : Type) where
  | undefined : put_result K V
  | enomem : put_result K V
  | done (subtree : node K V) (grew : Bool) (added : Bool) : put_result K V

/-- Outcome of the removal from a subtree: `undefined` as for `put_result`, `absent`
when the key is not there, else the new subtree and whether its height shrank (the
upward walk goes on). -/
inductive remove_result (K V : Type) where
  | undefined : remove_result K V
  | absent : remove_result K V
  | done (subtree : node K V) (shrank : Bool) : remove_result K V

/-- Outcome of unlinking the leftmost node of a subtree: its key and value, the rest
of the subtree and whether the height shrank. -/
inductive leftmost_result (K V : Type) where
  | undefined : leftmost_result K V
  | done (key : K) (value : V) (subtree : node K V) (shrank : Bool) : leftmost_result K V

variable {K V : Type}

/-! ## Operations -/

/-- Modelled from the spec: `map_init` of `map.c` (missing), "Create" in section
4.2: no map when a size is zero, the comparator is unset or the allocation fails,
else the empty map. -/
def map_init (key_size value_size : Nat) (comparator : Option (K → K → Int))
    (malloc_ok : Bool) : Option (internal_map K V) :=
  match comparator with
  | none => none
  | some c =>
    if key_size = 0 ∨ value_size = 0 then none
    else if !malloc_ok then none
    else some { key_size := key_size, value_size := value_size, comparator := c, size := 0,
                root := node.null }

/-- Modelled from the spec: `map_size` of `map.c` (missing). -/
def map_size (me : internal_map K V) : Int := me.size

/-- Modelled from the spec: `map_repair` of `map.c` (missing), "Repair(parent)" in
section 4.2, evaluated at a node whose balance is +2 or -2.  Balance +2: the child is
the right child; child balance `>= 0` gives a single left rotation, child balance -1
the right-left double rotation with the three cases of the grandchild's balance.
Balance -2 is the mirror image.  The balance values after a rotation are those that
the invariant of sections 3 and 8 (`balance == height(right) - height(left)`) and the
assertion `right - left == item->balance` of `tst/map.c` require.  After a single
rotation both nodes end with balance 0 when the child was unbalanced; when the child
was balanced (the branch that `test_rotate_left_balanced_child` and
`test_rotate_right_balanced_child` target) the parent ends with +1 and the child with
-1 (mirror image: -1 and +1).  The sentence of section 4.2 that gives balance 0 to
both in that sub-case too cannot hold together with the invariant: the heights after
the rotation differ by one at both nodes.  The spec names the three cases of a double
rotation without their values; the grandchild ends with balance 0.  Where the spec
gives no meaning (no child, no grandchild, another balance) the result is `none`. -/
def map_repair : node K V → Option (node K V)
  | node.null => none
  | node.mk l k v b r =>
    if b = 2 then
      match r with
      | node.null => none
      | node.mk cl ck cv cb cr =>
        if cb ≥ 0 then
          if cb = 0 then some (node.mk (node.mk l k v 1 cl) ck cv (-1) cr)
          else some (node.mk (node.mk l k v 0 cl) ck cv 0 cr)
        else if cb = -1 then
          match cl with
          | node.null => none
          | node.mk gl gk gv gb gr =>
            if gb = 1 then some (node.mk (node.mk l k v (-1) gl) gk gv 0 (node.mk gr ck cv 0 cr))
            else if gb = 0 then some (node.mk (node.mk l k v 0 gl) gk gv 0 (node.mk gr ck cv 0 cr))
            else some (node.mk (node.mk l k v 0 gl) gk gv 0 (node.mk gr ck cv 1 cr))
        else none
    else if b = -2 then
      match l with
      | node.null => none
      | node.mk cl ck cv cb cr =>
        if cb ≤ 0 then
          if cb = 0 then some (node.mk cl ck cv 1 (node.mk cr k v (-1) r))
          else some (node.mk cl ck cv 0 (node.mk cr k v 0 r))
        else if cb = 1 then
          match cr with
          | node.null => none
          | node.mk gl gk gv gb gr =>
            if gb = 1 then some (node.mk (node.mk cl ck cv (-1) gl) gk gv 0 (node.mk gr k v 0 r))
            else if gb = 0 then some (node.mk (node.mk cl ck cv 0 gl) gk gv 0 (node.mk gr k v 0 r))
            else some (node.mk (node.mk cl ck cv 0 gl) gk gv 0 (node.mk gr k v 1 r))
        else none
    else none

/-- The balance factor stored at the node a link points to (0 for the empty link). -/
def balance : node K V → Int
  | node.null => 0
  | node.mk _ _ _ b _ => b

/-- Modelled from the spec: one step of the upward walk of Put (section 4.2) at an
ancestor whose balance has been adjusted: the walk stops when the balance returned
to 0, Repair is invoked and the walk stops when it reached +2 or -2, else the walk
goes on. -/
def put_adjusted (t : node K V) (added : Bool) : put_result K V :=
  match t with
  | node.null => put_result.undefined
  | node.mk _ _ _ b _ =>
    if b = 0 then put_result.done t false added
    else if b = 2 ∨ b = -2 then
      match map_repair t with
      | none => put_result.undefined
      | some repaired => put_result.done repaired false added
    else put_result.done t true added

/-- Modelled from the spec: the descent of Put (section 4.2) with the upward walk as
the way back: an equal key has its value overwritten; else a new leaf is linked on
the side the comparator selects and the balance factors of the ancestors are
adjusted by -1 (growth on the left) or +1 (growth on the right). -/
def put_node (cmp : K → K → Int) (alloc_ok : Bool) (key : K) (value : V) :
    node K V → put_result K V
  | node.null =>
    if alloc_ok then put_result.done (node.mk node.null key value 0 node.null) true true
    else put_result.enomem
  | node.mk l k v b r =>
    if cmp key k = 0 then put_result.done (node.mk l k value b r) false false
    else if cmp key k < 0 then
      match put_node cmp alloc_ok key value l with
      | put_result.undefined => put_result.undefined
      | put_result.enomem => put_result.enomem
      | put_result.done l' grew added =>
        if grew then put_adjusted (node.mk l' k v (b - 1) r) added
        else put_result.done (node.mk l' k v b r) false added
    else
      match put_node cmp alloc_ok key value r with
      | put_result.undefined => put_result.undefined
      | put_result.enomem => put_result.enomem
      | put_result.done r' grew added =>
        if grew then put_adjusted (node.mk l k v (b + 1) r') added
        else put_result.done (node.mk l k v b r') false added

/-- Modelled from the spec: `map_put` of `map.c` (missing), "Put" in section 4.2;
the result is the return code and the map after the call, `none` where the spec
gives Repair no meaning.  On an allocation failure the map is left as it was
(section 7). -/
def map_put (a : node_alloc) (me : internal_map K V) (key : K) (value : V) :
    Option (Int × internal_map K V) :=
  match put_node me.comparator (a.node_ok && a.key_ok && a.value_ok) key value me.root with
  | put_result.undefined => none
  | put_result.enomem => some (-ENOMEM, me)
  | put_result.done t _ added =>
    some (0, { me with root := t, size := if added then me.size + 1 else me.size })

/-- Modelled from the spec: the descent of Get and Contains (section 4.2): the value
stored under an equal key. -/
def get_node (cmp : K → K → Int) (key : K) : node K V → Option V
  | node.null => none
  | node.mk l k v _ r =>
    if cmp key k = 0 then some v
    else if cmp key k < 0 then get_node cmp key l
    else get_node cmp key r

/-- Modelled from the spec: `map_get` of `map.c` (missing), "Get" in section 4.2:
found and the stored value, or not found and the output buffer as it was. -/
def map_get (out : V) (me : internal_map K V) (key : K) : Int × V :=
  match get_node me.comparator key me.root with
  | some v => (1, v)
  | none => (0, out)

/-- Modelled from the spec: `map_contains` of `map.c` (missing). -/
def map_contains (me : internal_map K V) (key : K) : Int :=
  match get_node me.comparator key me.root with
  | some _ => 1
  | none => 0

/-- Modelled from the spec: one step of the upward walk of Remove (section 4.2) at an
ancestor whose balance has been adjusted.  The walk stops when the balance became +1
or -1 (height unchanged) and goes on when it became 0.  Repair is invoked when it
reached +2 or -2; the walk then stops if the rotated subtree kept its height (its new
root has balance +1 or -1) and goes on if it became shorter (new root balance 0):
Remove invokes Repair "whenever a balance reaches ±2" and stops "once a node's height
is found unchanged".  The general remark of section 4.2 that the walk terminates at
every rotation site holds on insertion; on removal it would leave the ancestors of a
shortened subtree with balances that are not the height differences, against the
invariant of sections 3 and 8 (after the puts of 8, 14, 5, 15, 11, 1, 9, 4 and the
remove of 15, which rotates at node 14, the root 8 would keep balance +1 over two
subtrees of height 2). -/
def remove_adjusted (t : node K V) : remove_result K V :=
  match t with
  | node.null => remove_result.undefined
  | node.mk _ _ _ b _ =>
    if b = 1 ∨ b = -1 then remove_result.done t false
    else if b = 2 ∨ b = -2 then
      match map_repair t with
      | none => remove_result.undefined
      | some repaired =>
        if balance repaired = 1 ∨ balance repaired = -1 then remove_result.done repaired false
        else remove_result.done repaired true
    else remove_result.done t true

/-- Modelled from the spec: the physical deletion of the in-order successor in
Remove (section 4.2): the leftmost node of the subtree is unlinked, its right child
spliced into its slot, and the ancestors inside the subtree are adjusted by +1. -/
def remove_leftmost : node K V → leftmost_result K V
  | node.null => leftmost_result.undefined
  | node.mk node.null k v _ r => leftmost_result.done k v r true
  | node.mk (node.mk ll lk lv lb lr) k v b r =>
    match remove_leftmost (node.mk ll lk lv lb lr) with
    | leftmost_result.undefined => leftmost_result.undefined
    | leftmost_result.done sk sv l' shrank =>
      if shrank then
        match remove_adjusted (node.mk l' k v (b + 1) r) with
        | remove_result.done t s => leftmost_result.done sk sv t s
        | _ => leftmost_result.undefined
      else leftmost_result.done sk sv (node.mk l' k v b r) false

/-- Modelled from the spec: the descent of Remove (section 4.2) with the upward walk
as the way back: a node with two children takes the key and value of its in-order
successor, which is deleted in its place; a node with at most one child is unlinked,
its child spliced into its slot; the balance factors of the ancestors are adjusted
by +1 (removal on the left) or -1 (removal on the right). -/
def remove_node (cmp : K → K → Int) (key : K) : node K V → remove_result K V
  | node.null => remove_result.absent
  | node.mk l k v b r =>
    if cmp key k = 0 then
      match l, r with
      | node.null, _ => remove_result.done r true
      | node.mk ll lk lv lb lr, node.null => remove_result.done (node.mk ll lk lv lb lr) true
      | node.mk ll lk lv lb lr, node.mk rl rk rv rb rr =>
        match remove_leftmost (node.mk rl rk rv rb rr) with
        | leftmost_result.undefined => remove_result.undefined
        | leftmost_result.done sk sv r' shrank =>
          if shrank then remove_adjusted (node.mk (node.mk ll lk lv lb lr) sk sv (b - 1) r')
          else remove_result.done (node.mk (node.mk ll lk lv lb lr) sk sv b r') false
    else if cmp key k < 0 then
      match remove_node cmp key l with
      | remove_result.undefined => remove_result.undefined
      | remove_result.absent => remove_result.absent
      | remove_result.done l' shrank =>
        if shrank then remove_adjusted (node.mk l' k v (b + 1) r)
        else remove_result.done (node.mk l' k v b r) false
    else
      match remove_node cmp key r with
      | remove_result.undefined => remove_result.undefined
      | remove_result.absent => remove_result.absent
      | remove_result.done r' shrank =>
        if shrank then remove_adjusted (node.mk l k v (b - 1) r')
        else remove_result.done (node.mk l k v b r') false

/-- Modelled from the spec: `map_remove` of `map.c` (missing), "Remove" in section
4.2; the result is 1 and the map without the key, or 0 and the map as it was; `none`
where the spec gives Repair no meaning. -/
def map_remove (me : internal_map K V) (key : K) : Option (Int × internal_map K V) :=
  match remove_node me.comparator key me.root with
  | remove_result.undefined => none
  | remove_result.absent => some (0, me)
  | remove_result.done t _ => some (1, { me with root := t, size := me.size - 1 })

/-- Modelled from the spec: `map_clear` of `map.c` (missing): every node is freed. -/
def map_clear (me : internal_map K V) : internal_map K V :=
  { me with root := node.null, size := 0 }

/-! ## The test harness of `tst/map.c` -/

/-- The source `compare_int` of `tst/map.c`: the difference of the two keys (exact
while it fits in an `int`). -/
def compare_int (one two : Int) : Int := one - two

/-- The key a link points to, if it points to a node. -/
def key_of : node K V → Option K
  | node.null => none
  | node.mk _ k _ _ _ => some k

/-- The source `map_verify_recursive` of `tst/map.c`: the height of the subtree, or
`none` when an assertion fails.  The assertions on the parent links compare a child's
back-reference with the node it was reached from; in this embedding the
back-reference is that node, so they hold. -/
def map_verify_recursive : node Int Int → Option Int
  | node.null => some 0
  | node.mk l _ _ b r =>
    match map_verify_recursive l, map_verify_recursive r with
    | some left, some right =>
      if right - left ≠ b then none
      else
        match key_of l, key_of r with
        | some left_val, some right_val =>
          if left_val < right_val then some ((if left > right then left else right) + 1)
          else none
        | _, _ => some ((if left > right then left else right) + 1)
    | _, _ => none

/-- The map of `int` keys and values the tests create with `map_init`. -/
def int_map : internal_map Int Int :=
  { key_size := 4, value_size := 4, comparator := compare_int, size := 0, root := node.null }

/-! ## Notions used to state the properties -/

/-- The keys and values of a subtree in order: left subtree, node, right subtree. -/
def entries : node K V → List (K × V)
  | node.null => []
  | node.mk l k v _ r => entries l ++ (k, v) :: entries r

/-- The keys of a subtree in order. -/
def keys (t : node K V) : List K := (entries t).map Prod.fst

/-- The height of a subtree. -/
def height : node K V → Int
  | node.null => 0
  | node.mk l _ _ _ r => 1 + max (height l) (height r)

/-- The AVL rule at every node of a subtree: the stored balance factor is the height
of the right subtree minus the height of the left subtree, and lies in {-1, 0, 1}. -/
def balanced : node K V → Prop
  | node.null => True
  | node.mk l _ _ b r =>
    balanced l ∧ balanced r ∧ b = height r - height l ∧ -1 ≤ b ∧ b ≤ 1

/-- The in-order key sequence is strictly increasing under the comparator. -/
def strictly_increasing (cmp : K → K → Int) (t : node K V) : Prop :=
  (keys t).Pairwise (fun a b => cmp a b < 0)

/-- Every stored balance factor lies in {-1, 0, 1}. -/
def balances_in_range : node K V → Prop
  | node.null => True
  | node.mk l _ _ b r => balances_in_range l ∧ balances_in_range r ∧ -1 ≤ b ∧ b ≤ 1

/-- The comparator is that of a strict total order: 0 exactly for the same key, the
sign flips with the arguments, and "less" is transitive. -/
structure comparator_strict_total (cmp : K → K → Int) : Prop where
  eq_iff : ∀ a b, cmp a b = 0 ↔ a = b
  flip : ∀ a b, cmp a b < 0 ↔ 0 < cmp b a
  trans : ∀ a b c, cmp a b < 0 → cmp b c < 0 → cmp a c < 0

/-- A node with balance -1 has a left child and a node with balance +1 a right
child. -/
def heavy_side_present : node K V → Prop
  | node.null => True
  | node.mk l _ _ b r => (b = -1 → l ≠ node.null) ∧ (b = 1 → r ≠ node.null)


/-! ## Sequences of puts and removes -/

/-- A call of a sequence of puts and removes on a map; a put comes with the outcomes
of its allocations. -/
inductive map_op (K V : Type) where
  | put (a : node_alloc) (key : K) (value : V)
  | remove (key : K)

/-- The map after one call, whatever the call returns; `none` where the call is
undefined. -/
def map_apply (me : internal_map K V) : map_op K V → Option (internal_map K V)
  | map_op.put a key value => (map_put a me key value).map Prod.snd
  | map_op.remove key => (map_remove me key).map Prod.snd

/-- The map after a sequence of calls; `none` when a call is undefined. -/
def map_run (me : internal_map K V) : List (map_op K V) → Option (internal_map K V)
  | [] => some me
  | op :: rest =>
    match map_apply me op with
    | none => none
    | some next => map_run next rest

/-- Whether `key` is put and not removed after one more call, given whether it was
before: a put of the key makes it so when the key was there or the allocations
succeed (a put that fails for lack of memory puts nothing), a remove of the key ends
it, and a call on another key changes nothing. -/
def live_step (cmp : K → K → Int) (key : K) (was : Bool) : map_op K V → Bool
  | map_op.put a k _ => if cmp k key = 0 then was || (a.node_ok && a.key_ok && a.value_ok) else was
  | map_op.remove k => if cmp k key = 0 then false else was

/-- Whether `key` has been put and not subsequently removed by a sequence of calls on
an empty map. -/
def live (cmp : K → K → Int) (ops : List (map_op K V)) (key : K) : Bool :=
  ops.foldl (live_step cmp key) false

end OMap

namespace USet

/-! ## Auxiliary facts on lists -/

theorem flatten_split (l : List (List α)) (i : Nat) (h : i < l.length) :
    l.flatten = (l.take i).flatten ++ (l[i] ++ (l.drop (i + 1)).flatten) := by
  have e : l = l.take i ++ l[i] :: l.drop (i + 1) := by
    rw [← List.drop_eq_getElem_cons h, List.take_append_drop]
  calc l.flatten = (l.take i ++ l[i] :: l.drop (i + 1)).flatten := congrArg _ e
    _ = (l.take i).flatten ++ (l[i] ++ (l.drop (i + 1)).flatten) := by
      rw [List.flatten_append, List.flatten_cons]

theorem flatten_set (l : List (List α)) (i : Nat) (c : List α) (h : i < l.length) :
    (l.set i c).flatten = (l.take i).flatten ++ (c ++ (l.drop (i + 1)).flatten) := by
  rw [List.set_eq_take_append_cons_drop, if_pos h]
  simp

theorem getD_set_eq (l : List (List α)) (i : Nat) (c : List α) (h : i < l.length) :
    (l.set i c).getD i [] = c := by
  simp [List.getD_eq_getElem?_getD, List.getElem?_set, h]

theorem getD_set_ne (l : List (List α)) (i j : Nat) (c : List α) (h : i ≠ j) :
    (l.set i c).getD j [] = l.getD j [] := by
  simp [List.getD_eq_getElem?_getD, List.getElem?_set, h]

theorem mem_getD_set (l : List (List α)) (i j : Nat) (c : List α) (x : α)
    (h : x ∈ (l.set i c).getD j []) : (j = i ∧ x ∈ c) ∨ x ∈ l.getD j [] := by
  by_cases hij : i = j
  · subst hij
    by_cases hi : i < l.length
    · rw [getD_set_eq l i c hi] at h
      exact Or.inl ⟨rfl, h⟩
    · rw [List.getD_eq_default _ _ (by simpa using hi)] at h
      simp at h
  · rw [getD_set_ne l i j c hij] at h
    exact Or.inr h

theorem mem_flatten_iff_getD (l : List (List α)) (x : α) :
    x ∈ l.flatten ↔ ∃ i, i < l.length ∧ x ∈ l.getD i [] := by
  constructor
  · intro h
    obtain ⟨c, hc, hx⟩ := List.mem_flatten.1 h
    obtain ⟨i, hi, rfl⟩ := List.getElem_of_mem hc
    exact ⟨i, hi, by rw [List.getD_eq_getElem _ _ hi]; exact hx⟩
  · rintro ⟨i, hi, hx⟩
    rw [List.getD_eq_getElem _ _ hi] at hx
    exact List.mem_flatten.2 ⟨l[i], List.getElem_mem hi, hx⟩

theorem range_map_getD (l : List (List α)) :
    (List.range l.length).map (fun i => l.getD i []) = l := by
  apply List.ext_getElem
  · simp
  · intro n h1 h2
    simp [List.getD_eq_getElem?_getD, h2]

theorem foldl_range_getD {β : Type} (f : β → List α → β) (l : List (List α)) (n : Nat)
    (h : l.length = n) (init : β) :
    (List.range n).foldl (fun acc i => f acc (l.getD i [])) init = l.foldl f init := by
  subst h
  conv_rhs => rw [← range_map_getD l]
  rw [List.foldl_map]


/-! ## Linking nodes: `unordered_set_add_item` and the two relinking loops -/

theorem add_item_eq (me : unordered_set K) (add : node K) :
    unordered_set_add_item me add =
      { me with
        buckets := me.buckets.set (add.hash % me.capacity) (me.buckets.getD (add.hash % me.capacity) [] ++ [add]) } := by
  unfold unordered_set_add_item
  cases h : me.buckets.getD (add.hash % me.capacity) [] with
  | nil => simp only [h, List.nil_append]
  | cons t r => simp only [h, List.cons_append]

@[simp] theorem add_item_key_size (me : unordered_set K) (add : node K) :
    (unordered_set_add_item me add).key_size = me.key_size := by rw [add_item_eq]

@[simp] theorem add_item_hash (me : unordered_set K) (add : node K) :
    (unordered_set_add_item me add).hash = me.hash := by rw [add_item_eq]

@[simp] theorem add_item_comparator (me : unordered_set K) (add : node K) :
    (unordered_set_add_item me add).comparator = me.comparator := by rw [add_item_eq]

@[simp] theorem add_item_size (me : unordered_set K) (add : node K) :
    (unordered_set_add_item me add).size = me.size := by rw [add_item_eq]

@[simp] theorem add_item_capacity (me : unordered_set K) (add : node K) :
    (unordered_set_add_item me add).capacity = me.capacity := by rw [add_item_eq]

@[simp] theorem add_item_length (me : unordered_set K) (add : node K) :
    (unordered_set_add_item me add).buckets.length = me.buckets.length := by
  rw [add_item_eq]; simp

theorem unordered_set_hash_congr (a b : unordered_set K) (h : a.hash = b.hash) (key : K) :
    unordered_set_hash a key = unordered_set_hash b key := by
  unfold unordered_set_hash; rw [h]

theorem add_item_placed (me : unordered_set K) (add : node K) (hp : Placed me) :
    Placed (unordered_set_add_item me add) := by
  intro i n hn
  rw [add_item_eq] at hn
  rw [add_item_capacity]
  rcases mem_getD_set _ _ _ _ _ hn with ⟨rfl, h⟩ | h
  · rcases List.mem_append.1 h with h | h
    · exact hp _ n h
    · rw [List.mem_singleton.1 h]
  · exact hp i n h

theorem add_item_nodes (me : unordered_set K) (add : node K) (hw : WellFormed me) :
    (nodes (unordered_set_add_item me add)).Perm (nodes me ++ [add]) := by
  have hi : add.hash % me.capacity < me.buckets.length := by
    rw [hw.1]; exact Nat.mod_lt _ hw.2
  rw [add_item_eq]
  unfold nodes
  simp only
  rw [flatten_set _ _ _ hi, flatten_split me.buckets _ hi, List.getD_eq_getElem _ _ hi]
  simp only [List.append_assoc]
  refine List.Perm.append_left _ (List.Perm.append_left _ ?_)
  exact List.perm_append_comm

/-- The fields left alone by relinking, and the facts re-established by it. -/
theorem foldl_add_item (ns : List (node K)) (me : unordered_set K) (hw : WellFormed me)
    (hp : Placed me) :
    (ns.foldl unordered_set_add_item me).key_size = me.key_size ∧
    (ns.foldl unordered_set_add_item me).hash = me.hash ∧
    (ns.foldl unordered_set_add_item me).comparator = me.comparator ∧
    (ns.foldl unordered_set_add_item me).size = me.size ∧
    (ns.foldl unordered_set_add_item me).capacity = me.capacity ∧
    (ns.foldl unordered_set_add_item me).buckets.length = me.buckets.length ∧
    Placed (ns.foldl unordered_set_add_item me) ∧
    (nodes (ns.foldl unordered_set_add_item me)).Perm (nodes me ++ ns) := by
  induction ns generalizing me with
  | nil => simp [hp]
  | cons n ns ih =>
    have hw1 : WellFormed (unordered_set_add_item me n) := by
      unfold WellFormed; rw [add_item_length, add_item_capacity]; exact hw
    obtain ⟨h1, h2, h3, h4, h5, h6, h7, h8⟩ := ih _ hw1 (add_item_placed me n hp)
    simp only [List.foldl_cons]
    refine ⟨by simp [h1], by simp [h2], by simp [h3], by simp [h4], by simp [h5],
      by simp [h6], h7, ?_⟩
    refine h8.trans ?_
    have := (add_item_nodes me n hw).append_right ns
    simpa using this

theorem rehash_foldl (me : unordered_set K) (ns : List (node K)) (acc : unordered_set K)
    (h : acc.hash = me.hash) :
    ns.foldl (fun acc traverse => unordered_set_add_item acc
        { traverse with hash := unordered_set_hash acc traverse.key }) acc =
      (ns.map (fun traverse => { traverse with hash := unordered_set_hash me traverse.key })).foldl
        unordered_set_add_item acc := by
  induction ns generalizing acc with
  | nil => rfl
  | cons n ns ih =>
    simp only [List.foldl_cons, List.map_cons]
    rw [ih _ (by simp [h]), unordered_set_hash_congr acc me h]

theorem resize_loop (old : List (List (node K))) (n : Nat) (h : old.length = n)
    (fresh : unordered_set K) :
    (List.range n).foldl
        (fun acc i => (old.getD i []).foldl unordered_set_add_item acc) fresh =
      old.flatten.foldl unordered_set_add_item fresh := by
  rw [foldl_range_getD (fun acc c => c.foldl unordered_set_add_item acc) old n h,
    List.foldl_flatten]


/-! ## Membership -/

theorem SameFunctions.same_refl (me : unordered_set K) : SameFunctions me me := ⟨rfl, rfl, rfl⟩

theorem SameFunctions.trans {a b c : unordered_set K} (h1 : SameFunctions a b)
    (h2 : SameFunctions b c) : SameFunctions a c :=
  ⟨h1.key_size.trans h2.key_size, h1.hash.trans h2.hash, h1.comparator.trans h2.comparator⟩

theorem is_equal_congr (a b : unordered_set K) (h : a.comparator = b.comparator)
    (item : node K) (hash : Nat) (key : K) :
    unordered_set_is_equal a item hash key = unordered_set_is_equal b item hash key := by
  unfold unordered_set_is_equal; rw [h]

theorem is_equal_iff (me : unordered_set K) (item : node K) (hash : Nat) (key : K) :
    unordered_set_is_equal me item hash key = true ↔
      item.hash = hash ∧ me.comparator item.key key = 0 := by
  simp [unordered_set_is_equal]

theorem contains_eq_one_iff_any (me : unordered_set K) (key : K) :
    unordered_set_contains me key = 1 ↔
      (me.buckets.getD (unordered_set_hash me key % me.capacity) []).any
        (fun item => unordered_set_is_equal me item (unordered_set_hash me key) key) = true := by
  unfold unordered_set_contains
  simp only
  split <;> simp_all

theorem contains_zero_or_one (me : unordered_set K) (key : K) :
    unordered_set_contains me key = 0 ∨ unordered_set_contains me key = 1 := by
  unfold unordered_set_contains
  simp only
  split <;> simp

theorem contains_eq_zero_iff (me : unordered_set K) (key : K) :
    unordered_set_contains me key = 0 ↔ ¬ unordered_set_contains me key = 1 := by
  rcases contains_zero_or_one me key with h | h <;> simp [h]

/-- With every node in the bucket of its stored hash, the scan of one bucket finds
a node exactly when the table holds one. -/
theorem contains_iff (me : unordered_set K) (key : K) (hw : WellFormed me)
    (hp : Placed me) :
    unordered_set_contains me key = 1 ↔
      ∃ n ∈ nodes me, n.hash = unordered_set_hash me key ∧ me.comparator n.key key = 0 := by
  rw [contains_eq_one_iff_any, List.any_eq_true]
  have hi : unordered_set_hash me key % me.capacity < me.buckets.length := by
    rw [hw.1]; exact Nat.mod_lt _ hw.2
  constructor
  · rintro ⟨n, hn, he⟩
    exact ⟨n, (mem_flatten_iff_getD _ _).2 ⟨_, hi, hn⟩, (is_equal_iff _ _ _ _).1 he⟩
  · rintro ⟨n, hn, he⟩
    obtain ⟨i, _, hni⟩ := (mem_flatten_iff_getD _ _).1 hn
    have := hp i n hni
    rw [he.1] at this
    rw [this]
    exact ⟨n, hni, (is_equal_iff _ _ _ _).2 he⟩

theorem replicate_placed (me : unordered_set K) (n : Nat)
    (h : me.buckets = List.replicate n []) : Placed me := by
  intro i x hx
  rw [h, List.getD_eq_getElem?_getD, List.getElem?_replicate] at hx
  split at hx <;> simp at hx

theorem replicate_nodes (me : unordered_set K) (n : Nat)
    (h : me.buckets = List.replicate n []) : nodes me = [] := by
  unfold nodes
  rw [h]
  induction n with
  | zero => rfl
  | succ n ih => simp [List.replicate_succ]

/-! ## Growth and rehash -/

theorem resize_fail (me : unordered_set K) :
    unordered_set_resize false me = (-ENOMEM, me) := by
  simp [unordered_set_resize]

theorem resize_ok_eq (me : unordered_set K) (hw : WellFormed me) :
    unordered_set_resize true me =
      (0, (nodes me).foldl unordered_set_add_item
        { me with
          buckets := List.replicate (me.capacity * RESIZE_FACTOR_NUM / RESIZE_FACTOR_DEN) [],
          capacity := me.capacity * RESIZE_FACTOR_NUM / RESIZE_FACTOR_DEN }) := by
  simp only [unordered_set_resize, Bool.not_true, Bool.false_eq_true, if_false]
  rw [resize_loop _ _ hw.1]
  rfl

theorem resize_ok (me : unordered_set K) (hw : WellFormed me) :
    (unordered_set_resize true me).1 = 0 ∧
      (unordered_set_resize true me).2.capacity =
        me.capacity * RESIZE_FACTOR_NUM / RESIZE_FACTOR_DEN ∧
      Relinked me (unordered_set_resize true me).2 := by
  have hcap : 0 < me.capacity * RESIZE_FACTOR_NUM / RESIZE_FACTOR_DEN := by
    have := hw.2
    simp only [RESIZE_FACTOR_NUM, RESIZE_FACTOR_DEN]; omega
  have hle : me.capacity ≤ me.capacity * RESIZE_FACTOR_NUM / RESIZE_FACTOR_DEN := by
    simp only [RESIZE_FACTOR_NUM, RESIZE_FACTOR_DEN]; omega
  rw [resize_ok_eq me hw]
  obtain ⟨h1, h2, h3, h4, h5, h6, h7, h8⟩ :=
    foldl_add_item (nodes me)
      { me with
        buckets := List.replicate (me.capacity * RESIZE_FACTOR_NUM / RESIZE_FACTOR_DEN) [],
        capacity := me.capacity * RESIZE_FACTOR_NUM / RESIZE_FACTOR_DEN }
      ⟨by simp, hcap⟩ (replicate_placed _ _ rfl)
  refine ⟨rfl, h5, ⟨⟨h1, h2, h3⟩, h4, ?_, ?_, h7, ?_⟩⟩
  · exact le_of_le_of_eq hle h5.symm
  · exact (h6.trans (by simp)).trans h5.symm
  · have h0 := replicate_nodes
      { me with
        buckets := List.replicate (me.capacity * RESIZE_FACTOR_NUM / RESIZE_FACTOR_DEN) [],
        capacity := me.capacity * RESIZE_FACTOR_NUM / RESIZE_FACTOR_DEN } _ rfl
    rw [h0] at h8
    simpa using h8

theorem rehash_fail (me : unordered_set K) :
    unordered_set_rehash false me = (-ENOMEM, me) := by
  simp [unordered_set_rehash]

theorem rehash_loop (me : unordered_set K) (hw : WellFormed me) :
    (unordered_set_rehash true me).2 =
      ((nodes me).map
        (fun traverse => { traverse with hash := unordered_set_hash me traverse.key })).foldl
        unordered_set_add_item { me with buckets := List.replicate me.capacity [] } := by
  simp only [unordered_set_rehash, Bool.not_true, Bool.false_eq_true, if_false]
  rw [foldl_range_getD (fun acc c => c.foldl (fun acc traverse => unordered_set_add_item acc
        { traverse with hash := unordered_set_hash acc traverse.key }) acc) me.buckets _ hw.1,
    ← List.foldl_flatten]
  exact rehash_foldl me _ _ rfl


/-! ## The two parts of a put -/

theorem Relinked.self (me : unordered_set K) (hw : WellFormed me) (hp : Placed me) :
    Relinked me me :=
  ⟨SameFunctions.same_refl me, rfl, le_refl _, hw.1, hp, List.Perm.refl _⟩

theorem Relinked.grown_wf {me g : unordered_set K} (h : Relinked me g)
    (hw : WellFormed me) : WellFormed g :=
  ⟨h.length_eq, lt_of_lt_of_le hw.2 h.capacity_le⟩

theorem Relinked.hash_eq {me g : unordered_set K} (h : Relinked me g) (key : K) :
    unordered_set_hash g key = unordered_set_hash me key :=
  unordered_set_hash_congr g me h.same.hash key

/-- Relinking does not change what the set contains. -/
theorem Relinked.contains {me g : unordered_set K} (h : Relinked me g)
    (hw : WellFormed me) (hp : Placed me) (key : K) :
    unordered_set_contains g key = unordered_set_contains me key := by
  have e : unordered_set_contains g key = 1 ↔ unordered_set_contains me key = 1 := by
    rw [contains_iff g key (h.grown_wf hw) h.placed, contains_iff me key hw hp,
      h.hash_eq, h.same.comparator]
    constructor
    · rintro ⟨n, hn, he⟩; exact ⟨n, h.perm.mem_iff.1 hn, he⟩
    · rintro ⟨n, hn, he⟩; exact ⟨n, h.perm.mem_iff.2 hn, he⟩
  rcases contains_zero_or_one g key with h1 | h1 <;>
    rcases contains_zero_or_one me key with h2 | h2
  · rw [h1, h2]
  · rw [e.2 h2] at h1; exact absurd h1 (by decide)
  · rw [e.1 h1] at h2; exact absurd h2 (by decide)
  · rw [h1, h2]

theorem put_grow_idle (a : put_alloc) (me : unordered_set K)
    (h : ¬ RESIZE_AT_DEN * (me.size + 1) ≥ RESIZE_AT_NUM * (me.capacity : Int)) :
    put_grow a me = (0, me) := by
  unfold put_grow; rw [if_neg h]

theorem put_grow_resize (a : put_alloc) (me : unordered_set K)
    (h : RESIZE_AT_DEN * (me.size + 1) ≥ RESIZE_AT_NUM * (me.capacity : Int)) :
    put_grow a me = unordered_set_resize a.resize_ok me := by
  unfold put_grow; rw [if_pos h]

/-- The growth step either fails and leaves the set as it was, or succeeds with
the nodes linked again. -/
theorem put_grow_cases (a : put_alloc) (me : unordered_set K) (hw : WellFormed me)
    (hp : Placed me) :
    (put_grow a me = (-ENOMEM, me) ∧ a.resize_ok = false ∧
        RESIZE_AT_DEN * (me.size + 1) ≥ RESIZE_AT_NUM * (me.capacity : Int)) ∨
      ((put_grow a me).1 = 0 ∧ Relinked me (put_grow a me).2) := by
  by_cases h : RESIZE_AT_DEN * (me.size + 1) ≥ RESIZE_AT_NUM * (me.capacity : Int)
  · rw [put_grow_resize a me h]
    cases hr : a.resize_ok with
    | false => exact Or.inl ⟨resize_fail me, rfl, h⟩
    | true => exact Or.inr ⟨(resize_ok me hw).1, (resize_ok me hw).2.2⟩
  · rw [put_grow_idle a me h]
    exact Or.inr ⟨rfl, Relinked.self me hw hp⟩

theorem ENOMEM_ne : (-ENOMEM : Int) ≠ 0 := by decide

theorem create_element_eq (node_ok key_ok : Bool) (me : unordered_set K) (hash : Nat)
    (key : K) :
    unordered_set_create_element node_ok key_ok me hash key =
      if node_ok && key_ok then some { key := key, hash := hash } else none := by
  unfold unordered_set_create_element
  cases node_ok <;> cases key_ok <;> rfl

/-- The insertion part of a put in one formula: nothing at a node equal to the
key, else the new node linked like `unordered_set_add_item` does and counted. -/
theorem put_insert_eq (a : put_alloc) (me : unordered_set K) (hash : Nat) (key : K) :
    put_insert a me hash key =
      if (me.buckets.getD (hash % me.capacity) []).any
          (fun item => unordered_set_is_equal me item hash key) then (0, me)
      else if a.node_ok && a.key_ok then
        (0, { unordered_set_add_item me { key := key, hash := hash } with size := me.size + 1 })
      else (-ENOMEM, me) := by
  unfold put_insert
  rw [create_element_eq, add_item_eq]
  dsimp only
  cases hc : me.buckets.getD (hash % me.capacity) [] with
  | nil =>
    cases hb : (a.node_ok && a.key_ok) <;> simp [hb]
  | cons t r =>
    cases hb : (a.node_ok && a.key_ok) <;>
      cases hf : (t :: r).any (fun item => unordered_set_is_equal me item hash key) <;>
      simp [hb, hf]

theorem put_eq (a : put_alloc) (me : unordered_set K) (key : K) :
    unordered_set_put a me key =
      if (put_grow a me).1 ≠ 0 then put_grow a me
      else put_insert a (put_grow a me).2 (unordered_set_hash me key) key := by
  unfold unordered_set_put
  rfl


theorem put_grow_load (a : put_alloc) (me : unordered_set K) (hw : WellFormed me)
    (hc : STARTING_BUCKETS ≤ me.capacity)
    (hl : RESIZE_AT_DEN * me.size < RESIZE_AT_NUM * (me.capacity : Int))
    (h0 : (put_grow a me).1 = 0) :
    RESIZE_AT_DEN * ((put_grow a me).2.size + 1) <
      RESIZE_AT_NUM * ((put_grow a me).2.capacity : Int) := by
  by_cases h : RESIZE_AT_DEN * (me.size + 1) ≥ RESIZE_AT_NUM * (me.capacity : Int)
  · rw [put_grow_resize a me h] at h0 ⊢
    cases hr : a.resize_ok with
    | false => rw [hr, resize_fail] at h0; exact absurd h0 ENOMEM_ne
    | true =>
      obtain ⟨_, h2, h3⟩ := resize_ok me hw
      rw [h2, h3.size_eq]
      simp only [RESIZE_AT_DEN, RESIZE_AT_NUM, RESIZE_FACTOR_NUM, RESIZE_FACTOR_DEN,
        STARTING_BUCKETS] at *
      omega
  · rw [put_grow_idle a me h]
    exact lt_of_not_ge h

theorem found_iff_contains (me g : unordered_set K) (h : Relinked me g)
    (hw : WellFormed me) (hp : Placed me) (key : K) :
    (g.buckets.getD (unordered_set_hash me key % g.capacity) []).any
        (fun item => unordered_set_is_equal g item (unordered_set_hash me key) key) = true ↔
      unordered_set_contains me key = 1 := by
  rw [← h.contains hw hp key, contains_eq_one_iff_any, h.hash_eq]

/-- What a put does, by the cases of the source: failed growth; key found; failed
element creation; new element linked. -/
theorem put_cases (a : put_alloc) (me : unordered_set K) (key : K) (hw : WellFormed me)
    (hp : Placed me) :
    (unordered_set_put a me key = (-ENOMEM, me) ∧ put_grow a me = (-ENOMEM, me)) ∨
    ((put_grow a me).1 = 0 ∧ Relinked me (put_grow a me).2 ∧
      ((unordered_set_contains me key = 1 ∧
          unordered_set_put a me key = (0, (put_grow a me).2)) ∨
        (unordered_set_contains me key = 0 ∧ (a.node_ok && a.key_ok) = false ∧
          unordered_set_put a me key = (-ENOMEM, (put_grow a me).2)) ∨
        (unordered_set_contains me key = 0 ∧ (a.node_ok && a.key_ok) = true ∧
          unordered_set_put a me key =
            (0, { unordered_set_add_item (put_grow a me).2
                    { key := key, hash := unordered_set_hash me key } with
                  size := (put_grow a me).2.size + 1 })))) := by
  rcases put_grow_cases a me hw hp with ⟨h1, _, _⟩ | ⟨h1, h2⟩
  · left
    refine ⟨?_, h1⟩
    rw [put_eq, h1, if_pos ENOMEM_ne]
  · right
    refine ⟨h1, h2, ?_⟩
    rw [put_eq, if_neg (by rw [h1]; simp), put_insert_eq]
    have hf := found_iff_contains me _ h2 hw hp key
    rcases contains_zero_or_one me key with hc | hc
    · have hnf : ¬ (((put_grow a me).2.buckets.getD
          (unordered_set_hash me key % (put_grow a me).2.capacity) []).any
          (fun item => unordered_set_is_equal (put_grow a me).2 item
            (unordered_set_hash me key) key) = true) := by
        rw [hf, hc]; decide
      rw [if_neg hnf]
      cases hb : (a.node_ok && a.key_ok) with
      | false => exact Or.inr (Or.inl ⟨hc, rfl, by simp⟩)
      | true => exact Or.inr (Or.inr ⟨hc, rfl, by simp⟩)
    · rw [if_pos (hf.2 hc)]
      exact Or.inl ⟨hc, rfl⟩

/-! ## Removal -/

theorem remove_chain_none_iff (me : unordered_set K) (hash : Nat) (key : K)
    (c : List (node K)) :
    remove_chain me hash key c = none ↔
      c.any (fun item => unordered_set_is_equal me item hash key) = false := by
  induction c with
  | nil => simp [remove_chain]
  | cons t r ih =>
    unfold remove_chain
    cases ht : unordered_set_is_equal me t hash key with
    | true => simp [ht]
    | false => simpa [ht] using ih

theorem remove_chain_some (me : unordered_set K) (hash : Nat) (key : K)
    (c c' : List (node K)) (h : remove_chain me hash key c = some c') :
    ∃ pre n post, c = pre ++ n :: post ∧ c' = pre ++ post ∧
      unordered_set_is_equal me n hash key = true ∧
      ∀ x ∈ pre, unordered_set_is_equal me x hash key = false := by
  induction c generalizing c' with
  | nil => simp [remove_chain] at h
  | cons t r ih =>
    unfold remove_chain at h
    cases ht : unordered_set_is_equal me t hash key with
    | true =>
      rw [ht] at h
      simp only [if_true, Option.some.injEq] at h
      exact ⟨[], t, r, rfl, by simp [h], ht, by simp⟩
    | false =>
      rw [ht] at h
      simp only [Bool.false_eq_true, if_false, Option.map_eq_some'] at h
      obtain ⟨r', hr', rfl⟩ := h
      obtain ⟨pre, n, post, e1, e2, e3, e4⟩ := ih r' hr'
      refine ⟨t :: pre, n, post, by simp [e1], by simp [e2], e3, ?_⟩
      intro x hx
      rcases List.mem_cons.1 hx with rfl | hx
      · exact ht
      · exact e4 x hx

/-- What a remove does: nothing when no node of the bucket equals the key, else
the first such node is unlinked and the size is decremented. -/
theorem remove_cases (me : unordered_set K) (key : K) :
    (unordered_set_contains me key = 0 ∧ unordered_set_remove me key = (0, me)) ∨
    (unordered_set_contains me key = 1 ∧
      ∃ pre n post,
        me.buckets.getD (unordered_set_hash me key % me.capacity) [] = pre ++ n :: post ∧
        unordered_set_is_equal me n (unordered_set_hash me key) key = true ∧
        (∀ x ∈ pre, unordered_set_is_equal me x (unordered_set_hash me key) key = false) ∧
        unordered_set_remove me key =
          (1, { me with
                buckets := me.buckets.set (unordered_set_hash me key % me.capacity) (pre ++ post),
                size := me.size - 1 })) := by
  unfold unordered_set_remove
  dsimp only
  cases hr : remove_chain me (unordered_set_hash me key) key
      (me.buckets.getD (unordered_set_hash me key % me.capacity) []) with
  | none =>
    left
    refine ⟨?_, rfl⟩
    rw [contains_eq_zero_iff, contains_eq_one_iff_any, (remove_chain_none_iff _ _ _ _).1 hr]
    simp
  | some c' =>
    right
    obtain ⟨pre, n, post, e1, e2, e3, e4⟩ := remove_chain_some _ _ _ _ _ hr
    refine ⟨?_, pre, n, post, e1, e3, e4, by rw [e2]⟩
    rw [contains_eq_one_iff_any, e1]
    simp [e3]


/-! ## The invariant of the reachable states -/

theorem Inv.wf {me : unordered_set K} (h : Inv me) : WellFormed me :=
  ⟨h.length_eq, lt_of_lt_of_le (by decide) h.capacity_ge⟩

theorem inv_init (key_size : Nat) (hash : Option (K → Nat))
    (comparator : Option (K → K → Int)) (malloc_ok calloc_ok : Bool) (me : unordered_set K)
    (h : unordered_set_init key_size hash comparator malloc_ok calloc_ok = some me) :
    Inv me := by
  unfold unordered_set_init at h
  split at h
  · split at h
    · exact absurd h (by simp)
    · split at h
      · exact absurd h (by simp)
      · split at h
        · exact absurd h (by simp)
        · rename_i hk _ _
          simp only [Option.some.injEq] at h
          subst h
          refine ⟨by simp, le_refl _, replicate_placed _ _ rfl, ?_, ?_, ?_, hk⟩
          · intro n hn
            rw [replicate_nodes _ _ rfl] at hn
            exact absurd hn (List.not_mem_nil n)
          · rw [replicate_nodes _ _ rfl]; rfl
          · simp [RESIZE_AT_DEN, RESIZE_AT_NUM, STARTING_BUCKETS]
  · exact absurd h (by simp)

theorem inv_relinked {me g : unordered_set K} (hi : Inv me) (h : Relinked me g) : Inv g := by
  refine ⟨h.length_eq, le_trans hi.capacity_ge h.capacity_le, h.placed, ?_, ?_, ?_, ?_⟩
  · intro n hn
    rw [h.hash_eq]
    exact hi.stored n (h.perm.mem_iff.1 hn)
  · rw [h.size_eq, hi.size_eq, h.perm.length_eq]
  · have h1 := hi.load
    have h2 := h.capacity_le
    rw [h.size_eq]
    simp only [RESIZE_AT_DEN, RESIZE_AT_NUM] at *
    omega
  · rw [h.same.key_size]; exact hi.key_size_ne

theorem inv_linked {g : unordered_set K} (hi : Inv g) (n : node K)
    (hn : n.hash = unordered_set_hash g n.key)
    (hl : RESIZE_AT_DEN * (g.size + 1) < RESIZE_AT_NUM * (g.capacity : Int)) :
    Inv { unordered_set_add_item g n with size := g.size + 1 } := by
  have hperm := add_item_nodes g n hi.wf
  refine ⟨?_, ?_, ?_, ?_, ?_, ?_, ?_⟩
  · show (unordered_set_add_item g n).buckets.length = (unordered_set_add_item g n).capacity
    rw [add_item_length, add_item_capacity]; exact hi.length_eq
  · show STARTING_BUCKETS ≤ (unordered_set_add_item g n).capacity
    rw [add_item_capacity]; exact hi.capacity_ge
  · exact add_item_placed g n hi.placed
  · intro x hx
    have hx' : x ∈ nodes g ++ [n] := hperm.mem_iff.1 hx
    have e : unordered_set_hash { unordered_set_add_item g n with size := g.size + 1 } x.key =
        unordered_set_hash g x.key := unordered_set_hash_congr _ _ (add_item_hash g n) _
    rw [e]
    rcases List.mem_append.1 hx' with h | h
    · exact hi.stored x h
    · rw [List.mem_singleton.1 h]; exact hn
  · show g.size + 1 = ((nodes (unordered_set_add_item g n)).length : Int)
    rw [hperm.length_eq, hi.size_eq]
    simp
  · show RESIZE_AT_DEN * (g.size + 1) <
      RESIZE_AT_NUM * ((unordered_set_add_item g n).capacity : Int)
    rw [add_item_capacity]; exact hl
  · show (unordered_set_add_item g n).key_size ≠ 0
    rw [add_item_key_size]; exact hi.key_size_ne

theorem inv_put (a : put_alloc) (me : unordered_set K) (key : K) (hi : Inv me) :
    Inv (unordered_set_put a me key).2 := by
  rcases put_cases a me key hi.wf hi.placed with ⟨h, _⟩ | ⟨h0, hr, h⟩
  · rw [h]; exact hi
  · have hg := inv_relinked hi hr
    rcases h with ⟨_, h⟩ | ⟨_, _, h⟩ | ⟨_, _, h⟩
    · rw [h]; exact hg
    · rw [h]; exact hg
    · rw [h]
      refine inv_linked hg _ (hr.hash_eq key).symm ?_
      exact put_grow_load a me hi.wf hi.capacity_ge hi.load h0

theorem unlink_perm (me : unordered_set K) (i : Nat) (pre post : List (node K))
    (n : node K) (hi : i < me.buckets.length)
    (hc : me.buckets.getD i [] = pre ++ n :: post) :
    (nodes me).Perm
      (n :: nodes { me with buckets := me.buckets.set i (pre ++ post), size := me.size - 1 }) := by
  unfold nodes
  dsimp only
  rw [flatten_set _ _ _ hi, flatten_split me.buckets i hi, ← List.getD_eq_getElem _ [] hi, hc]
  generalize (List.take i me.buckets).flatten = front
  generalize (List.drop (i + 1) me.buckets).flatten = back
  have e1 : front ++ (pre ++ n :: post ++ back) = (front ++ pre) ++ n :: (post ++ back) := by
    simp
  have e2 : front ++ (pre ++ post ++ back) = (front ++ pre) ++ (post ++ back) := by simp
  rw [e1, e2]
  exact List.perm_middle


theorem inv_remove (me : unordered_set K) (key : K) (hi : Inv me) :
    Inv (unordered_set_remove me key).2 := by
  rcases remove_cases me key with ⟨_, h⟩ | ⟨_, pre, n, post, hc, _, _, h⟩
  · rw [h]; exact hi
  · rw [h]
    dsimp only
    have hidx : unordered_set_hash me key % me.capacity < me.buckets.length := by
      rw [hi.length_eq]; exact Nat.mod_lt _ hi.wf.2
    have hperm := unlink_perm me _ pre post n hidx hc
    refine ⟨?_, hi.capacity_ge, ?_, ?_, ?_, ?_, hi.key_size_ne⟩
    · show (me.buckets.set _ (pre ++ post)).length = me.capacity
      rw [List.length_set]; exact hi.length_eq
    · intro j x hx
      rcases mem_getD_set _ _ _ _ _ hx with ⟨rfl, hx'⟩ | hx'
      · refine hi.placed _ x ?_
        rw [hc]
        rcases List.mem_append.1 hx' with h1 | h1
        · exact List.mem_append_left _ h1
        · exact List.mem_append_right _ (List.mem_cons_of_mem _ h1)
      · exact hi.placed j x hx'
    · intro x hx
      exact hi.stored x (hperm.mem_iff.2 (List.mem_cons_of_mem _ hx))
    · have h1 := hi.size_eq
      have h2 := hperm.length_eq
      rw [List.length_cons] at h2
      show me.size - 1 = _
      omega
    · have h1 := hi.load
      show RESIZE_AT_DEN * (me.size - 1) < RESIZE_AT_NUM * (me.capacity : Int)
      simp only [RESIZE_AT_DEN, RESIZE_AT_NUM] at *
      omega

/-- A successful rehash: the functions, the size and the capacity stay, the nodes
are the old ones with recomputed hashes, each in the bucket of its hash. -/
theorem rehash_ok (me : unordered_set K) (hw : WellFormed me) :
    (unordered_set_rehash true me).1 = 0 ∧
    SameFunctions (unordered_set_rehash true me).2 me ∧
    (unordered_set_rehash true me).2.size = me.size ∧
    (unordered_set_rehash true me).2.capacity = me.capacity ∧
    (unordered_set_rehash true me).2.buckets.length = me.capacity ∧
    Placed (unordered_set_rehash true me).2 ∧
    (nodes (unordered_set_rehash true me).2).Perm
      ((nodes me).map
        (fun traverse => { traverse with hash := unordered_set_hash me traverse.key })) := by
  refine ⟨by simp [unordered_set_rehash], ?_⟩
  rw [rehash_loop me hw]
  obtain ⟨h1, h2, h3, h4, h5, h6, h7, h8⟩ :=
    foldl_add_item
      ((nodes me).map
        (fun traverse => { traverse with hash := unordered_set_hash me traverse.key }))
      { me with buckets := List.replicate me.capacity [] }
      ⟨by simp, hw.2⟩ (replicate_placed _ _ rfl)
  refine ⟨⟨h1, h2, h3⟩, h4, h5, h6.trans (by simp), h7, ?_⟩
  have h0 := replicate_nodes { me with buckets := List.replicate me.capacity [] } _ rfl
  rw [h0] at h8
  simpa using h8

theorem inv_rehash (calloc_ok : Bool) (me : unordered_set K) (hi : Inv me) :
    Inv (unordered_set_rehash calloc_ok me).2 := by
  cases calloc_ok with
  | false => rw [rehash_fail]; exact hi
  | true =>
    obtain ⟨_, hs, hsz, hcap, hlen, hp, hperm⟩ := rehash_ok me hi.wf
    refine ⟨hlen.trans hcap.symm, ?_, hp, ?_, ?_, ?_, ?_⟩
    · rw [hcap]; exact hi.capacity_ge
    · intro n hn
      obtain ⟨t, _, rfl⟩ := List.mem_map.1 (hperm.mem_iff.1 hn)
      exact (unordered_set_hash_congr _ _ hs.hash _).symm
    · rw [hsz, hi.size_eq, hperm.length_eq, List.length_map]
    · rw [hsz, hcap]; exact hi.load
    · rw [hs.key_size]; exact hi.key_size_ne

theorem clear_fail (me : unordered_set K) : unordered_set_clear false me = (-ENOMEM, me) := by
  simp [unordered_set_clear]

theorem clear_ok (me : unordered_set K) :
    unordered_set_clear true me =
      (0, { me with size := 0, capacity := STARTING_BUCKETS,
                    buckets := List.replicate STARTING_BUCKETS [] }) := by
  simp [unordered_set_clear]

theorem inv_clear (calloc_ok : Bool) (me : unordered_set K) (hi : Inv me) :
    Inv (unordered_set_clear calloc_ok me).2 := by
  cases calloc_ok with
  | false => rw [clear_fail]; exact hi
  | true =>
    rw [clear_ok]
    refine ⟨by simp, le_refl _, replicate_placed _ _ rfl, ?_, ?_, ?_, hi.key_size_ne⟩
    · intro n hn
      rw [replicate_nodes _ _ rfl] at hn
      exact absurd hn (List.not_mem_nil n)
    · rw [replicate_nodes _ _ rfl]; rfl
    · simp [RESIZE_AT_DEN, RESIZE_AT_NUM, STARTING_BUCKETS]

/-- Every reachable state satisfies the invariant. -/
theorem inv_reachable (me : unordered_set K) (h : Reachable me) : Inv me := by
  induction h with
  | init key_size hash comparator malloc_ok calloc_ok me h =>
    exact inv_init key_size hash comparator malloc_ok calloc_ok me h
  | put a me key _ ih => exact inv_put a me key ih
  | remove me key _ ih => exact inv_remove me key ih
  | rehash calloc_ok me _ ih => exact inv_rehash calloc_ok me ih
  | clear calloc_ok me _ ih => exact inv_clear calloc_ok me ih

/-! ## The functions of a set never change -/

theorem put_same (a : put_alloc) (me : unordered_set K) (key : K) (hi : Inv me) :
    SameFunctions (unordered_set_put a me key).2 me := by
  rcases put_cases a me key hi.wf hi.placed with ⟨h, _⟩ | ⟨_, hr, h⟩
  · rw [h]; exact SameFunctions.same_refl me
  · rcases h with ⟨_, h⟩ | ⟨_, _, h⟩ | ⟨_, _, h⟩
    · rw [h]; exact hr.same
    · rw [h]; exact hr.same
    · rw [h]
      exact ⟨(add_item_key_size _ _).trans hr.same.key_size,
        (add_item_hash _ _).trans hr.same.hash,
        (add_item_comparator _ _).trans hr.same.comparator⟩

theorem remove_same (me : unordered_set K) (key : K) :
    SameFunctions (unordered_set_remove me key).2 me := by
  rcases remove_cases me key with ⟨_, h⟩ | ⟨_, pre, n, post, _, _, _, h⟩
  · rw [h]; exact SameFunctions.same_refl me
  · rw [h]; exact ⟨rfl, rfl, rfl⟩

theorem rehash_same (calloc_ok : Bool) (me : unordered_set K) (hw : WellFormed me) :
    SameFunctions (unordered_set_rehash calloc_ok me).2 me := by
  cases calloc_ok with
  | false => rw [rehash_fail]; exact SameFunctions.same_refl me
  | true => exact (rehash_ok me hw).2.1

theorem clear_same (calloc_ok : Bool) (me : unordered_set K) :
    SameFunctions (unordered_set_clear calloc_ok me).2 me := by
  cases calloc_ok with
  | false => rw [clear_fail]; exact SameFunctions.same_refl me
  | true => rw [clear_ok]; exact ⟨rfl, rfl, rfl⟩


/-! ## Key uniqueness -/

theorem unique_congr {a b : unordered_set K} (hc : a.comparator = b.comparator)
    (hp : (nodes a).Perm (nodes b)) (hu : Unique b) : Unique a := by
  unfold Unique at hu ⊢
  rw [hc]
  exact (List.Perm.pairwise_iff (fun h => ⟨h.2, h.1⟩) hp).2 hu

/-- In a reachable state a key is found exactly when some node holds a key the
comparator reports equal to it: the stored hashes then agree by themselves. -/
theorem contains_iff_key (me : unordered_set K) (key : K) (hi : Inv me)
    (hcons : hash_consistent me.comparator me.hash) :
    unordered_set_contains me key = 1 ↔ ∃ n ∈ nodes me, me.comparator n.key key = 0 := by
  rw [contains_iff me key hi.wf hi.placed]
  constructor
  · rintro ⟨n, hn, _, he⟩; exact ⟨n, hn, he⟩
  · rintro ⟨n, hn, he⟩
    refine ⟨n, hn, ?_, he⟩
    rw [hi.stored n hn]
    unfold unordered_set_hash
    rw [hcons _ _ he]

theorem unique_put (a : put_alloc) (me : unordered_set K) (key : K) (hi : Inv me)
    (hcmp : comparator_equiv me.comparator) (hcons : hash_consistent me.comparator me.hash)
    (hu : Unique me) : Unique (unordered_set_put a me key).2 := by
  rcases put_cases a me key hi.wf hi.placed with ⟨h, _⟩ | ⟨_, hr, h⟩
  · rw [h]; exact hu
  · have hg : Unique (put_grow a me).2 := unique_congr hr.same.comparator hr.perm hu
    rcases h with ⟨_, h⟩ | ⟨_, _, h⟩ | ⟨hc, _, h⟩
    · rw [h]; exact hg
    · rw [h]; exact hg
    · rw [h]
      have hperm := add_item_nodes (put_grow a me).2
        { key := key, hash := unordered_set_hash me key } (hr.grown_wf hi.wf)
      have hno : ¬ ∃ n ∈ nodes me, me.comparator n.key key = 0 := by
        rw [← contains_iff_key me key hi hcons, hc]; decide
      unfold Unique at hg ⊢
      show List.Pairwise
        (fun x y => (unordered_set_add_item (put_grow a me).2 _).comparator x.key y.key ≠ 0 ∧
          (unordered_set_add_item (put_grow a me).2 _).comparator y.key x.key ≠ 0)
        (nodes (unordered_set_add_item (put_grow a me).2 _))
      rw [add_item_comparator]
      refine (List.Perm.pairwise_iff (fun h => ⟨h.2, h.1⟩) hperm).2 ?_
      rw [List.pairwise_append]
      refine ⟨hg, List.pairwise_singleton _ _, ?_⟩
      intro x hx y hy
      rw [List.mem_singleton.1 hy, hr.same.comparator]
      have hx' : x ∈ nodes me := hr.perm.mem_iff.1 hx
      constructor
      · intro h0; exact hno ⟨x, hx', h0⟩
      · intro h0; exact hno ⟨x, hx', hcmp.2.1 _ _ h0⟩

theorem unique_remove (me : unordered_set K) (key : K) (hi : Inv me) (hu : Unique me) :
    Unique (unordered_set_remove me key).2 := by
  rcases remove_cases me key with ⟨_, h⟩ | ⟨_, pre, n, post, hc, _, _, h⟩
  · rw [h]; exact hu
  · rw [h]
    have hidx : unordered_set_hash me key % me.capacity < me.buckets.length := by
      rw [hi.length_eq]; exact Nat.mod_lt _ hi.wf.2
    have hperm := unlink_perm me _ pre post n hidx hc
    unfold Unique at hu ⊢
    have := (List.Perm.pairwise_iff (fun h => ⟨h.2, h.1⟩) hperm).1 hu
    exact (List.pairwise_cons.1 this).2

theorem unique_rehash (calloc_ok : Bool) (me : unordered_set K) (hi : Inv me)
    (hu : Unique me) : Unique (unordered_set_rehash calloc_ok me).2 := by
  cases calloc_ok with
  | false => rw [rehash_fail]; exact hu
  | true =>
    obtain ⟨_, hs, _, _, _, _, hperm⟩ := rehash_ok me hi.wf
    unfold Unique at hu ⊢
    rw [hs.comparator]
    refine (List.Perm.pairwise_iff (fun h => ⟨h.2, h.1⟩) hperm).2 ?_
    rw [List.pairwise_map]
    exact hu

theorem unique_clear (calloc_ok : Bool) (me : unordered_set K) (hu : Unique me) :
    Unique (unordered_set_clear calloc_ok me).2 := by
  cases calloc_ok with
  | false => rw [clear_fail]; exact hu
  | true =>
    rw [clear_ok]
    unfold Unique
    rw [replicate_nodes _ _ rfl]
    exact List.Pairwise.nil

/-- With a comparator that is an equivalence and a hash that respects it, no
reachable state holds two nodes with equal keys. -/
theorem unique_reachable (me : unordered_set K) (h : Reachable me)
    (hcmp : comparator_equiv me.comparator) (hcons : hash_consistent me.comparator me.hash) :
    Unique me := by
  induction h with
  | init key_size hash comparator malloc_ok calloc_ok me h =>
    have hi := inv_init key_size hash comparator malloc_ok calloc_ok me h
    have h0 : (nodes me).length = 0 := by
      have h1 := hi.size_eq
      unfold unordered_set_init at h
      split at h
      · split at h
        · exact absurd h (by simp)
        · split at h
          · exact absurd h (by simp)
          · split at h
            · exact absurd h (by simp)
            · simp only [Option.some.injEq] at h
              subst h
              rw [replicate_nodes _ _ rfl]; rfl
      · exact absurd h (by simp)
    unfold Unique
    rw [List.length_eq_zero.1 h0]
    exact List.Pairwise.nil
  | put a me key hr ih =>
    have hi := inv_reachable me hr
    have hs := put_same a me key hi
    rw [hs.comparator] at hcmp hcons
    rw [hs.hash] at hcons
    exact unique_put a me key hi hcmp hcons (ih hcmp hcons)
  | remove me key hr ih =>
    have hi := inv_reachable me hr
    have hs := remove_same me key
    rw [hs.comparator] at hcmp hcons
    rw [hs.hash] at hcons
    exact unique_remove me key hi (ih hcmp hcons)
  | rehash calloc_ok me hr ih =>
    have hi := inv_reachable me hr
    have hs := rehash_same calloc_ok me hi.wf
    rw [hs.comparator] at hcmp hcons
    rw [hs.hash] at hcons
    exact unique_rehash calloc_ok me hi (ih hcmp hcons)
  | clear calloc_ok me hr ih =>
    have hs := clear_same calloc_ok me
    rw [hs.comparator] at hcmp hcons
    rw [hs.hash] at hcons
    exact unique_clear calloc_ok me (ih hcmp hcons)

/-! ## Facts on the concrete sets -/

theorem nat_set_reachable : Reachable nat_set :=
  Reachable.init 4 (some nat_hash) (some nat_compare) true true nat_set rfl

theorem put_all_reachable (me : unordered_set K) (keys : List K) (h : Reachable me) :
    Reachable (put_all me keys) := by
  induction keys generalizing me with
  | nil => exact h
  | cons key rest ih => exact ih _ (Reachable.put alloc_ok me key h)

theorem nat_compare_equiv : comparator_equiv nat_compare := by
  refine ⟨?_, ?_, ?_⟩
  · intro a; simp [nat_compare]
  · intro a b h; simp only [nat_compare] at *; omega
  · intro a b c h1 h2; simp only [nat_compare] at *; omega

theorem nat_hash_consistent : hash_consistent nat_compare nat_hash := by
  intro a b h
  simp only [nat_compare, nat_hash] at *
  have : a = b := by omega
  rw [this]

theorem put_grow_ok (a : put_alloc) (me : unordered_set K) (hw : WellFormed me)
    (hp : Placed me) (ha : a.resize_ok = true) : (put_grow a me).1 = 0 := by
  rcases put_grow_cases a me hw hp with ⟨_, h, _⟩ | ⟨h, _⟩
  · rw [ha] at h; exact absurd h (by simp)
  · exact h

/-- A put that returns 0 leaves the key contained. -/
theorem put_then_contains (a : put_alloc) (me : unordered_set K) (k : K)
    (hr : Reachable me) (hrefl : me.comparator k k = 0)
    (hput : (unordered_set_put a me k).1 = 0) :
    unordered_set_contains (unordered_set_put a me k).2 k = 1 := by
  have hi := inv_reachable me hr
  rcases put_cases a me k hi.wf hi.placed with ⟨h, _⟩ | ⟨_, hrel, h⟩
  · rw [h] at hput; exact absurd hput ENOMEM_ne
  · rcases h with ⟨hc, h⟩ | ⟨_, _, h⟩ | ⟨_, _, h⟩
    · rw [h]; exact (hrel.contains hi.wf hi.placed k).trans hc
    · rw [h] at hput; exact absurd hput ENOMEM_ne
    · have hi' := inv_put a me k hi
      have hs := put_same a me k hi
      rw [contains_iff _ k hi'.wf hi'.placed]
      refine ⟨{ key := k, hash := unordered_set_hash me k }, ?_, ?_, ?_⟩
      · rw [h]
        have hperm := add_item_nodes (put_grow a me).2
          { key := k, hash := unordered_set_hash me k } (hrel.grown_wf hi.wf)
        exact hperm.mem_iff.2 (List.mem_append_right _ (List.mem_singleton.2 rfl))
      · exact (unordered_set_hash_congr _ _ hs.hash k).symm
      · rw [hs.comparator]; exact hrefl

/-! ## Counting distinct keys -/

/-- Pairwise different keys that all have an equal among the keys of a second list
are at most as many as the keys of that list. -/
theorem reps_length_le (cmp : K → K → Int) (hcmp : comparator_equiv cmp) (l1 : List K) :
    ∀ l2 : List K, l1.Pairwise (fun a b => cmp a b ≠ 0) →
      (∀ a ∈ l1, ∃ b ∈ l2, cmp a b = 0) → l1.length ≤ l2.length := by
  induction l1 with
  | nil => intro l2 _ _; exact Nat.zero_le _
  | cons a rest ih =>
    intro l2 hp hcov
    obtain ⟨b, hb, hab⟩ := hcov a (List.mem_cons_self _ _)
    obtain ⟨s, t, rfl⟩ := List.append_of_mem hb
    have hp' := List.pairwise_cons.1 hp
    have hlen := ih (s ++ t) hp'.2 (by
      intro x hx
      obtain ⟨y, hy, hxy⟩ := hcov x (List.mem_cons_of_mem _ hx)
      refine ⟨y, ?_, hxy⟩
      rcases List.mem_append.1 hy with h | h
      · exact List.mem_append_left _ h
      · rcases List.mem_cons.1 h with h | h
        · subst h
          exact absurd (hcmp.2.2 _ _ _ hab (hcmp.2.1 _ _ hxy)) (hp'.1 x hx)
        · exact List.mem_append_right _ h)
    simp only [List.length_append, List.length_cons] at *
    omega

theorem put_contains_mono (a : put_alloc) (me : unordered_set K) (k k' : K) (hi : Inv me)
    (h : unordered_set_contains me k' = 1) :
    unordered_set_contains (unordered_set_put a me k).2 k' = 1 := by
  rcases put_cases a me k hi.wf hi.placed with ⟨h1, _⟩ | ⟨_, hrel, h1⟩
  · rw [h1]; exact h
  · have hg := (hrel.contains hi.wf hi.placed k').trans h
    rcases h1 with ⟨_, h1⟩ | ⟨_, _, h1⟩ | ⟨_, _, h1⟩
    · rw [h1]; exact hg
    · rw [h1]; exact hg
    · have hi' := inv_put a me k hi
      have hs := put_same a me k hi
      have hig := inv_relinked hi hrel
      rw [contains_iff _ k' hig.wf hig.placed] at hg
      obtain ⟨n, hn, he1, he2⟩ := hg
      rw [contains_iff _ k' hi'.wf hi'.placed]
      have hperm := add_item_nodes (put_grow a me).2
        { key := k, hash := unordered_set_hash me k } hig.wf
      refine ⟨n, ?_, ?_, ?_⟩
      · rw [h1]; exact hperm.mem_iff.2 (List.mem_append_left _ hn)
      · rw [he1]
        exact (hrel.hash_eq k').trans (unordered_set_hash_congr _ _ hs.hash k').symm
      · rw [hs.comparator, ← hrel.same.comparator]; exact he2

theorem put_nodes_subset (a : put_alloc) (me : unordered_set K) (k : K) (hi : Inv me)
    (n : node K) (hn : n ∈ nodes (unordered_set_put a me k).2) :
    n ∈ nodes me ∨ n.key = k := by
  rcases put_cases a me k hi.wf hi.placed with ⟨h1, _⟩ | ⟨_, hrel, h1⟩
  · rw [h1] at hn; exact Or.inl hn
  · rcases h1 with ⟨_, h1⟩ | ⟨_, _, h1⟩ | ⟨_, _, h1⟩
    · rw [h1] at hn; exact Or.inl (hrel.perm.mem_iff.1 hn)
    · rw [h1] at hn; exact Or.inl (hrel.perm.mem_iff.1 hn)
    · rw [h1] at hn
      have hperm := add_item_nodes (put_grow a me).2
        { key := k, hash := unordered_set_hash me k } (hrel.grown_wf hi.wf)
      rcases List.mem_append.1 (hperm.mem_iff.1 hn) with h | h
      · exact Or.inl (hrel.perm.mem_iff.1 h)
      · rw [List.mem_singleton.1 h]; exact Or.inr rfl

theorem put_ok_code (a : put_alloc) (me : unordered_set K) (k : K) (hi : Inv me)
    (h1 : a.resize_ok = true) (h2 : a.node_ok = true) (h3 : a.key_ok = true) :
    (unordered_set_put a me k).1 = 0 := by
  rcases put_cases a me k hi.wf hi.placed with ⟨_, h⟩ | ⟨_, _, h⟩
  · have := put_grow_ok a me hi.wf hi.placed h1
    rw [h] at this; exact absurd this ENOMEM_ne
  · rcases h with ⟨_, h⟩ | ⟨_, hb, _⟩ | ⟨_, _, h⟩
    · rw [h]
    · rw [h2, h3] at hb; exact absurd hb (by decide)
    · rw [h]

/-- A put that returns 0 raises the size by one for an absent key and leaves it for
a present key. -/
theorem put_size (a : put_alloc) (me : unordered_set K) (k : K) (hi : Inv me)
    (h0 : (unordered_set_put a me k).1 = 0) :
    (unordered_set_contains me k = 0 →
        (unordered_set_put a me k).2.size = me.size + 1) ∧
      (unordered_set_contains me k = 1 → (unordered_set_put a me k).2.size = me.size) := by
  rcases put_cases a me k hi.wf hi.placed with ⟨h, _⟩ | ⟨_, hrel, h⟩
  · rw [h] at h0; exact absurd h0 ENOMEM_ne
  · rcases h with ⟨hc, h⟩ | ⟨_, _, h⟩ | ⟨hc, _, h⟩
    · refine ⟨fun h1 => ?_, fun _ => ?_⟩
      · rw [hc] at h1; exact absurd h1 (by decide)
      · rw [h]; exact hrel.size_eq
    · rw [h] at h0; exact absurd h0 ENOMEM_ne
    · refine ⟨fun _ => ?_, fun h1 => ?_⟩
      · rw [h]
        show (put_grow a me).2.size + 1 = me.size + 1
        rw [hrel.size_eq]
      · rw [hc] at h1; exact absurd h1 (by decide)

theorem put_all_same (me : unordered_set K) (keys : List K) (hr : Reachable me) :
    SameFunctions (put_all me keys) me := by
  induction keys generalizing me with
  | nil => exact SameFunctions.same_refl me
  | cons k rest ih =>
    exact (ih _ (Reachable.put alloc_ok me k hr)).trans
      (put_same alloc_ok me k (inv_reachable me hr))

theorem put_all_contains (me : unordered_set K) (keys : List K) (hr : Reachable me)
    (hcmp : comparator_equiv me.comparator) (k : K)
    (h : unordered_set_contains me k = 1 ∨ k ∈ keys) :
    unordered_set_contains (put_all me keys) k = 1 := by
  induction keys generalizing me with
  | nil =>
    rcases h with h | h
    · exact h
    · exact absurd h (List.not_mem_nil k)
  | cons key rest ih =>
    have hi := inv_reachable me hr
    have hs := put_same alloc_ok me key hi
    refine ih _ (Reachable.put alloc_ok me key hr) (by rw [hs.comparator]; exact hcmp) ?_
    rcases h with h | h
    · exact Or.inl (put_contains_mono alloc_ok me key k hi h)
    · rcases List.mem_cons.1 h with h | h
      · subst h
        exact Or.inl (put_then_contains alloc_ok me k hr (hcmp.1 k)
          (put_ok_code alloc_ok me k hi rfl rfl rfl))
      · exact Or.inr h

theorem put_all_nodes (me : unordered_set K) (keys : List K) (hr : Reachable me)
    (n : node K) (hn : n ∈ nodes (put_all me keys)) : n ∈ nodes me ∨ n.key ∈ keys := by
  induction keys generalizing me with
  | nil => exact Or.inl hn
  | cons key rest ih =>
    rcases ih _ (Reachable.put alloc_ok me key hr) hn with h | h
    · rcases put_nodes_subset alloc_ok me key (inv_reachable me hr) n h with h | h
      · exact Or.inl h
      · exact Or.inr (h ▸ List.mem_cons_self _ _)
    · exact Or.inr (List.mem_cons_of_mem _ h)

/-- Putting a list of keys into a set just created leaves as many nodes as the list
has distinct keys. -/
theorem put_all_size (me : unordered_set K) (keys : List K) (hr : Reachable me)
    (hempty : nodes me = []) (hcmp : comparator_equiv me.comparator)
    (hcons : hash_consistent me.comparator me.hash) :
    (put_all me keys).size = (distinct_count me.comparator keys : Int) := by
  have hr' := put_all_reachable me keys hr
  have hs := put_all_same me keys hr
  have hi' := inv_reachable _ hr'
  have hcmp' : comparator_equiv (put_all me keys).comparator := by
    rw [hs.comparator]; exact hcmp
  have hcons' : hash_consistent (put_all me keys).comparator (put_all me keys).hash := by
    rw [hs.comparator, hs.hash]; exact hcons
  have hu := unique_reachable _ hr' hcmp' hcons'
  rw [hi'.size_eq]
  congr 1
  unfold distinct_count
  have hpw : ((nodes (put_all me keys)).map node.key).Pairwise
      (fun a b => me.comparator a b ≠ 0) := by
    rw [List.pairwise_map]
    unfold Unique at hu
    rw [hs.comparator] at hu
    exact hu.imp (fun h => h.1)
  have hneg : ∀ {x y z : K}, me.comparator x z ≠ 0 →
      me.comparator x y ≠ 0 ∨ me.comparator y z ≠ 0 := by
    intro x y z hxz
    by_contra hcon
    push_neg at hcon
    exact hxz (hcmp.2.2 _ _ _ hcon.1 hcon.2)
  have hcover : ∀ k ∈ keys, ∃ r ∈ keys.pwFilter (fun a b => me.comparator a b ≠ 0),
      me.comparator k r = 0 := by
    intro k hk
    by_contra hcon
    push_neg at hcon
    have := (@List.forall_mem_pwFilter K (fun a b => me.comparator a b ≠ 0) _ hneg k keys).1
      hcon k hk
    exact this (hcmp.1 k)
  rw [← List.length_map (nodes (put_all me keys)) node.key]
  apply le_antisymm
  · refine reps_length_le me.comparator hcmp _ _ hpw ?_
    intro x hx
    obtain ⟨n, hn, rfl⟩ := List.mem_map.1 hx
    rcases put_all_nodes me keys hr n hn with h | h
    · rw [hempty] at h; exact absurd h (List.not_mem_nil n)
    · exact hcover _ h
  · refine reps_length_le me.comparator hcmp _ _ (List.pairwise_pwFilter _) ?_
    intro x hx
    have hxk : x ∈ keys := List.pwFilter_subset _ hx
    have hc := put_all_contains me keys hr hcmp x (Or.inr hxk)
    rw [contains_iff_key _ x hi' hcons', hs.comparator] at hc
    obtain ⟨n, hn, he⟩ := hc
    exact ⟨n.key, List.mem_map.2 ⟨n, hn, rfl⟩, hcmp.2.1 _ _ he⟩

theorem init_nodes (me : unordered_set K)
    (h : unordered_set_init me.key_size (some me.hash) (some me.comparator) true true =
      some me) : nodes me = [] := by
  unfold unordered_set_init at h
  simp only [Bool.not_true, Bool.false_eq_true, if_false] at h
  split at h
  · exact absurd h (by simp)
  · have e := Option.some.inj h
    rw [← e]
    exact replicate_nodes _ _ rfl

/-! ## Chain order -/

/-- Linking a list of nodes appends to every chain the nodes of its bucket, in the
order of the list. -/
theorem foldl_add_item_chain (ns : List (node K)) (me : unordered_set K)
    (hw : WellFormed me) (j : Nat) (hj : j < me.capacity) :
    (ns.foldl unordered_set_add_item me).buckets.getD j [] =
      me.buckets.getD j [] ++ ns.filter (fun n => n.hash % me.capacity == j) := by
  induction ns generalizing me with
  | nil => simp
  | cons n ns ih =>
    have hw1 : WellFormed (unordered_set_add_item me n) := by
      unfold WellFormed; rw [add_item_length, add_item_capacity]; exact hw
    have hidx : n.hash % me.capacity < me.buckets.length := by
      rw [hw.1]; exact Nat.mod_lt _ hw.2
    simp only [List.foldl_cons]
    rw [ih _ hw1 (by rw [add_item_capacity]; exact hj), add_item_capacity]
    by_cases h : n.hash % me.capacity = j
    · subst h
      rw [add_item_eq]
      dsimp only
      rw [getD_set_eq _ _ _ hidx]
      simp
    · rw [add_item_eq]
      dsimp only
      rw [getD_set_ne _ _ _ _ h]
      simp [h]

/-- The chains after a successful growth: chain `j` lists the nodes of the old table
whose stored hash selects `j`, old bucket by old bucket. -/
theorem resize_chain (me : unordered_set K) (hw : WellFormed me) (j : Nat)
    (hj : j < me.capacity * RESIZE_FACTOR_NUM / RESIZE_FACTOR_DEN) :
    (unordered_set_resize true me).2.buckets.getD j [] =
      (nodes me).filter
        (fun n => n.hash % (me.capacity * RESIZE_FACTOR_NUM / RESIZE_FACTOR_DEN) == j) := by
  rw [resize_ok_eq me hw]
  dsimp only
  rw [foldl_add_item_chain _ _ ⟨by simp, lt_of_le_of_lt (Nat.zero_le _) hj⟩ j hj]
  simp [List.getD_eq_getElem?_getD, List.getElem?_replicate]
  split <;> rfl

theorem put_capacity_ge (a : put_alloc) (me : unordered_set K) (k : K) (hi : Inv me) :
    me.capacity ≤ (unordered_set_put a me k).2.capacity := by
  rcases put_cases a me k hi.wf hi.placed with ⟨h, _⟩ | ⟨_, hrel, h⟩
  · rw [h]
  · rcases h with ⟨_, h⟩ | ⟨_, _, h⟩ | ⟨_, _, h⟩
    · rw [h]; exact hrel.capacity_le
    · rw [h]; exact hrel.capacity_le
    · rw [h]
      show me.capacity ≤ (unordered_set_add_item _ _).capacity
      rw [add_item_capacity]; exact hrel.capacity_le

theorem remove_capacity (me : unordered_set K) (k : K) :
    (unordered_set_remove me k).2.capacity = me.capacity := by
  rcases remove_cases me k with ⟨_, h⟩ | ⟨_, pre, n, post, _, _, _, h⟩ <;> rw [h]

theorem run_op_reachable (me : unordered_set K) (op : set_op K) (hr : Reachable me) :
    Reachable (run_op me op) := by
  cases op with
  | put key => exact Reachable.put alloc_ok me key hr
  | remove key => exact Reachable.remove me key hr

theorem run_ops_reachable (me : unordered_set K) (ops : List (set_op K))
    (hr : Reachable me) : Reachable (run_ops me ops) := by
  induction ops generalizing me with
  | nil => exact hr
  | cons op rest ih => exact ih _ (run_op_reachable me op hr)

theorem run_op_same (me : unordered_set K) (op : set_op K) (hr : Reachable me) :
    SameFunctions (run_op me op) me := by
  cases op with
  | put key => exact put_same alloc_ok me key (inv_reachable me hr)
  | remove key => exact remove_same me key

theorem run_op_capacity_ge (me : unordered_set K) (op : set_op K) (hr : Reachable me) :
    me.capacity ≤ (run_op me op).capacity := by
  cases op with
  | put key => exact put_capacity_ge alloc_ok me key (inv_reachable me hr)
  | remove key => exact le_of_eq (remove_capacity me key).symm

theorem run_ops_capacity_ge (me : unordered_set K) (ops : List (set_op K))
    (hr : Reachable me) : me.capacity ≤ (run_ops me ops).capacity := by
  induction ops generalizing me with
  | nil => exact le_refl _
  | cons op rest ih =>
    exact le_trans (run_op_capacity_ge me op hr) (ih _ (run_op_reachable me op hr))

theorem mem_of_listed (me : unordered_set K) (acc : List K)
    (hl : ∀ i, chain_keys me i = keys_of_bucket me acc i) (x : K) :
    x ∈ acc ↔ ∃ i, ∃ n ∈ me.buckets.getD i [], n.key = x := by
  constructor
  · intro hx
    have hmem : x ∈ keys_of_bucket me acc (unordered_set_hash me x % me.capacity) := by
      unfold keys_of_bucket
      exact List.mem_filter.2 ⟨hx, by simp⟩
    rw [← hl] at hmem
    obtain ⟨n, hn, he⟩ := List.mem_map.1 hmem
    exact ⟨_, n, hn, he⟩
  · rintro ⟨i, n, hn, rfl⟩
    have hmem : n.key ∈ chain_keys me i := List.mem_map.2 ⟨n, hn, rfl⟩
    rw [hl] at hmem
    exact (List.mem_filter.1 hmem).1

theorem mem_nodes_of_chain (me : unordered_set K) (i : Nat) (n : node K)
    (hn : n ∈ me.buckets.getD i []) : n ∈ nodes me := by
  by_cases h : i < me.buckets.length
  · exact (mem_flatten_iff_getD _ _).2 ⟨i, h, hn⟩
  · rw [List.getD_eq_default _ _ (not_lt.1 h)] at hn
    exact absurd hn (List.not_mem_nil n)

/-- The keys listed in insertion order have an equal of a key exactly when the set
contains the key. -/
theorem any_iff_contains (me : unordered_set K) (acc : List K) (hi : Inv me)
    (hcons : hash_consistent me.comparator me.hash)
    (hl : ∀ i, chain_keys me i = keys_of_bucket me acc i) (k : K) :
    acc.any (fun x => me.comparator x k == 0) = true ↔ unordered_set_contains me k = 1 := by
  rw [contains_iff_key me k hi hcons, List.any_eq_true]
  constructor
  · rintro ⟨x, hx, he⟩
    obtain ⟨i, n, hn, rfl⟩ := (mem_of_listed me acc hl x).1 hx
    exact ⟨n, mem_nodes_of_chain me i n hn, by simpa using he⟩
  · rintro ⟨n, hn, he⟩
    obtain ⟨i, _, hni⟩ := (mem_flatten_iff_getD _ _).1 hn
    exact ⟨n.key, (mem_of_listed me acc hl n.key).2 ⟨i, n, hni, rfl⟩, by simpa using he⟩

/-- A put that leaves the capacity at its value keeps every chain in insertion
order. -/
theorem listed_put (me : unordered_set K) (acc : List K) (k : K) (hi : Inv me)
    (hcons : hash_consistent me.comparator me.hash)
    (hl : ∀ i, chain_keys me i = keys_of_bucket me acc i)
    (hcap : (unordered_set_put alloc_ok me k).2.capacity = me.capacity) :
    ∀ i, chain_keys (unordered_set_put alloc_ok me k).2 i =
      keys_of_bucket (unordered_set_put alloc_ok me k).2
        (survivors_step me.comparator acc (set_op.put k)) i := by
  have hidle : put_grow alloc_ok me = (0, me) := by
    by_cases ht : RESIZE_AT_DEN * (me.size + 1) ≥ RESIZE_AT_NUM * (me.capacity : Int)
    · exfalso
      have hg : put_grow alloc_ok me = unordered_set_resize true me :=
        put_grow_resize alloc_ok me ht
      have hc := (resize_ok me hi.wf).2.1
      have hge := hi.capacity_ge
      have hput : (unordered_set_put alloc_ok me k).2.capacity =
          me.capacity * RESIZE_FACTOR_NUM / RESIZE_FACTOR_DEN := by
        rcases put_cases alloc_ok me k hi.wf hi.placed with ⟨_, h⟩ | ⟨_, _, h⟩
        · rw [hg] at h
          have := (resize_ok me hi.wf).1
          rw [h] at this
          exact absurd this ENOMEM_ne
        · rcases h with ⟨_, h⟩ | ⟨_, _, h⟩ | ⟨_, _, h⟩
          · rw [h, hg]; exact hc
          · rw [h, hg]; exact hc
          · rw [h, hg]
            show (unordered_set_add_item _ _).capacity = _
            rw [add_item_capacity]; exact hc
      rw [hput] at hcap
      simp only [RESIZE_FACTOR_NUM, RESIZE_FACTOR_DEN, STARTING_BUCKETS] at *
      omega
    · exact put_grow_idle alloc_ok me ht
  have hany := any_iff_contains me acc hi hcons hl k
  have hh : ∀ key, unordered_set_hash (unordered_set_put alloc_ok me k).2 key =
      unordered_set_hash me key :=
    fun key => unordered_set_hash_congr _ _ (put_same alloc_ok me k hi).hash key
  intro i
  unfold chain_keys keys_of_bucket
  simp only [hh, hcap]
  have hl' := hl i
  unfold chain_keys keys_of_bucket at hl'
  rcases put_cases alloc_ok me k hi.wf hi.placed with ⟨_, h⟩ | ⟨_, _, h⟩
  · rw [hidle] at h
    exact absurd (congrArg Prod.fst h).symm ENOMEM_ne
  · rw [hidle] at h
    rcases h with ⟨hc, h⟩ | ⟨_, hb, _⟩ | ⟨hc, _, h⟩
    · have hsurv : survivors_step me.comparator acc (set_op.put k) = acc := by
        show (if acc.any (fun x => me.comparator x k == 0) = true then acc else acc ++ [k]) = acc
        rw [if_pos (hany.2 hc)]
      rw [hsurv, h]
      exact hl'
    · exact absurd hb (by decide)
    · have hnot : ¬ acc.any (fun x => me.comparator x k == 0) = true := by
        rw [hany, hc]; decide
      have hsurv : survivors_step me.comparator acc (set_op.put k) = acc ++ [k] := by
        show (if acc.any (fun x => me.comparator x k == 0) = true then acc else acc ++ [k]) =
          acc ++ [k]
        rw [if_neg hnot]
      have hidx : unordered_set_hash me k % me.capacity < me.buckets.length := by
        rw [hi.length_eq]; exact Nat.mod_lt _ hi.wf.2
      have hbk : (unordered_set_put alloc_ok me k).2.buckets =
          me.buckets.set (unordered_set_hash me k % me.capacity)
            (me.buckets.getD (unordered_set_hash me k % me.capacity) [] ++
              [{ key := k, hash := unordered_set_hash me k }]) := by
        rw [h]
        show (unordered_set_add_item me _).buckets = _
        rw [add_item_eq]
      rw [hsurv, hbk, List.filter_append]
      by_cases hj : unordered_set_hash me k % me.capacity = i
      · subst hj
        rw [getD_set_eq _ _ _ hidx, List.map_append, hl']
        simp
      · rw [getD_set_ne _ _ _ _ hj, hl']
        simp [hj]

/-- A remove keeps every chain in insertion order. -/
theorem listed_remove (me : unordered_set K) (acc : List K) (k : K) (hr : Reachable me)
    (hcmp : comparator_equiv me.comparator)
    (hcons : hash_consistent me.comparator me.hash)
    (hl : ∀ i, chain_keys me i = keys_of_bucket me acc i) :
    ∀ i, chain_keys (unordered_set_remove me k).2 i =
      keys_of_bucket (unordered_set_remove me k).2
        (survivors_step me.comparator acc (set_op.remove k)) i := by
  have hi := inv_reachable me hr
  have hu := unique_reachable me hr hcmp hcons
  have hany := any_iff_contains me acc hi hcons hl k
  have hh : ∀ key, unordered_set_hash (unordered_set_remove me k).2 key =
      unordered_set_hash me key :=
    fun key => unordered_set_hash_congr _ _ (remove_same me k).hash key
  have hsurv : survivors_step me.comparator acc (set_op.remove k) =
      acc.filter (fun x => !(me.comparator x k == 0)) := rfl
  intro i
  unfold chain_keys keys_of_bucket
  simp only [hh, remove_capacity]
  have hl' := hl i
  unfold chain_keys keys_of_bucket at hl'
  rw [hsurv]
  rcases remove_cases me k with ⟨hc, h⟩ | ⟨_, pre, n, post, hb, hn, _, h⟩
  · have hsame : acc.filter (fun x => !(me.comparator x k == 0)) = acc := by
      apply List.filter_eq_self.2
      intro x hx
      have hx0 : ¬ me.comparator x k = 0 := by
        intro h0
        have : acc.any (fun x => me.comparator x k == 0) = true :=
          List.any_eq_true.2 ⟨x, hx, by simpa using h0⟩
        rw [hany, hc] at this
        exact absurd this (by decide)
      simp [hx0]
    rw [h, hsame]
    exact hl'
  · have hidx : unordered_set_hash me k % me.capacity < me.buckets.length := by
      rw [hi.length_eq]; exact Nat.mod_lt _ hi.wf.2
    have hperm := unlink_perm me _ pre post n hidx hb
    unfold Unique at hu
    have hpw := (List.Perm.pairwise_iff (fun h => ⟨h.2, h.1⟩) hperm).1 hu
    have hnk := ((is_equal_iff _ _ _ _).1 hn).2
    have hrest : ∀ y ∈ nodes (unordered_set_remove me k).2, ¬ me.comparator y.key k = 0 := by
      intro y hy h0
      rw [h] at hy
      exact ((List.pairwise_cons.1 hpw).1 y hy).1 (hcmp.2.2 _ _ _ hnk (hcmp.2.1 _ _ h0))
    have hkeep : ∀ c : List (node K), (∀ y ∈ c, ¬ me.comparator y.key k = 0) →
        (c.map node.key).filter (fun x => !(me.comparator x k == 0)) = c.map node.key := by
      intro c hc
      apply List.filter_eq_self.2
      intro x hx
      obtain ⟨y, hy, rfl⟩ := List.mem_map.1 hx
      simp [hc y hy]
    rw [List.filter_comm, ← hl']
    have hchain : ∀ y ∈ (unordered_set_remove me k).2.buckets.getD i [],
        ¬ me.comparator y.key k = 0 :=
      fun y hy => hrest y (mem_nodes_of_chain _ i y hy)
    have hnew := hkeep _ hchain
    by_cases hj : unordered_set_hash me k % me.capacity = i
    · subst hj
      have hbk : (unordered_set_remove me k).2.buckets.getD
          (unordered_set_hash me k % me.capacity) [] = pre ++ post := by
        rw [h]; exact getD_set_eq _ _ _ hidx
      rw [hbk] at hnew ⊢
      rw [hb]
      simp only [List.map_append, List.map_cons, List.filter_append, List.filter_cons]
      simp only [List.map_append, List.filter_append] at hnew
      simp [hnk, hnew]
    · have hbk : (unordered_set_remove me k).2.buckets.getD i [] = me.buckets.getD i [] := by
        rw [h]; exact getD_set_ne _ _ _ _ hj
      rw [hbk] at hnew ⊢
      exact hnew.symm

/-- As long as the capacity stays at its starting value, the chains of a set list
the surviving keys of its sequence of puts and removes in insertion order. -/
theorem listed_run_ops (ops : List (set_op K)) (me : unordered_set K) (acc : List K)
    (hr : Reachable me) (hcmp : comparator_equiv me.comparator)
    (hcons : hash_consistent me.comparator me.hash)
    (hl : ∀ i, chain_keys me i = keys_of_bucket me acc i)
    (hcap : (run_ops me ops).capacity = me.capacity) :
    ∀ i, chain_keys (run_ops me ops) i =
      keys_of_bucket (run_ops me ops) (ops.foldl (survivors_step me.comparator) acc) i := by
  induction ops generalizing me acc with
  | nil => exact hl
  | cons op rest ih =>
    have hr1 := run_op_reachable me op hr
    have hs := run_op_same me op hr
    have hc1 : (run_op me op).capacity = me.capacity := by
      have h1 := run_op_capacity_ge me op hr
      have h2 := run_ops_capacity_ge (run_op me op) rest hr1
      have h3 : run_ops me (op :: rest) = run_ops (run_op me op) rest := rfl
      rw [h3] at hcap
      omega
    have hstep : ∀ i, chain_keys (run_op me op) i =
        keys_of_bucket (run_op me op) (survivors_step me.comparator acc op) i := by
      cases op with
      | put key => exact listed_put me acc key (inv_reachable me hr) hcons hl hc1
      | remove key => exact listed_remove me acc key hr hcmp hcons hl
    have := ih (run_op me op) (survivors_step me.comparator acc op) hr1
      (by rw [hs.comparator]; exact hcmp) (by rw [hs.comparator, hs.hash]; exact hcons)
      hstep
      (by
        have h3 : run_ops me (op :: rest) = run_ops (run_op me op) rest := rfl
        rw [h3] at hcap; rw [hcap, hc1])
    rw [hs.comparator] at this
    exact this

/-! ## Other keys are left alone -/

theorem contains_eq_of_iff (me g : unordered_set K) (key : K)
    (h : unordered_set_contains g key = 1 ↔ unordered_set_contains me key = 1) :
    unordered_set_contains g key = unordered_set_contains me key := by
  rcases contains_zero_or_one g key with hg | hg <;>
    rcases contains_zero_or_one me key with hm | hm
  · rw [hg, hm]
  · rw [h.2 hm] at hg
    exact absurd hg (by decide)
  · rw [h.1 hg] at hm
    exact absurd hm (by decide)
  · rw [hg, hm]

theorem put_frame (a : put_alloc) (me : unordered_set K) (k k2 : K) (hi : Inv me)
    (hcons : hash_consistent me.comparator me.hash) (hne : me.comparator k k2 ≠ 0) :
    unordered_set_contains (unordered_set_put a me k).2 k2 = unordered_set_contains me k2 := by
  apply contains_eq_of_iff
  have hs := put_same a me k hi
  have hi2 := inv_put a me k hi
  have hcons2 : hash_consistent (unordered_set_put a me k).2.comparator
      (unordered_set_put a me k).2.hash := by
    rw [hs.comparator, hs.hash]; exact hcons
  constructor
  · intro h
    obtain ⟨n, hn, hc⟩ := (contains_iff_key _ k2 hi2 hcons2).1 h
    rw [hs.comparator] at hc
    rcases put_nodes_subset a me k hi n hn with hmem | hk
    · exact (contains_iff_key me k2 hi hcons).2 ⟨n, hmem, hc⟩
    · rw [hk] at hc
      exact absurd hc hne
  · intro h
    exact put_contains_mono a me k k2 hi h

theorem remove_frame (me : unordered_set K) (k k2 : K) (hi : Inv me)
    (hcmp : comparator_equiv me.comparator)
    (hcons : hash_consistent me.comparator me.hash) (hne : me.comparator k k2 ≠ 0) :
    unordered_set_contains (unordered_set_remove me k).2 k2 =
      unordered_set_contains me k2 := by
  rcases remove_cases me k with ⟨_, h⟩ | ⟨_, pre, n, post, hc, heq, _, h⟩
  · rw [h]
  · apply contains_eq_of_iff
    have hs := remove_same me k
    have hi2 := inv_remove me k hi
    have hcons2 : hash_consistent (unordered_set_remove me k).2.comparator
        (unordered_set_remove me k).2.hash := by
      rw [hs.comparator, hs.hash]; exact hcons
    have hidx : unordered_set_hash me k % me.capacity < me.buckets.length := by
      rw [hi.length_eq]; exact Nat.mod_lt _ hi.wf.2
    have hperm := unlink_perm me _ pre post n hidx hc
    have hnk : me.comparator n.key k = 0 := by
      unfold unordered_set_is_equal at heq
      simp only [Bool.and_eq_true, beq_iff_eq] at heq
      exact heq.2
    rw [contains_iff_key _ k2 hi2 hcons2, contains_iff_key me k2 hi hcons, hs.comparator, h]
    dsimp only
    constructor
    · rintro ⟨x, hx, hxc⟩
      exact ⟨x, hperm.symm.subset (List.mem_cons_of_mem _ hx), hxc⟩
    · rintro ⟨x, hx, hxc⟩
      rcases List.mem_cons.1 (hperm.subset hx) with hxn | hxn
      · rw [hxn] at hxc
        exact absurd (hcmp.2.2 _ _ _ (hcmp.2.1 _ _ hnk) hxc) hne
      · exact ⟨x, hxn, hxc⟩

/-! ## Bucket indices -/

theorem put_grow_wf (a : put_alloc) (me : unordered_set K) (hi : Inv me) :
    STARTING_BUCKETS ≤ (put_grow a me).2.capacity ∧
      (put_grow a me).2.buckets.length = (put_grow a me).2.capacity := by
  rcases put_grow_cases a me hi.wf hi.placed with ⟨h, _⟩ | ⟨_, hrel⟩
  · rw [h]
    exact ⟨hi.capacity_ge, hi.length_eq⟩
  · exact ⟨le_trans hi.capacity_ge hrel.capacity_le, hrel.length_eq⟩

theorem fresh_fold_wf (ns : List (node K)) (me : unordered_set K) (n : Nat) (hn : 0 < n) :
    (ns.foldl unordered_set_add_item
        { me with buckets := List.replicate n [], capacity := n }).capacity = n ∧
      (ns.foldl unordered_set_add_item
        { me with buckets := List.replicate n [], capacity := n }).buckets.length = n := by
  have hw : WellFormed { me with buckets := List.replicate n [], capacity := n } :=
    ⟨List.length_replicate _ _, hn⟩
  obtain ⟨_, _, _, _, hcap, hlen, _, _⟩ :=
    foldl_add_item ns { me with buckets := List.replicate n [], capacity := n } hw
      (replicate_placed _ n rfl)
  exact ⟨hcap, by rw [hlen]; exact List.length_replicate _ _⟩

/-! ## The hash mix -/

theorem shift_lt_two_pow (x k w : Nat) (h : x < 2 ^ w) : x >>> k < 2 ^ w := by
  rw [Nat.shiftRight_eq_div_pow]
  exact lt_of_le_of_lt (Nat.div_le_self _ _) h

theorem xor_shifts_inj (a b : Nat) (ha : 0 < a) (hb : 0 < b) (x y : Nat)
    (h : x ^^^ ((x >>> a) ^^^ (x >>> b)) = y ^^^ ((y >>> a) ^^^ (y >>> b))) : x = y := by
  have hx : x < 2 ^ (x + y) :=
    lt_of_lt_of_le (Nat.lt_two_pow x) (Nat.pow_le_pow_right (by decide) (Nat.le_add_right _ _))
  have hy : y < 2 ^ (x + y) :=
    lt_of_lt_of_le (Nat.lt_two_pow y) (Nat.pow_le_pow_right (by decide) (Nat.le_add_left _ _))
  have key : ∀ n i, x + y ≤ i + n → x.testBit i = y.testBit i := by
    intro n
    induction n with
    | zero =>
      intro i hi
      have hp : 2 ^ (x + y) ≤ 2 ^ i := Nat.pow_le_pow_right (by decide) hi
      rw [Nat.testBit_lt_two_pow (lt_of_lt_of_le hx hp),
        Nat.testBit_lt_two_pow (lt_of_lt_of_le hy hp)]
    | succ n ih =>
      intro i hi
      have h1 := congrArg (fun z => z.testBit i) h
      simp only [Nat.testBit_xor, Nat.testBit_shiftRight] at h1
      rw [ih (a + i) (by omega), ih (b + i) (by omega)] at h1
      revert h1
      cases x.testBit i <;> cases y.testBit i <;> cases y.testBit (a + i) <;>
        cases y.testBit (b + i) <;> simp
  exact Nat.eq_of_testBit_eq (fun i => key (x + y) i (by omega))

theorem hash_mix_inj (x y : Nat) (h : hash_mix x = hash_mix y) : x = y := by
  unfold hash_mix at h
  dsimp only at h
  rw [Nat.xor_assoc (x ^^^ ((x >>> 20) ^^^ (x >>> 12))),
    Nat.xor_assoc (y ^^^ ((y >>> 20) ^^^ (y >>> 12)))] at h
  have h1 := xor_shifts_inj 7 4 (by decide) (by decide) _ _ h
  exact xor_shifts_inj 20 12 (by decide) (by decide) _ _ h1

theorem hash_mix_lt (w h : Nat) (hh : h < 2 ^ w) : hash_mix h < 2 ^ w := by
  unfold hash_mix
  have h1 : h ^^^ ((h >>> 20) ^^^ (h >>> 12)) < 2 ^ w :=
    Nat.xor_lt_two_pow hh
      (Nat.xor_lt_two_pow (shift_lt_two_pow _ _ _ hh) (shift_lt_two_pow _ _ _ hh))
  exact Nat.xor_lt_two_pow
    (Nat.xor_lt_two_pow h1 (shift_lt_two_pow _ _ _ h1)) (shift_lt_two_pow _ _ _ h1)

theorem hash_mix_surj (w y : Nat) (hy : y < 2 ^ w) : ∃ x, x < 2 ^ w ∧ hash_mix x = y := by
  have hinj : Function.Injective
      (fun x : Fin (2 ^ w) => (⟨hash_mix x.1, hash_mix_lt w x.1 x.2⟩ : Fin (2 ^ w))) := by
    intro p q hpq
    exact Fin.ext (hash_mix_inj _ _ (congrArg Fin.val hpq))
  obtain ⟨x, hx⟩ := (Finite.injective_iff_surjective.1 hinj) ⟨y, hy⟩
  exact ⟨x.1, x.2, congrArg Fin.val hx⟩

/-! ## The claims -/

/-- C1: in every reachable set, for a key the comparator reports equal to itself, a
put that returns 0 (with or without growth) is followed by `unordered_set_contains`
returning 1 for that key. -/
theorem C1_put_then_contains (a : put_alloc) (me : unordered_set K) (k : K)
    (hr : Reachable me) (hrefl : me.comparator k k = 0)
    (hput : (unordered_set_put a me k).1 = 0) :
    unordered_set_contains (unordered_set_put a me k).2 k = 1 :=
  put_then_contains a me k hr hrefl hput

/-- A put of 5 into the new set of numbers returns 0 and 5 is then contained. -/
theorem C1_put_then_contains_witness :
    Reachable nat_set ∧ nat_set.comparator 5 5 = 0 ∧
      (unordered_set_put alloc_ok nat_set 5).1 = 0 ∧
      unordered_set_contains (unordered_set_put alloc_ok nat_set 5).2 5 = 1 :=
  ⟨nat_set_reachable, by decide, by decide,
    C1_put_then_contains alloc_ok nat_set 5 nat_set_reachable (by decide) (by decide)⟩

/-- C2: with a comparator that is an equivalence and a hash that respects it, the
keys of any finite list put into a set just created, no allocation failing, leave
`unordered_set_size` equal to the number of distinct keys of the list, whatever
growth took place; every such put returns 0; and in any reachable set a put that
returns 0 raises the size by exactly 1 for a key not yet contained and leaves it
unchanged for a key already contained. -/
theorem C2_size_counts_distinct (a : put_alloc) (me : unordered_set K) (keys : List K)
    (k : K) (hr : Reachable me) (hcmp : comparator_equiv me.comparator)
    (hcons : hash_consistent me.comparator me.hash) :
    (unordered_set_init me.key_size (some me.hash) (some me.comparator) true true = some me →
        unordered_set_size (put_all me keys) = (distinct_count me.comparator keys : Int)) ∧
      (unordered_set_put alloc_ok me k).1 = 0 ∧
      ((unordered_set_put a me k).1 = 0 →
        (unordered_set_contains me k = 0 →
          unordered_set_size (unordered_set_put a me k).2 = unordered_set_size me + 1) ∧
        (unordered_set_contains me k = 1 →
          unordered_set_size (unordered_set_put a me k).2 = unordered_set_size me)) := by
  have hi := inv_reachable me hr
  exact ⟨fun h => put_all_size me keys hr (init_nodes me h) hcmp hcons,
    put_ok_code alloc_ok me k hi rfl rfl rfl, fun h0 => put_size a me k hi h0⟩

/-- Eleven puts of seven distinct numbers into the new set, the table growing on the
way, leave size 7. -/
theorem C2_size_counts_distinct_witness :
    Reachable nat_set ∧ comparator_equiv nat_set.comparator ∧
      hash_consistent nat_set.comparator nat_set.hash ∧
      (put_all nat_set [3, 11, 3, 19, 11, 27, 3, 35, 43, 51, 11]).capacity = 12 ∧
      unordered_set_size (put_all nat_set [3, 11, 3, 19, 11, 27, 3, 35, 43, 51, 11]) = 7 :=
  ⟨nat_set_reachable, nat_compare_equiv, nat_hash_consistent, by decide,
    ((C2_size_counts_distinct alloc_ok nat_set [3, 11, 3, 19, 11, 27, 3, 35, 43, 51, 11] 0
      nat_set_reachable nat_compare_equiv nat_hash_consistent).1 rfl).trans (by decide)⟩

/-- C3: in every reachable set whose comparator is an equivalence that the hash
respects, `unordered_set_remove` returns 1 exactly when `unordered_set_contains` was
1 before the call, and then the size drops by exactly 1 and the key is no longer
contained. -/
theorem C3_remove_present (me : unordered_set K) (k : K) (hr : Reachable me)
    (hcmp : comparator_equiv me.comparator)
    (hcons : hash_consistent me.comparator me.hash) :
    ((unordered_set_remove me k).1 = 1 ↔ unordered_set_contains me k = 1) ∧
      (unordered_set_contains me k = 1 →
        unordered_set_size (unordered_set_remove me k).2 = unordered_set_size me - 1 ∧
        unordered_set_contains (unordered_set_remove me k).2 k = 0) := by
  have hi := inv_reachable me hr
  have hu := unique_reachable me hr hcmp hcons
  have hi' := inv_remove me k hi
  rcases remove_cases me k with ⟨hc, h⟩ | ⟨hc, pre, n, post, hb, hn, _, h⟩
  · refine ⟨?_, ?_⟩
    · rw [h, hc]
    · intro h1; rw [hc] at h1; exact absurd h1 (by decide)
  · refine ⟨by rw [h, hc], fun _ => ⟨by rw [h]; rfl, ?_⟩⟩
    rw [contains_eq_zero_iff, contains_iff _ k hi'.wf hi'.placed]
    rintro ⟨x, hx, _, hxe⟩
    rw [h] at hx hxe
    have hidx : unordered_set_hash me k % me.capacity < me.buckets.length := by
      rw [hi.length_eq]; exact Nat.mod_lt _ hi.wf.2
    have hperm := unlink_perm me _ pre post n hidx hb
    unfold Unique at hu
    have hpw := (List.Perm.pairwise_iff (fun h => ⟨h.2, h.1⟩) hperm).1 hu
    have hne := ((List.pairwise_cons.1 hpw).1 x hx).1
    have hnk := ((is_equal_iff _ _ _ _).1 hn).2
    exact hne (hcmp.2.2 _ _ _ hnk (hcmp.2.1 _ _ hxe))

/-- The set holding 3 and 11 meets the conditions of C3 for the key 3. -/
theorem C3_remove_present_witness :
    Reachable (put_all nat_set [3, 11]) ∧
      comparator_equiv (put_all nat_set [3, 11]).comparator ∧
      hash_consistent (put_all nat_set [3, 11]).comparator (put_all nat_set [3, 11]).hash ∧
      ((unordered_set_remove (put_all nat_set [3, 11]) 3).1 = 1 ↔
        unordered_set_contains (put_all nat_set [3, 11]) 3 = 1) ∧
      (unordered_set_contains (put_all nat_set [3, 11]) 3 = 1 →
        unordered_set_size (unordered_set_remove (put_all nat_set [3, 11]) 3).2 =
          unordered_set_size (put_all nat_set [3, 11]) - 1 ∧
        unordered_set_contains (unordered_set_remove (put_all nat_set [3, 11]) 3).2 3 = 0) :=
  have hr : Reachable (put_all nat_set [3, 11]) :=
    put_all_reachable nat_set [3, 11] nat_set_reachable
  have hcmp : comparator_equiv (put_all nat_set [3, 11]).comparator := nat_compare_equiv
  have hcons : hash_consistent (put_all nat_set [3, 11]).comparator
      (put_all nat_set [3, 11]).hash := nat_hash_consistent
  ⟨hr, hcmp, hcons, C3_remove_present (put_all nat_set [3, 11]) 3 hr hcmp hcons⟩

/-- C4: for every set and every key that `unordered_set_contains` reports absent,
`unordered_set_remove` returns 0 and leaves the whole state (size, capacity, every
bucket chain) as it was. -/
theorem C4_remove_absent (me : unordered_set K) (k : K)
    (h : unordered_set_contains me k = 0) :
    unordered_set_remove me k = (0, me) := by
  rcases remove_cases me k with ⟨_, h1⟩ | ⟨hc, _⟩
  · exact h1
  · rw [h] at hc; exact absurd hc (by decide)

/-- The set holding 3 and 11 does not contain 19, and removing 19 changes nothing. -/
theorem C4_remove_absent_witness :
    unordered_set_contains (put_all nat_set [3, 11]) 19 = 0 ∧
      unordered_set_remove (put_all nat_set [3, 11]) 19 = (0, put_all nat_set [3, 11]) :=
  ⟨by decide, C4_remove_absent (put_all nat_set [3, 11]) 19 (by decide)⟩

/-- C5 as stated fails: after five puts into a new set the size is 5 and the
capacity 8, so a further put of the key 0, which the set holds, first grows the
table to capacity 12. -/
theorem C5_put_present_counterexample :
    ¬ ∀ (a : put_alloc) (me : unordered_set Nat) (k : Nat), Reachable me →
      (∃ n ∈ nodes me, n.hash = unordered_set_hash me k ∧ me.comparator n.key k = 0) →
      unordered_set_put a me k = (0, me) := by
  intro h
  have hr : Reachable (put_all nat_set [0, 1, 2, 3, 4]) :=
    put_all_reachable nat_set _ nat_set_reachable
  have hi := inv_reachable _ hr
  have h1 := h alloc_ok (put_all nat_set [0, 1, 2, 3, 4]) 0 hr
    ((contains_iff _ 0 hi.wf hi.placed).1 (by decide))
  have e : (unordered_set_put alloc_ok (put_all nat_set [0, 1, 2, 3, 4]) 0).2.capacity = 12 := by
    decide
  rw [h1] at e
  exact absurd e (by decide)

/-- C5, amended: in every reachable set, for a key the set already holds, a put that
does not trigger growth returns 0 and leaves the whole state as it was; a put that
triggers growth returns 0 with the size unchanged and the same nodes linked again in
a table of `capacity * 3 / 2` buckets when the allocation succeeds, and returns
`-ENOMEM` with the state unchanged when it fails. -/
theorem C5_put_present (a : put_alloc) (me : unordered_set K) (k : K) (hr : Reachable me)
    (hpres : ∃ n ∈ nodes me, n.hash = unordered_set_hash me k ∧ me.comparator n.key k = 0) :
    (4 * (unordered_set_size me + 1) < 3 * (me.capacity : Int) →
        unordered_set_put a me k = (0, me)) ∧
      (4 * (unordered_set_size me + 1) ≥ 3 * (me.capacity : Int) → a.resize_ok = true →
        (unordered_set_put a me k).1 = 0 ∧
        unordered_set_size (unordered_set_put a me k).2 = unordered_set_size me ∧
        (unordered_set_put a me k).2.capacity = me.capacity * 3 / 2 ∧
        (nodes (unordered_set_put a me k).2).Perm (nodes me) ∧
        Placed (unordered_set_put a me k).2) ∧
      (4 * (unordered_set_size me + 1) ≥ 3 * (me.capacity : Int) → a.resize_ok = false →
        unordered_set_put a me k = (-ENOMEM, me)) := by
  have hi := inv_reachable me hr
  have hc : unordered_set_contains me k = 1 :=
    (contains_iff me k hi.wf hi.placed).2 hpres
  have hne : unordered_set_contains me k ≠ 0 := by rw [hc]; decide
  refine ⟨fun hlt => ?_, fun hge hok => ?_, fun hge hfail => ?_⟩
  · have hg := put_grow_idle a me (not_le.2 hlt)
    rcases put_cases a me k hi.wf hi.placed with ⟨_, h⟩ | ⟨_, _, h⟩
    · rw [hg] at h
      exact absurd (congrArg Prod.fst h).symm ENOMEM_ne
    · rcases h with ⟨_, h⟩ | ⟨h0, _⟩ | ⟨h0, _⟩
      · rw [h, hg]
      · exact absurd h0 hne
      · exact absurd h0 hne
  · have hg : put_grow a me = unordered_set_resize true me := by
      rw [put_grow_resize a me hge, hok]
    obtain ⟨_, hcap, hrel⟩ := resize_ok me hi.wf
    rcases put_cases a me k hi.wf hi.placed with ⟨_, h⟩ | ⟨_, _, h⟩
    · rw [hg] at h
      have := (resize_ok me hi.wf).1
      rw [h] at this
      exact absurd this ENOMEM_ne
    · rcases h with ⟨_, h⟩ | ⟨h0, _⟩ | ⟨h0, _⟩
      · rw [h, hg]
        exact ⟨rfl, hrel.size_eq, hcap, hrel.perm, hrel.placed⟩
      · exact absurd h0 hne
      · exact absurd h0 hne
  · have hg : put_grow a me = (-ENOMEM, me) := by
      rw [put_grow_resize a me hge, hfail, resize_fail]
    rw [put_eq, hg, if_pos ENOMEM_ne]

/-- At size 5 and capacity 8 a put of the present key 0 grows the table to 12 buckets and keeps the nodes. -/
theorem C5_put_present_witness :
    Reachable (put_all nat_set [0, 1, 2, 3, 4]) ∧
      (unordered_set_put alloc_ok (put_all nat_set [0, 1, 2, 3, 4]) 0).2.capacity = 12 ∧
      (nodes (unordered_set_put alloc_ok (put_all nat_set [0, 1, 2, 3, 4]) 0).2).Perm
        (nodes (put_all nat_set [0, 1, 2, 3, 4])) :=
  have hr : Reachable (put_all nat_set [0, 1, 2, 3, 4]) :=
    put_all_reachable nat_set _ nat_set_reachable
  have hi := inv_reachable _ hr
  have h := (C5_put_present alloc_ok (put_all nat_set [0, 1, 2, 3, 4]) 0 hr
    ((contains_iff _ 0 hi.wf hi.placed).1 (by decide))).2.1 (by decide) rfl
  ⟨hr, h.2.2.1, h.2.2.2.1⟩

/-- C6: in every reachable state, right after a put (one that returned 0, and any
other as well) the set satisfies `4 * size < 3 * capacity`; the put grew the table
at most once, by the factor 1.5. -/
theorem C6_load_factor (a : put_alloc) (me : unordered_set K) (k : K)
    (hr : Reachable me) :
    4 * unordered_set_size (unordered_set_put a me k).2 <
        3 * ((unordered_set_put a me k).2.capacity : Int) ∧
      ((unordered_set_put a me k).2.capacity = me.capacity ∨
        (unordered_set_put a me k).2.capacity = me.capacity * 3 / 2) := by
  have hi := inv_reachable me hr
  refine ⟨(inv_put a me k hi).load, ?_⟩
  have hcap : (put_grow a me).2.capacity = me.capacity ∨
      (put_grow a me).2.capacity = me.capacity * 3 / 2 := by
    by_cases h : RESIZE_AT_DEN * (me.size + 1) ≥ RESIZE_AT_NUM * (me.capacity : Int)
    · rw [put_grow_resize a me h]
      cases hro : a.resize_ok with
      | false => rw [resize_fail]; exact Or.inl rfl
      | true => exact Or.inr (resize_ok me hi.wf).2.1
    · rw [put_grow_idle a me h]; exact Or.inl rfl
  rcases put_cases a me k hi.wf hi.placed with ⟨h, _⟩ | ⟨_, _, h⟩
  · rw [h]; exact Or.inl rfl
  · rcases h with ⟨_, h⟩ | ⟨_, _, h⟩ | ⟨_, _, h⟩
    · rw [h]; exact hcap
    · rw [h]; exact hcap
    · rw [h]
      show (unordered_set_add_item _ _).capacity = _ ∨ (unordered_set_add_item _ _).capacity = _
      rw [add_item_capacity]; exact hcap

/-- The sixth put into the new set grows the table and the bound holds afterwards. -/
theorem C6_load_factor_witness :
    Reachable (put_all nat_set [0, 1, 2, 3, 4]) ∧
      (unordered_set_put alloc_ok (put_all nat_set [0, 1, 2, 3, 4]) 5).1 = 0 ∧
      4 * unordered_set_size (unordered_set_put alloc_ok (put_all nat_set [0, 1, 2, 3, 4]) 5).2 <
        3 * ((unordered_set_put alloc_ok (put_all nat_set [0, 1, 2, 3, 4]) 5).2.capacity : Int) ∧
      ((unordered_set_put alloc_ok (put_all nat_set [0, 1, 2, 3, 4]) 5).2.capacity =
          (put_all nat_set [0, 1, 2, 3, 4]).capacity ∨
        (unordered_set_put alloc_ok (put_all nat_set [0, 1, 2, 3, 4]) 5).2.capacity =
          (put_all nat_set [0, 1, 2, 3, 4]).capacity * 3 / 2) :=
  ⟨put_all_reachable nat_set _ nat_set_reachable, by decide,
    C6_load_factor alloc_ok (put_all nat_set [0, 1, 2, 3, 4]) 5
      (put_all_reachable nat_set _ nat_set_reachable)⟩

/-- C7: in every reachable state, a put that returns `-ENOMEM` (failed growth, or
failed node or key allocation, also after a successful growth) leaves the size as
it was and `unordered_set_contains` answers as before for every key. -/
theorem C7_put_failure_keeps_contents (a : put_alloc) (me : unordered_set K) (k : K)
    (hr : Reachable me) (hput : (unordered_set_put a me k).1 = -ENOMEM) :
    unordered_set_size (unordered_set_put a me k).2 = unordered_set_size me ∧
      ∀ k', unordered_set_contains (unordered_set_put a me k).2 k' =
        unordered_set_contains me k' := by
  have hi := inv_reachable me hr
  rcases put_cases a me k hi.wf hi.placed with ⟨h, _⟩ | ⟨_, hrel, h⟩
  · rw [h]; exact ⟨rfl, fun _ => rfl⟩
  · rcases h with ⟨_, h⟩ | ⟨_, _, h⟩ | ⟨_, _, h⟩
    · rw [h] at hput; exact absurd hput.symm ENOMEM_ne
    · rw [h]
      exact ⟨hrel.size_eq, fun k' => hrel.contains hi.wf hi.placed k'⟩
    · rw [h] at hput; exact absurd hput.symm ENOMEM_ne

/-- A put whose key buffer allocation fails after a successful growth to 12 buckets returns `-ENOMEM` and keeps size and membership. -/
theorem C7_put_failure_keeps_contents_witness :
    Reachable (put_all nat_set [0, 1, 2, 3, 4]) ∧
      (unordered_set_put { resize_ok := true, node_ok := true, key_ok := false }
        (put_all nat_set [0, 1, 2, 3, 4]) 5).1 = -ENOMEM ∧
      (unordered_set_put { resize_ok := true, node_ok := true, key_ok := false }
        (put_all nat_set [0, 1, 2, 3, 4]) 5).2.capacity = 12 ∧
      (unordered_set_size (unordered_set_put { resize_ok := true, node_ok := true, key_ok := false }
          (put_all nat_set [0, 1, 2, 3, 4]) 5).2 =
        unordered_set_size (put_all nat_set [0, 1, 2, 3, 4]) ∧
      ∀ k', unordered_set_contains
          (unordered_set_put { resize_ok := true, node_ok := true, key_ok := false }
            (put_all nat_set [0, 1, 2, 3, 4]) 5).2 k' =
        unordered_set_contains (put_all nat_set [0, 1, 2, 3, 4]) k') :=
  ⟨put_all_reachable nat_set _ nat_set_reachable, by decide, by decide,
    C7_put_failure_keeps_contents { resize_ok := true, node_ok := true, key_ok := false }
      (put_all nat_set [0, 1, 2, 3, 4]) 5
      (put_all_reachable nat_set _ nat_set_reachable) (by decide)⟩

set_option maxRecDepth 100000 in
/-- C8 as stated fails: twenty puts into a new set bring the capacity to 27, the
next put grows the table, and the new capacity is 40 while `ceil (27 * 1.5)` is 41. -/
theorem C8_growth_capacity_counterexample :
    ¬ ∀ (a : put_alloc) (me : unordered_set Nat) (k : Nat), Reachable me →
      4 * (unordered_set_size me + 1) ≥ 3 * (me.capacity : Int) → a.resize_ok = true →
      (unordered_set_put a me k).2.capacity = ⌈(me.capacity : ℚ) * (3 / 2)⌉₊ := by
  intro h
  have h1 := h alloc_ok
    (put_all nat_set [0, 1, 2, 3, 4, 5, 6, 7, 8, 9, 10, 11, 12, 13, 14, 15, 16, 17, 18, 19]) 20
    (put_all_reachable nat_set _ nat_set_reachable) (by decide) rfl
  have e1 : (unordered_set_put alloc_ok
      (put_all nat_set [0, 1, 2, 3, 4, 5, 6, 7, 8, 9, 10, 11, 12, 13, 14, 15, 16, 17, 18, 19])
      20).2.capacity = 40 := by decide
  have e2 : (put_all nat_set
      [0, 1, 2, 3, 4, 5, 6, 7, 8, 9, 10, 11, 12, 13, 14, 15, 16, 17, 18, 19]).capacity = 27 := by
    decide
  have e3 : ⌈((27 : ℕ) : ℚ) * (3 / 2)⌉₊ = 41 := by
    rw [Nat.ceil_eq_iff (by decide)]
    norm_num
  rw [e1, e2, e3] at h1
  exact absurd h1 (by decide)

/-- C8, amended: in every reachable set, when a put triggers growth and the
allocation succeeds, the new capacity is `floor (capacity * 1.5)`, that is
`capacity * 3 / 2` in integer division. -/
theorem C8_growth_capacity (a : put_alloc) (me : unordered_set K) (k : K)
    (hr : Reachable me)
    (htrigger : 4 * (unordered_set_size me + 1) ≥ 3 * (me.capacity : Int))
    (hok : a.resize_ok = true) :
    (unordered_set_put a me k).2.capacity = ⌊(me.capacity : ℚ) * (3 / 2)⌋₊ ∧
      (unordered_set_put a me k).2.capacity = me.capacity * 3 / 2 := by
  have hi := inv_reachable me hr
  have hcap : (unordered_set_put a me k).2.capacity = me.capacity * 3 / 2 := by
    have hg : put_grow a me = unordered_set_resize true me := by
      rw [put_grow_resize a me htrigger, hok]
    have hc := (resize_ok me hi.wf).2.1
    rcases put_cases a me k hi.wf hi.placed with ⟨_, h⟩ | ⟨_, _, h⟩
    · rw [hg] at h
      have := (resize_ok me hi.wf).1
      rw [h] at this
      exact absurd this ENOMEM_ne
    · rcases h with ⟨_, h⟩ | ⟨_, _, h⟩ | ⟨_, _, h⟩
      · rw [h, hg]; exact hc
      · rw [h, hg]; exact hc
      · rw [h, hg]
        show (unordered_set_add_item _ _).capacity = _
        rw [add_item_capacity]; exact hc
  refine ⟨?_, hcap⟩
  rw [hcap]
  have e : (me.capacity : ℚ) * (3 / 2) = ((me.capacity * 3 : ℕ) : ℚ) / ((2 : ℕ) : ℚ) := by
    push_cast; ring
  rw [e, Nat.floor_div_eq_div]

set_option maxRecDepth 100000 in
/-- At capacity 27 the growth of the twenty-first put gives capacity `27 * 3 / 2`. -/
theorem C8_growth_capacity_witness :
    Reachable (put_all nat_set
        [0, 1, 2, 3, 4, 5, 6, 7, 8, 9, 10, 11, 12, 13, 14, 15, 16, 17, 18, 19]) ∧
      (put_all nat_set
        [0, 1, 2, 3, 4, 5, 6, 7, 8, 9, 10, 11, 12, 13, 14, 15, 16, 17, 18, 19]).capacity = 27 ∧
      (unordered_set_put alloc_ok (put_all nat_set
        [0, 1, 2, 3, 4, 5, 6, 7, 8, 9, 10, 11, 12, 13, 14, 15, 16, 17, 18, 19]) 20).2.capacity =
        27 * 3 / 2 :=
  ⟨put_all_reachable nat_set _ nat_set_reachable, by decide,
    (C8_growth_capacity alloc_ok (put_all nat_set
      [0, 1, 2, 3, 4, 5, 6, 7, 8, 9, 10, 11, 12, 13, 14, 15, 16, 17, 18, 19]) 20
      (put_all_reachable nat_set _ nat_set_reachable) (by decide) rfl).2⟩

/-- C9: for every set whose bucket array has `capacity > 0` entries, stale stored
hashes and misplaced nodes included, a successful `unordered_set_rehash` keeps the
capacity, the size and the multiset of stored keys, and afterwards every node
stores the mixed hash of its key and lies in the bucket `stored hash % capacity`. -/
theorem C9_rehash (calloc_ok : Bool) (me : unordered_set K)
    (hlen : me.buckets.length = me.capacity) (hcap : 0 < me.capacity)
    (h0 : (unordered_set_rehash calloc_ok me).1 = 0) :
    (unordered_set_rehash calloc_ok me).2.capacity = me.capacity ∧
      unordered_set_size (unordered_set_rehash calloc_ok me).2 = unordered_set_size me ∧
      ((nodes (unordered_set_rehash calloc_ok me).2).map node.key).Perm
        ((nodes me).map node.key) ∧
      (unordered_set_rehash calloc_ok me).2.buckets.length = me.capacity ∧
      ∀ i, ∀ n ∈ (unordered_set_rehash calloc_ok me).2.buckets.getD i [],
        n.hash = unordered_set_hash (unordered_set_rehash calloc_ok me).2 n.key ∧
        n.hash % (unordered_set_rehash calloc_ok me).2.capacity = i := by
  cases calloc_ok with
  | false => rw [rehash_fail] at h0; exact absurd h0 ENOMEM_ne
  | true =>
    obtain ⟨_, hs, hsz, hc, hl, hp, hperm⟩ := rehash_ok me ⟨hlen, hcap⟩
    refine ⟨hc, hsz, ?_, hl, ?_⟩
    · have := hperm.map node.key
      rw [List.map_map] at this
      exact this
    · intro i n hn
      refine ⟨?_, hp i n hn⟩
      by_cases hi : i < (unordered_set_rehash true me).2.buckets.length
      · have hmem : n ∈ nodes (unordered_set_rehash true me).2 :=
          (mem_flatten_iff_getD _ _).2 ⟨i, hi, hn⟩
        obtain ⟨t, _, rfl⟩ := List.mem_map.1 (hperm.mem_iff.1 hmem)
        exact (unordered_set_hash_congr _ _ hs.hash _).symm
      · rw [List.getD_eq_default _ _ (not_lt.1 hi)] at hn
        exact absurd hn (List.not_mem_nil n)

/-- Rehashing the stale table moves the node with key 3 to bucket 3 with stored hash 3. -/
theorem C9_rehash_witness :
    stale_set.buckets.length = stale_set.capacity ∧ 0 < stale_set.capacity ∧
      (unordered_set_rehash true stale_set).1 = 0 ∧
      (unordered_set_rehash true stale_set).2.buckets =
        [[], [], [], [{ key := 3, hash := 3 }], [], [], [], []] ∧
      ∀ i, ∀ n ∈ (unordered_set_rehash true stale_set).2.buckets.getD i [],
        n.hash = unordered_set_hash (unordered_set_rehash true stale_set).2 n.key ∧
        n.hash % (unordered_set_rehash true stale_set).2.capacity = i :=
  ⟨rfl, by decide, rfl, rfl,
    (C9_rehash true stale_set rfl (by decide) rfl).2.2.2.2⟩

/-- C10: for every reachable set a successful clear gives size 0, capacity 8 and 8
empty buckets, which is the set `unordered_set_init` creates for the same key size
and functions; `unordered_set_contains` is then 0 for every key and
`unordered_set_is_empty` is 1. -/
theorem C10_clear (calloc_ok : Bool) (me : unordered_set K) (hr : Reachable me)
    (hclear : (unordered_set_clear calloc_ok me).1 = 0) :
    unordered_set_size (unordered_set_clear calloc_ok me).2 = 0 ∧
      (unordered_set_clear calloc_ok me).2.capacity = 8 ∧
      (unordered_set_clear calloc_ok me).2.buckets = List.replicate 8 [] ∧
      unordered_set_init me.key_size (some me.hash) (some me.comparator) true true =
        some (unordered_set_clear calloc_ok me).2 ∧
      (∀ k, unordered_set_contains (unordered_set_clear calloc_ok me).2 k = 0) ∧
      unordered_set_is_empty (unordered_set_clear calloc_ok me).2 = 1 := by
  have hi := inv_reachable me hr
  cases calloc_ok with
  | false => rw [clear_fail] at hclear; exact absurd hclear ENOMEM_ne
  | true =>
    rw [clear_ok]
    refine ⟨rfl, rfl, rfl, ?_, ?_, rfl⟩
    · unfold unordered_set_init
      simp [hi.key_size_ne]
    · intro k
      have hc := inv_clear true me hi
      rw [clear_ok] at hc
      rw [contains_eq_zero_iff, contains_iff _ k hc.wf hc.placed]
      rintro ⟨n, hn, _⟩
      rw [replicate_nodes _ _ rfl] at hn
      exact absurd hn (List.not_mem_nil n)

/-- Clearing the set holding 3 and 11 returns 0 and leaves 8 empty buckets. -/
theorem C10_clear_witness :
    Reachable (put_all nat_set [3, 11]) ∧
      (unordered_set_clear true (put_all nat_set [3, 11])).1 = 0 ∧
      (unordered_set_clear true (put_all nat_set [3, 11])).2.buckets = List.replicate 8 [] :=
  ⟨put_all_reachable nat_set _ nat_set_reachable, by decide,
    (C10_clear true (put_all nat_set [3, 11])
      (put_all_reachable nat_set _ nat_set_reachable) (by decide)).2.2.1⟩

/-- C11: `unordered_set_init` returns the invalid handle exactly when the key size
is 0, the hash function or the comparator is unset, or an allocation fails;
otherwise the new set has size 0, capacity 8 and 8 empty buckets, so it is empty
and contains no key. -/
theorem C11_init (key_size : Nat) (hash : Option (K → Nat))
    (comparator : Option (K → K → Int)) (malloc_ok calloc_ok : Bool) :
    (unordered_set_init key_size hash comparator malloc_ok calloc_ok = none ↔
        key_size = 0 ∨ hash = none ∨ comparator = none ∨ malloc_ok = false ∨
          calloc_ok = false) ∧
      ∀ me, unordered_set_init key_size hash comparator malloc_ok calloc_ok = some me →
        unordered_set_size me = 0 ∧ me.capacity = 8 ∧ me.buckets = List.replicate 8 [] ∧
        me.key_size = key_size ∧ some me.hash = hash ∧ some me.comparator = comparator ∧
        unordered_set_is_empty me = 1 ∧ ∀ k, unordered_set_contains me k = 0 := by
  constructor
  · unfold unordered_set_init
    cases hash <;> cases comparator <;> cases malloc_ok <;> cases calloc_ok <;>
      by_cases hk : key_size = 0 <;> simp [hk]
  · intro me h
    have hi := inv_init key_size hash comparator malloc_ok calloc_ok me h
    have hn : nodes me = [] := by
      have h1 := hi.size_eq
      unfold unordered_set_init at h
      cases hash <;> cases comparator <;> cases malloc_ok <;> cases calloc_ok <;>
        by_cases hk : key_size = 0 <;> simp [hk] at h
      subst h
      exact replicate_nodes _ _ rfl
    have hall : ∀ k, unordered_set_contains me k = 0 := by
      intro k
      rw [contains_eq_zero_iff, contains_iff me k hi.wf hi.placed, hn]
      simp
    unfold unordered_set_init at h
    cases hash <;> cases comparator <;> cases malloc_ok <;> cases calloc_ok <;>
      by_cases hk : key_size = 0 <;> simp [hk] at h
    subst h
    exact ⟨rfl, rfl, rfl, rfl, rfl, rfl, rfl, hall⟩

/-- The set of numbers is what `unordered_set_init` returns for key size 4, and the
call with a failing bucket allocation returns the invalid handle. -/
theorem C11_init_witness :
    unordered_set_init 4 (some nat_hash) (some nat_compare) true true = some nat_set ∧
      unordered_set_init 4 (some nat_hash) (some nat_compare) true false = none ∧
      unordered_set_is_empty nat_set = 1 ∧ ∀ k, unordered_set_contains nat_set k = 0 :=
  ⟨rfl, (C11_init 4 (some nat_hash) (some nat_compare) true false).1.2
      (Or.inr (Or.inr (Or.inr (Or.inr rfl)))),
    ((C11_init 4 (some nat_hash) (some nat_compare) true true).2 nat_set rfl).2.2.2.2.2.2.1,
    ((C11_init 4 (some nat_hash) (some nat_compare) true true).2 nat_set rfl).2.2.2.2.2.2.2⟩

/-- C16: in every reachable state every node of bucket `i` stores the mixed hash of
its key and that hash selects bucket `i` at the current capacity; so
`unordered_set_contains`, which scans one bucket, returns 1 exactly when some node
of the table has the mixed hash of the key and a key the comparator reports equal. -/
theorem C16_bucket_placement (me : unordered_set K) (hr : Reachable me) :
    (∀ i, ∀ n ∈ me.buckets.getD i [],
        n.hash = unordered_set_hash me n.key ∧ n.hash % me.capacity = i) ∧
      ∀ k, (unordered_set_contains me k = 1 ↔
          ∃ n ∈ nodes me, n.hash = unordered_set_hash me k ∧ me.comparator n.key k = 0) ∧
        (unordered_set_contains me k = 0 ∨ unordered_set_contains me k = 1) := by
  have hi := inv_reachable me hr
  refine ⟨fun i n hn => ⟨?_, hi.placed i n hn⟩,
    fun k => ⟨contains_iff me k hi.wf hi.placed, contains_zero_or_one me k⟩⟩
  by_cases h : i < me.buckets.length
  · exact hi.stored n ((mem_flatten_iff_getD _ _).2 ⟨i, h, hn⟩)
  · rw [List.getD_eq_default _ _ (not_lt.1 h)] at hn
    exact absurd hn (List.not_mem_nil n)

/-- After the puts of 3, 11 and 4 into the new set, bucket 3 holds 3 and 11 and the
placement holds. -/
theorem C16_bucket_placement_witness :
    Reachable (put_all nat_set [3, 11, 4]) ∧
      ((put_all nat_set [3, 11, 4]).buckets.getD 3 []).map node.key = [3, 11] ∧
      (∀ i, ∀ n ∈ (put_all nat_set [3, 11, 4]).buckets.getD i [],
        n.hash = unordered_set_hash (put_all nat_set [3, 11, 4]) n.key ∧
        n.hash % (put_all nat_set [3, 11, 4]).capacity = i) :=
  ⟨put_all_reachable nat_set _ nat_set_reachable, by decide,
    (C16_bucket_placement (put_all nat_set [3, 11, 4])
      (put_all_reachable nat_set _ nat_set_reachable)).1⟩

/-- C17: in every reachable state, the states left by calls that returned `-ENOMEM`
included, the size field is the total number of nodes over all bucket chains. -/
theorem C17_size_counts_nodes (me : unordered_set K) (hr : Reachable me) :
    unordered_set_size me = (((me.buckets.map List.length).sum : Nat) : Int) ∧
      unordered_set_size me = ((nodes me).length : Int) := by
  have hi := inv_reachable me hr
  have h : (nodes me).length = (me.buckets.map List.length).sum := by
    unfold nodes
    exact List.length_flatten _
  exact ⟨by rw [← h]; exact hi.size_eq, hi.size_eq⟩

/-- A put whose key allocation fails after a successful growth leaves a reachable
state in which the size still counts the nodes. -/
theorem C17_size_counts_nodes_witness :
    Reachable (unordered_set_put { resize_ok := true, node_ok := true, key_ok := false }
        (put_all nat_set [0, 1, 2, 3, 4]) 5).2 ∧
      unordered_set_size (unordered_set_put { resize_ok := true, node_ok := true, key_ok := false }
        (put_all nat_set [0, 1, 2, 3, 4]) 5).2 = 5 ∧
      unordered_set_size (unordered_set_put { resize_ok := true, node_ok := true, key_ok := false }
          (put_all nat_set [0, 1, 2, 3, 4]) 5).2 =
        ((nodes (unordered_set_put { resize_ok := true, node_ok := true, key_ok := false }
          (put_all nat_set [0, 1, 2, 3, 4]) 5).2).length : Int) :=
  ⟨Reachable.put _ _ _ (put_all_reachable nat_set _ nat_set_reachable), by decide,
    (C17_size_counts_nodes _
      (Reachable.put _ _ _ (put_all_reachable nat_set _ nat_set_reachable))).2⟩

/-- C18: with a comparator that is an equivalence and a hash that respects it, no two
nodes of a reachable table hold keys the comparator reports equal; a put either
keeps the nodes or adds the one node of its key, and this only when no node holds an
equal key; remove, rehash and clear never add a node. -/
theorem C18_key_uniqueness (a : put_alloc) (calloc_ok : Bool) (me : unordered_set K)
    (k : K) (hr : Reachable me) (hcmp : comparator_equiv me.comparator)
    (hcons : hash_consistent me.comparator me.hash) :
    (nodes me).Pairwise
        (fun x y => me.comparator x.key y.key ≠ 0 ∧ me.comparator y.key x.key ≠ 0) ∧
      ((nodes (unordered_set_put a me k).2).Perm (nodes me) ∨
        ((nodes (unordered_set_put a me k).2).Perm
            (nodes me ++ [{ key := k, hash := unordered_set_hash me k }]) ∧
          ∀ n ∈ nodes me, me.comparator n.key k ≠ 0 ∧ me.comparator k n.key ≠ 0)) ∧
      (nodes (unordered_set_remove me k).2).length ≤ (nodes me).length ∧
      (nodes (unordered_set_rehash calloc_ok me).2).length = (nodes me).length ∧
      (nodes (unordered_set_clear calloc_ok me).2).length ≤ (nodes me).length := by
  have hi := inv_reachable me hr
  refine ⟨unique_reachable me hr hcmp hcons, ?_, ?_, ?_, ?_⟩
  · rcases put_cases a me k hi.wf hi.placed with ⟨h, _⟩ | ⟨_, hrel, h⟩
    · rw [h]; exact Or.inl (List.Perm.refl _)
    · rcases h with ⟨_, h⟩ | ⟨_, _, h⟩ | ⟨hc, _, h⟩
      · rw [h]; exact Or.inl hrel.perm
      · rw [h]; exact Or.inl hrel.perm
      · right
        rw [h]
        have hperm := add_item_nodes (put_grow a me).2
          { key := k, hash := unordered_set_hash me k } (hrel.grown_wf hi.wf)
        refine ⟨hperm.trans (hrel.perm.append_right _), ?_⟩
        have hno : ¬ ∃ n ∈ nodes me, me.comparator n.key k = 0 := by
          rw [← contains_iff_key me k hi hcons, hc]; decide
        intro n hn
        exact ⟨fun h0 => hno ⟨n, hn, h0⟩, fun h0 => hno ⟨n, hn, hcmp.2.1 _ _ h0⟩⟩
  · rcases remove_cases me k with ⟨_, h⟩ | ⟨_, pre, n, post, hc, _, _, h⟩
    · rw [h]
    · rw [h]
      dsimp only
      have hidx : unordered_set_hash me k % me.capacity < me.buckets.length := by
        rw [hi.length_eq]; exact Nat.mod_lt _ hi.wf.2
      have := (unlink_perm me _ pre post n hidx hc).length_eq
      rw [List.length_cons] at this
      omega
  · cases calloc_ok with
    | false => rw [rehash_fail]
    | true =>
      obtain ⟨_, _, _, _, _, _, hperm⟩ := rehash_ok me hi.wf
      rw [hperm.length_eq, List.length_map]
  · cases calloc_ok with
    | false => rw [clear_fail]
    | true =>
      rw [clear_ok, replicate_nodes _ _ rfl]
      exact Nat.zero_le _

/-- The set holding 3 and 11 has pairwise different keys, and a further put of 3
keeps its nodes. -/
theorem C18_key_uniqueness_witness :
    Reachable (put_all nat_set [3, 11]) ∧
      (nodes (put_all nat_set [3, 11])).map node.key = [3, 11] ∧
      (nodes (put_all nat_set [3, 11])).Pairwise
        (fun x y => (put_all nat_set [3, 11]).comparator x.key y.key ≠ 0 ∧
          (put_all nat_set [3, 11]).comparator y.key x.key ≠ 0) :=
  ⟨put_all_reachable nat_set _ nat_set_reachable, by decide,
    (C18_key_uniqueness alloc_ok true (put_all nat_set [3, 11]) 3
      (put_all_reachable nat_set _ nat_set_reachable) nat_compare_equiv
      nat_hash_consistent).1⟩

/-- C20 as stated fails: at size 5 and capacity 8 a put of a new key grows the table
to 12 buckets, and when the key buffer allocation then fails the put returns
`-ENOMEM` with the grown table. -/
theorem C20_failure_state_counterexample :
    ¬ ∀ (a : put_alloc) (calloc_ok : Bool) (me : unordered_set Nat) (k : Nat), Reachable me →
      ((unordered_set_put a me k).1 = -ENOMEM → (unordered_set_put a me k).2 = me) ∧
      ((unordered_set_rehash calloc_ok me).1 = -ENOMEM →
        (unordered_set_rehash calloc_ok me).2 = me) ∧
      ((unordered_set_clear calloc_ok me).1 = -ENOMEM →
        (unordered_set_clear calloc_ok me).2 = me) := by
  intro h
  have h1 := (h { resize_ok := true, node_ok := true, key_ok := false } true
    (put_all nat_set [0, 1, 2, 3, 4]) 5
    (put_all_reachable nat_set _ nat_set_reachable)).1 (by decide)
  have e : (unordered_set_put { resize_ok := true, node_ok := true, key_ok := false }
      (put_all nat_set [0, 1, 2, 3, 4]) 5).2.capacity = 12 := by decide
  rw [h1] at e
  exact absurd e (by decide)

/-- C20, amended: in every reachable state a rehash or a clear that returns
`-ENOMEM` leaves the whole state as it was; a put that returns `-ENOMEM` leaves the
whole state as it was, unless its growth step had succeeded before the element
allocation failed: then the state is the grown table, with the same size and the
same nodes (keys and stored hashes) linked again in `capacity * 3 / 2` buckets. -/
theorem C20_failure_state (a : put_alloc) (calloc_ok : Bool) (me : unordered_set K) (k : K)
    (hr : Reachable me) :
    ((unordered_set_rehash calloc_ok me).1 = -ENOMEM →
        (unordered_set_rehash calloc_ok me).2 = me) ∧
      ((unordered_set_clear calloc_ok me).1 = -ENOMEM →
        (unordered_set_clear calloc_ok me).2 = me) ∧
      ((unordered_set_put a me k).1 = -ENOMEM →
        (unordered_set_put a me k).2 = me ∨
        (4 * (unordered_set_size me + 1) ≥ 3 * (me.capacity : Int) ∧ a.resize_ok = true ∧
          (unordered_set_put a me k).2 = (unordered_set_resize true me).2 ∧
          unordered_set_size (unordered_set_put a me k).2 = unordered_set_size me ∧
          (unordered_set_put a me k).2.capacity = me.capacity * 3 / 2 ∧
          (nodes (unordered_set_put a me k).2).Perm (nodes me) ∧
          Placed (unordered_set_put a me k).2)) := by
  have hi := inv_reachable me hr
  refine ⟨?_, ?_, ?_⟩
  · cases calloc_ok with
    | false => intro _; rw [rehash_fail]
    | true => intro h; rw [(rehash_ok me hi.wf).1] at h; exact absurd h.symm ENOMEM_ne
  · cases calloc_ok with
    | false => intro _; rw [clear_fail]
    | true => intro h; rw [clear_ok] at h; exact absurd h.symm ENOMEM_ne
  · intro hfail
    rcases put_cases a me k hi.wf hi.placed with ⟨h, _⟩ | ⟨h0, _, h⟩
    · rw [h]; exact Or.inl rfl
    · rcases h with ⟨_, h⟩ | ⟨_, _, h⟩ | ⟨_, _, h⟩
      · rw [h] at hfail; exact absurd hfail.symm ENOMEM_ne
      · rw [h]
        by_cases ht : RESIZE_AT_DEN * (me.size + 1) ≥ RESIZE_AT_NUM * (me.capacity : Int)
        · right
          have hg := put_grow_resize a me ht
          cases hro : a.resize_ok with
          | false =>
            rw [hg, hro, resize_fail] at h0
            exact absurd h0 ENOMEM_ne
          | true =>
            rw [hro] at hg
            obtain ⟨_, hcap, hrel⟩ := resize_ok me hi.wf
            rw [hg]
            exact ⟨ht, rfl, rfl, hrel.size_eq, hcap, hrel.perm, hrel.placed⟩
        · left
          rw [put_grow_idle a me ht]
      · rw [h] at hfail; exact absurd hfail.symm ENOMEM_ne

/-- A failed rehash and a failed clear of the set holding 3 and 11 return `-ENOMEM`
and leave it as it was. -/
theorem C20_failure_state_witness :
    Reachable (put_all nat_set [3, 11]) ∧
      (unordered_set_rehash false (put_all nat_set [3, 11])).1 = -ENOMEM ∧
      (unordered_set_rehash false (put_all nat_set [3, 11])).2 = put_all nat_set [3, 11] :=
  ⟨put_all_reachable nat_set _ nat_set_reachable, by decide,
    (C20_failure_state alloc_ok false (put_all nat_set [3, 11]) 3
      (put_all_reachable nat_set _ nat_set_reachable)).1 (by decide)⟩

/-- C19 as stated fails: the puts of 12, 0, 1, 2, 3 and 5 into a new set grow the
table at the sixth put; the keys 12 and 0 then share bucket 0, whose chain lists 0
before 12 although 12 was inserted first. -/
theorem C19_chain_order_counterexample :
    ¬ ∀ (ops : List (set_op Nat)) (i : Nat),
      chain_keys (run_ops nat_set ops) i =
        keys_of_bucket (run_ops nat_set ops) (survivors nat_compare ops) i := by
  intro h
  have h1 := h [set_op.put 12, set_op.put 0, set_op.put 1, set_op.put 2, set_op.put 3,
    set_op.put 5] 0
  revert h1
  decide

/-- C19, amended: for a comparator that is an equivalence and a hash that respects
it, in every state reached from a new set by puts (no allocation failing) and
removes in which the capacity is still the starting capacity 8, that is, no put has
triggered growth, every chain lists the surviving keys of its bucket in the order of
their insertion; and a successful growth links the nodes again old bucket by old
bucket, each new chain listing its nodes in the order of old bucket index and old
chain position. -/
theorem C19_chain_order (me : unordered_set K) (ops : List (set_op K)) (i : Nat)
    (hinit : unordered_set_init me.key_size (some me.hash) (some me.comparator) true true =
      some me)
    (hcmp : comparator_equiv me.comparator)
    (hcons : hash_consistent me.comparator me.hash) :
    ((run_ops me ops).capacity = STARTING_BUCKETS →
        chain_keys (run_ops me ops) i =
          keys_of_bucket (run_ops me ops) (survivors me.comparator ops) i) ∧
      (i < (run_ops me ops).capacity * 3 / 2 →
        (unordered_set_resize true (run_ops me ops)).2.buckets.getD i [] =
          (nodes (run_ops me ops)).filter
            (fun n => n.hash % ((run_ops me ops).capacity * 3 / 2) == i)) := by
  have hr : Reachable me := Reachable.init _ _ _ _ _ me hinit
  have hi := inv_reachable me hr
  have hn := init_nodes me hinit
  have hcap0 : me.capacity = STARTING_BUCKETS := by
    unfold unordered_set_init at hinit
    simp only [Bool.not_true, Bool.false_eq_true, if_false] at hinit
    split at hinit
    · exact absurd hinit (by simp)
    · have e := Option.some.inj hinit
      rw [← e]
  constructor
  · intro hcap
    have hl : ∀ j, chain_keys me j = keys_of_bucket me ([] : List K) j := by
      intro j
      unfold chain_keys keys_of_bucket
      have hempty : me.buckets.getD j [] = [] := by
        cases hc : me.buckets.getD j [] with
        | nil => rfl
        | cons x rest =>
          have hx : x ∈ nodes me := mem_nodes_of_chain me j x (by rw [hc]; exact List.mem_cons_self _ _)
          rw [hn] at hx
          exact absurd hx (List.not_mem_nil x)
      rw [hempty]
      rfl
    exact listed_run_ops ops me [] hr hcmp hcons hl (by rw [hcap, hcap0]) i
  · intro hlt
    exact resize_chain (run_ops me ops) (inv_reachable _ (run_ops_reachable me ops hr)).wf i hlt

/-- After the puts of 3, 11, 4, 19, the remove of 3 and the put of 27 the capacity is
still 8, bucket 3 holds 11 and bucket 2 lists 19 before 27. -/
theorem C19_chain_order_witness :
    comparator_equiv nat_set.comparator ∧ hash_consistent nat_set.comparator nat_set.hash ∧
      (run_ops nat_set [set_op.put 3, set_op.put 11, set_op.put 4, set_op.put 19,
        set_op.remove 3, set_op.put 27]).capacity = STARTING_BUCKETS ∧
      survivors nat_compare [set_op.put 3, set_op.put 11, set_op.put 4, set_op.put 19,
        set_op.remove 3, set_op.put 27] = [11, 4, 19, 27] ∧
      chain_keys (run_ops nat_set [set_op.put 3, set_op.put 11, set_op.put 4, set_op.put 19,
        set_op.remove 3, set_op.put 27]) 3 = [11] ∧
      chain_keys (run_ops nat_set [set_op.put 3, set_op.put 11, set_op.put 4, set_op.put 19,
        set_op.remove 3, set_op.put 27]) 2 = [19, 27] ∧
      chain_keys (run_ops nat_set [set_op.put 3, set_op.put 11, set_op.put 4, set_op.put 19,
          set_op.remove 3, set_op.put 27]) 2 =
        keys_of_bucket (run_ops nat_set [set_op.put 3, set_op.put 11, set_op.put 4,
            set_op.put 19, set_op.remove 3, set_op.put 27])
          (survivors nat_set.comparator [set_op.put 3, set_op.put 11, set_op.put 4,
            set_op.put 19, set_op.remove 3, set_op.put 27]) 2 :=
  ⟨nat_compare_equiv, nat_hash_consistent, by decide, by decide, by decide, by decide,
    (C19_chain_order nat_set [set_op.put 3, set_op.put 11, set_op.put 4, set_op.put 19,
      set_op.remove 3, set_op.put 27] 2 rfl nat_compare_equiv nat_hash_consistent).1
      (by decide)⟩


/-- C22: in every reachable set whose comparator is an equivalence that the hash
respects, for keys `k` and `k2` the comparator reports different, the answer of
`unordered_set_contains` for `k2` is the same after a put of `k`, whatever the
allocations do and whether or not the put grows the table, and after a remove of `k`,
as it was before the call. -/
theorem C22_other_keys_kept (a : put_alloc) (me : unordered_set K) (k k2 : K)
    (hr : Reachable me) (hcmp : comparator_equiv me.comparator)
    (hcons : hash_consistent me.comparator me.hash) (hne : me.comparator k k2 ≠ 0) :
    unordered_set_contains (unordered_set_put a me k).2 k2 = unordered_set_contains me k2 ∧
      unordered_set_contains (unordered_set_remove me k).2 k2 =
        unordered_set_contains me k2 :=
  ⟨put_frame a me k k2 (inv_reachable me hr) hcons hne,
    remove_frame me k k2 (inv_reachable me hr) hcmp hcons hne⟩

/-- The set holds 3 and 11 in one chain, and 0, 1, 2.  The put of 3 finds it after
growing the table to 12 buckets and linking every node again; the remove of 3 unlinks
the head of the chain of 11.  The key 11 is answered as before in both cases. -/
theorem C22_other_keys_kept_witness :
    Reachable (put_all nat_set [3, 11, 0, 1, 2]) ∧
      chain_keys (put_all nat_set [3, 11, 0, 1, 2]) 3 = [3, 11] ∧
      (unordered_set_put alloc_ok (put_all nat_set [3, 11, 0, 1, 2]) 3).2.capacity = 12 ∧
      (unordered_set_remove (put_all nat_set [3, 11, 0, 1, 2]) 3).1 = 1 ∧
      unordered_set_contains (put_all nat_set [3, 11, 0, 1, 2]) 11 = 1 ∧
      (unordered_set_contains (unordered_set_put alloc_ok (put_all nat_set [3, 11, 0, 1, 2]) 3).2 11 =
          unordered_set_contains (put_all nat_set [3, 11, 0, 1, 2]) 11 ∧
        unordered_set_contains (unordered_set_remove (put_all nat_set [3, 11, 0, 1, 2]) 3).2 11 =
          unordered_set_contains (put_all nat_set [3, 11, 0, 1, 2]) 11) :=
  ⟨put_all_reachable nat_set _ nat_set_reachable, by decide, by decide, by decide, by decide,
    C22_other_keys_kept alloc_ok (put_all nat_set [3, 11, 0, 1, 2]) 3 11
      (put_all_reachable nat_set _ nat_set_reachable) nat_compare_equiv nat_hash_consistent
      (by decide)⟩

/-- C24: in every reachable state, whatever allocations failed on the way, the
capacity is at least 8 and the bucket array has exactly `capacity` entries, so
`hash % capacity` never divides by zero and is an index of the array: in contains and
remove, which index the table as it is; in put, which indexes the table its growth
step leaves; and in `unordered_set_add_item`, which the loops of resize and rehash call
on the fresh table and on every table they build from it. -/
theorem C24_index_in_bounds (a : put_alloc) (me : unordered_set K) (hr : Reachable me) :
    STARTING_BUCKETS ≤ me.capacity ∧ me.buckets.length = me.capacity ∧ me.capacity ≠ 0 ∧
      (∀ hash : Nat, hash % me.capacity < me.capacity ∧
        hash % me.capacity < me.buckets.length) ∧
      ((put_grow a me).2.capacity ≠ 0 ∧
        ∀ hash : Nat, hash % (put_grow a me).2.capacity < (put_grow a me).2.buckets.length) ∧
      (∀ (ns : List (node K)) (add : node K),
        (ns.foldl unordered_set_add_item
          { me with buckets := List.replicate (me.capacity * RESIZE_FACTOR_NUM / RESIZE_FACTOR_DEN) [],
                    capacity := me.capacity * RESIZE_FACTOR_NUM / RESIZE_FACTOR_DEN }).capacity ≠ 0 ∧
        add.hash % (ns.foldl unordered_set_add_item
          { me with buckets := List.replicate (me.capacity * RESIZE_FACTOR_NUM / RESIZE_FACTOR_DEN) [],
                    capacity := me.capacity * RESIZE_FACTOR_NUM / RESIZE_FACTOR_DEN }).capacity <
          (ns.foldl unordered_set_add_item
            { me with buckets := List.replicate (me.capacity * RESIZE_FACTOR_NUM / RESIZE_FACTOR_DEN) [],
                      capacity := me.capacity * RESIZE_FACTOR_NUM / RESIZE_FACTOR_DEN }).buckets.length) ∧
      (∀ (ns : List (node K)) (add : node K),
        (ns.foldl unordered_set_add_item
          { me with buckets := List.replicate me.capacity [] }).capacity ≠ 0 ∧
        add.hash % (ns.foldl unordered_set_add_item
          { me with buckets := List.replicate me.capacity [] }).capacity <
          (ns.foldl unordered_set_add_item
            { me with buckets := List.replicate me.capacity [] }).buckets.length) := by
  have hi := inv_reachable me hr
  have h8 : 0 < STARTING_BUCKETS := by decide
  have hpos : 0 < me.capacity := lt_of_lt_of_le h8 hi.capacity_ge
  have hgrow := put_grow_wf a me hi
  have hgpos : 0 < (put_grow a me).2.capacity := lt_of_lt_of_le h8 hgrow.1
  have hnew : 0 < me.capacity * RESIZE_FACTOR_NUM / RESIZE_FACTOR_DEN := by
    have := hi.capacity_ge
    unfold STARTING_BUCKETS at this
    unfold RESIZE_FACTOR_NUM RESIZE_FACTOR_DEN
    omega
  refine ⟨hi.capacity_ge, hi.length_eq, Nat.pos_iff_ne_zero.1 hpos, ?_, ?_, ?_, ?_⟩
  · intro hash
    exact ⟨Nat.mod_lt _ hpos, by rw [hi.length_eq]; exact Nat.mod_lt _ hpos⟩
  · refine ⟨Nat.pos_iff_ne_zero.1 hgpos, fun hash => ?_⟩
    rw [hgrow.2]
    exact Nat.mod_lt _ hgpos
  · intro ns add
    obtain ⟨hc, hl⟩ := fresh_fold_wf ns me _ hnew
    rw [hc, hl]
    exact ⟨Nat.pos_iff_ne_zero.1 hnew, Nat.mod_lt _ hnew⟩
  · intro ns add
    have e : ({ me with buckets := List.replicate me.capacity [] } : unordered_set K) =
        { me with buckets := List.replicate me.capacity [], capacity := me.capacity } := rfl
    rw [e]
    obtain ⟨hc, hl⟩ := fresh_fold_wf ns me _ hpos
    rw [hc, hl]
    exact ⟨Nat.pos_iff_ne_zero.1 hpos, Nat.mod_lt _ hpos⟩

/-- After five puts and a sixth whose key allocation fails behind a successful growth,
the capacity is 12, the array has 12 entries, and the invariant holds. -/
theorem C24_index_in_bounds_witness :
    Reachable (unordered_set_put { resize_ok := true, node_ok := true, key_ok := false }
        (put_all nat_set [0, 1, 2, 3, 4]) 5).2 ∧
      (unordered_set_put { resize_ok := true, node_ok := true, key_ok := false }
        (put_all nat_set [0, 1, 2, 3, 4]) 5).2.capacity = 12 ∧
      (unordered_set_put { resize_ok := true, node_ok := true, key_ok := false }
        (put_all nat_set [0, 1, 2, 3, 4]) 5).2.buckets.length =
        (unordered_set_put { resize_ok := true, node_ok := true, key_ok := false }
          (put_all nat_set [0, 1, 2, 3, 4]) 5).2.capacity :=
  ⟨Reachable.put _ _ _ (put_all_reachable nat_set _ nat_set_reachable), by decide,
    (C24_index_in_bounds alloc_ok _
      (Reachable.put _ _ _ (put_all_reachable nat_set _ nat_set_reachable))).2.1⟩

/-- C23: the mix applied by `unordered_set_hash` sends 0 to 0 and is injective; it
maps the 64-bit words into themselves and reaches every one of them, and likewise the
32-bit words, so it is a bijection on either; hence two keys whose raw hashes differ
never receive the same mixed hash. -/
theorem C23_hash_mix_bijective {K : Type} :
    hash_mix 0 = 0 ∧
      (∀ x y, hash_mix x = hash_mix y → x = y) ∧
      (∀ h, h < ULONG_SIZE → hash_mix h < ULONG_SIZE) ∧
      (∀ y, y < ULONG_SIZE → ∃ x, x < ULONG_SIZE ∧ hash_mix x = y) ∧
      (∀ h, h < 2 ^ 32 → hash_mix h < 2 ^ 32) ∧
      (∀ y, y < 2 ^ 32 → ∃ x, x < 2 ^ 32 ∧ hash_mix x = y) ∧
      ∀ (me : unordered_set K) (k1 k2 : K),
        me.hash k1 % ULONG_SIZE ≠ me.hash k2 % ULONG_SIZE →
          unordered_set_hash me k1 ≠ unordered_set_hash me k2 := by
  refine ⟨by decide, hash_mix_inj, hash_mix_lt 64, hash_mix_surj 64, hash_mix_lt 32,
    hash_mix_surj 32, ?_⟩
  intro me k1 k2 hne h
  exact hne (hash_mix_inj _ _ h)

/-- The mix sends 19 to 18 and 18 to 19; the keys 18 and 19 of the set of numbers have
different raw hashes and get different mixed hashes, and some 64-bit word is sent to
18. -/
theorem C23_hash_mix_bijective_witness :
    hash_mix 19 = 18 ∧ hash_mix 18 = 19 ∧
      nat_set.hash 18 % ULONG_SIZE ≠ nat_set.hash 19 % ULONG_SIZE ∧
      unordered_set_hash nat_set 18 ≠ unordered_set_hash nat_set 19 ∧
      ∃ x, x < ULONG_SIZE ∧ hash_mix x = 18 :=
  ⟨by decide, by decide, by decide,
    (@C23_hash_mix_bijective Nat).2.2.2.2.2.2 nat_set 18 19 (by decide),
    (@C23_hash_mix_bijective Nat).2.2.2.1 18 (by decide)⟩
end USet

namespace OMap

variable {K V : Type}

/-! ## Facts on the ordered map -/

theorem repair_entries (t t' : node K V) (h : map_repair t = some t') :
    entries t' = entries t := by
  unfold map_repair at h
  repeat' split at h
  all_goals (cases h; try simp [entries])

theorem repair_range (l r : node K V) (k : K) (v : V) (b : Int) (t' : node K V)
    (hl : balances_in_range l) (hr : balances_in_range r)
    (h : map_repair (node.mk l k v b r) = some t') : balances_in_range t' := by
  unfold map_repair at h
  repeat' split at h
  all_goals (cases h; try simp_all [balances_in_range])

theorem repair_not_null (t t' : node K V) (h : map_repair t = some t') : t' ≠ node.null := by
  unfold map_repair at h
  repeat' split at h
  all_goals (cases h; try simp)

/-- Repair is defined at a node of balance +2 whose right child has a balance in
range and its heavy side present. -/
theorem repair_defined_right (l r : node K V) (k : K) (v : V) (hn : r ≠ node.null)
    (hr : balances_in_range r) (hh : heavy_side_present r) :
    ∃ t', map_repair (node.mk l k v 2 r) = some t' := by
  cases r with
  | null => exact absurd rfl hn
  | mk cl ck cv cb cr =>
    simp only [balances_in_range] at hr
    simp only [heavy_side_present] at hh
    unfold map_repair
    simp only [if_true]
    by_cases h0 : cb ≥ 0
    · simp only [h0, if_true]
      split <;> exact ⟨_, rfl⟩
    · have h1 : cb = -1 := by omega
      subst h1
      cases cl with
      | null => exact absurd rfl (hh.1 rfl)
      | mk gl gk gv gb gr =>
        simp only [h0, if_false, if_true]
        split
        · exact ⟨_, rfl⟩
        · split <;> exact ⟨_, rfl⟩

/-- Repair is defined at a node of balance -2 whose left child has a balance in range
and its heavy side present. -/
theorem repair_defined_left (l r : node K V) (k : K) (v : V) (hn : l ≠ node.null)
    (hr : balances_in_range l) (hh : heavy_side_present l) :
    ∃ t', map_repair (node.mk l k v (-2) r) = some t' := by
  cases l with
  | null => exact absurd rfl hn
  | mk cl ck cv cb cr =>
    simp only [balances_in_range] at hr
    simp only [heavy_side_present] at hh
    unfold map_repair
    have h2 : ¬ ((-2 : Int) = 2) := by decide
    simp only [h2, if_false, if_true]
    by_cases h0 : cb ≤ 0
    · simp only [h0, if_true]
      split <;> exact ⟨_, rfl⟩
    · have h1 : cb = 1 := by omega
      subst h1
      cases cr with
      | null => exact absurd rfl (hh.2 rfl)
      | mk gl gk gv gb gr =>
        simp only [h0, if_false, if_true]
        split
        · exact ⟨_, rfl⟩
        · split <;> exact ⟨_, rfl⟩

theorem keys_mk (l r : node K V) (k : K) (v : V) (b : Int) :
    keys (node.mk l k v b r) = keys l ++ k :: keys r := by
  simp [keys, entries]

theorem keys_of_entries (t t' : node K V) (h : entries t' = entries t) : keys t' = keys t := by
  unfold keys; rw [h]

theorem increasing_of_entries (cmp : K → K → Int) (t t' : node K V)
    (h : entries t' = entries t) (hs : strictly_increasing cmp t) :
    strictly_increasing cmp t' := by
  unfold strictly_increasing at *
  rw [keys_of_entries t t' h]; exact hs

theorem increasing_mk (cmp : K → K → Int) (hc : comparator_strict_total cmp)
    (l r : node K V) (k : K) (v : V) (b : Int) :
    strictly_increasing cmp (node.mk l k v b r) ↔
      strictly_increasing cmp l ∧ strictly_increasing cmp r ∧
        (∀ x ∈ keys l, cmp x k < 0) ∧ (∀ y ∈ keys r, cmp k y < 0) := by
  unfold strictly_increasing
  rw [keys_mk, List.pairwise_append, List.pairwise_cons]
  constructor
  · rintro ⟨h1, ⟨h2, h3⟩, h4⟩
    exact ⟨h1, h3, fun x hx => h4 x hx k (List.mem_cons_self _ _), h2⟩
  · rintro ⟨h1, h2, h3, h4⟩
    refine ⟨h1, ⟨h4, h2⟩, ?_⟩
    intro x hx y hy
    rcases List.mem_cons.1 hy with rfl | hy
    · exact h3 x hx
    · exact hc.trans _ _ _ (h3 x hx) (h4 y hy)

theorem cmp_self (cmp : K → K → Int) (hc : comparator_strict_total cmp) (a : K) :
    cmp a a = 0 := (hc.eq_iff a a).2 rfl

theorem mem_keys_of_entry (t : node K V) (x : K) (w : V) (h : (x, w) ∈ entries t) :
    x ∈ keys t := List.mem_map.2 ⟨(x, w), h, rfl⟩

/-- In a tree whose keys increase in order the descent finds every entry. -/
theorem get_node_of_mem (cmp : K → K → Int) (hc : comparator_strict_total cmp)
    (t : node K V) (x : K) (w : V) (hs : strictly_increasing cmp t)
    (hm : (x, w) ∈ entries t) : get_node cmp x t = some w := by
  induction t with
  | null => exact absurd hm (List.not_mem_nil _)
  | mk l k v b r ihl ihr =>
    obtain ⟨hsl, hsr, hlk, hkr⟩ := (increasing_mk cmp hc l r k v b).1 hs
    simp only [entries, List.mem_append, List.mem_cons] at hm
    unfold get_node
    rcases hm with hm | hm | hm
    · have h1 := hlk x (mem_keys_of_entry l x w hm)
      have h2 : ¬ cmp x k = 0 := by omega
      rw [if_neg h2, if_pos h1]
      exact ihl hsl hm
    · have hxk : x = k := (Prod.mk.inj hm).1
      have hwv : w = v := (Prod.mk.inj hm).2
      rw [if_pos ((hc.eq_iff x k).2 hxk), hwv]
    · have h1 := hkr x (mem_keys_of_entry r x w hm)
      have h3 := (hc.flip k x).1 h1
      have h2 : ¬ cmp x k = 0 := by omega
      have h4 : ¬ cmp x k < 0 := by omega
      rw [if_neg h2, if_neg h4]
      exact ihr hsr hm

/-- The step of the upward walk of a put at an adjusted ancestor is defined and keeps
the entries, when the side that grew meets the conditions of Repair. -/
theorem put_adjusted_spec (l r : node K V) (k : K) (v : V) (b : Int) (added : Bool)
    (hl : balances_in_range l) (hr : balances_in_range r) (hb : -2 ≤ b ∧ b ≤ 2)
    (hpos : b = 2 → r ≠ node.null ∧ heavy_side_present r)
    (hneg : b = -2 → l ≠ node.null ∧ heavy_side_present l)
    (hone : b = 1 → r ≠ node.null) (hmone : b = -1 → l ≠ node.null) :
    ∃ t' grew, put_adjusted (node.mk l k v b r) added = put_result.done t' grew added ∧
      entries t' = entries (node.mk l k v b r) ∧ balances_in_range t' ∧ t' ≠ node.null ∧
      (grew = true → heavy_side_present t') := by
  unfold put_adjusted
  by_cases h0 : b = 0
  · subst h0
    refine ⟨_, false, by simp, rfl, ?_, by simp, by simp⟩
    simp [balances_in_range, hl, hr]
  · by_cases h2 : b = 2 ∨ b = -2
    · simp only [h0, if_false, h2, if_true]
      rcases h2 with h2 | h2
      · subst h2
        obtain ⟨t', ht⟩ := repair_defined_right l r k v (hpos rfl).1 hr (hpos rfl).2
        rw [ht]
        exact ⟨t', false, rfl, repair_entries _ _ ht, repair_range _ _ _ _ _ _ hl hr ht,
          repair_not_null _ _ ht, by simp⟩
      · subst h2
        obtain ⟨t', ht⟩ := repair_defined_left l r k v (hneg rfl).1 hl (hneg rfl).2
        rw [ht]
        exact ⟨t', false, rfl, repair_entries _ _ ht, repair_range _ _ _ _ _ _ hl hr ht,
          repair_not_null _ _ ht, by simp⟩
    · simp only [h0, if_false, h2]
      refine ⟨_, true, rfl, rfl, ?_, by simp, ?_⟩
      · simp only [balances_in_range]
        refine ⟨hl, hr, ?_, ?_⟩ <;> omega
      · intro _
        exact ⟨hmone, hone⟩

theorem rebuild_left (cmp : K → K → Int) (hc : comparator_strict_total cmp)
    (l l' r : node K V) (k key : K) (v : V) (b b' : Int)
    (hs : strictly_increasing cmp (node.mk l k v b r)) (hs' : strictly_increasing cmp l')
    (hk : ∀ x ∈ keys l', x = key ∨ x ∈ keys l) (hlt : cmp key k < 0) :
    strictly_increasing cmp (node.mk l' k v b' r) ∧
      ∀ x ∈ keys (node.mk l' k v b' r), x = key ∨ x ∈ keys (node.mk l k v b r) := by
  obtain ⟨_, hsr, hlk, hkr⟩ := (increasing_mk cmp hc l r k v b).1 hs
  constructor
  · refine (increasing_mk cmp hc l' r k v b').2 ⟨hs', hsr, ?_, hkr⟩
    intro x hx
    rcases hk x hx with rfl | h
    · exact hlt
    · exact hlk x h
  · intro x hx
    rw [keys_mk] at hx ⊢
    rcases List.mem_append.1 hx with h | h
    · rcases hk x h with h1 | h1
      · exact Or.inl h1
      · exact Or.inr (List.mem_append_left _ h1)
    · exact Or.inr (List.mem_append_right _ h)

theorem rebuild_right (cmp : K → K → Int) (hc : comparator_strict_total cmp)
    (l r r' : node K V) (k key : K) (v : V) (b b' : Int)
    (hs : strictly_increasing cmp (node.mk l k v b r)) (hs' : strictly_increasing cmp r')
    (hk : ∀ x ∈ keys r', x = key ∨ x ∈ keys r) (hgt : cmp k key < 0) :
    strictly_increasing cmp (node.mk l k v b' r') ∧
      ∀ x ∈ keys (node.mk l k v b' r'), x = key ∨ x ∈ keys (node.mk l k v b r) := by
  obtain ⟨hsl, _, hlk, hkr⟩ := (increasing_mk cmp hc l r k v b).1 hs
  constructor
  · refine (increasing_mk cmp hc l r' k v b').2 ⟨hsl, hs', hlk, ?_⟩
    intro x hx
    rcases hk x hx with rfl | h
    · exact hgt
    · exact hkr x h
  · intro x hx
    rw [keys_mk] at hx ⊢
    rcases List.mem_append.1 hx with h | h
    · exact Or.inr (List.mem_append_left _ h)
    · rcases List.mem_cons.1 h with h | h
      · exact Or.inr (List.mem_append_right _ (h ▸ List.mem_cons_self _ _))
      · rcases hk x h with h1 | h1
        · exact Or.inl h1
        · exact Or.inr (List.mem_append_right _ (List.mem_cons_of_mem _ h1))

/-- An insertion with no allocation failure into a tree with increasing keys and
balances in range is defined; the new tree has increasing keys and balances in
range and holds the key with the value. -/
theorem put_node_ok (cmp : K → K → Int) (hc : comparator_strict_total cmp) (key : K)
    (value : V) (t : node K V) (hr : balances_in_range t)
    (hs : strictly_increasing cmp t) :
    ∃ t' grew added, put_node cmp true key value t = put_result.done t' grew added ∧
      balances_in_range t' ∧ t' ≠ node.null ∧ (grew = true → heavy_side_present t') ∧
      strictly_increasing cmp t' ∧ (key, value) ∈ entries t' ∧
      ∀ x ∈ keys t', x = key ∨ x ∈ keys t := by
  induction t with
  | null =>
    refine ⟨node.mk node.null key value 0 node.null, true, true, rfl, ?_, by simp, ?_, ?_, ?_, ?_⟩
    · simp [balances_in_range]
    · intro _; simp [heavy_side_present]
    · simp [strictly_increasing, keys, entries]
    · simp [entries]
    · intro x hx
      simp [keys, entries] at hx
      exact Or.inl hx
  | mk l k v b r ihl ihr =>
    obtain ⟨hrl, hrr, hb1, hb2⟩ := hr
    obtain ⟨hsl, hsr, hlk, hkr⟩ := (increasing_mk cmp hc l r k v b).1 hs
    unfold put_node
    by_cases h0 : cmp key k = 0
    · rw [if_pos h0]
      have hk : key = k := (hc.eq_iff key k).1 h0
      refine ⟨_, false, false, rfl, ⟨hrl, hrr, hb1, hb2⟩, by simp, by simp, ?_, ?_, ?_⟩
      · exact (increasing_mk cmp hc l r k value b).2 ⟨hsl, hsr, hlk, hkr⟩
      · simp [entries, hk]
      · intro x hx
        rw [keys_mk] at hx ⊢
        exact Or.inr hx
    · rw [if_neg h0]
      by_cases hlt : cmp key k < 0
      · rw [if_pos hlt]
        obtain ⟨l', g, a, hp, hrl', hnl', hh', hsl', hm', hk'⟩ := ihl hrl hsl
        rw [hp]
        dsimp only
        cases g with
        | true =>
          simp only [if_true]
          obtain ⟨t', grew, hpa, he, hrt, hnt, hht⟩ :=
            put_adjusted_spec l' r k v (b - 1) a hrl' hrr ⟨by omega, by omega⟩
              (fun h => by omega) (fun _ => ⟨hnl', hh' rfl⟩) (fun h => by omega)
              (fun _ => hnl')
          obtain ⟨hs1, hk1⟩ := rebuild_left cmp hc l l' r k key v b (b - 1) hs hsl' hk' hlt
          refine ⟨t', grew, a, hpa, hrt, hnt, hht, increasing_of_entries cmp _ _ he hs1, ?_, ?_⟩
          · rw [he]; simp [entries, hm']
          · intro x hx
            rw [keys_of_entries _ _ he] at hx
            exact hk1 x hx
        | false =>
          simp only [Bool.false_eq_true, if_false]
          obtain ⟨hs1, hk1⟩ := rebuild_left cmp hc l l' r k key v b b hs hsl' hk' hlt
          refine ⟨_, false, a, rfl, ⟨hrl', hrr, hb1, hb2⟩, by simp, by simp, hs1, ?_, hk1⟩
          simp [entries, hm']
      · rw [if_neg hlt]
        have hgt : cmp k key < 0 := (hc.flip k key).2 (by omega)
        obtain ⟨r', g, a, hp, hrr', hnr', hh', hsr', hm', hk'⟩ := ihr hrr hsr
        rw [hp]
        dsimp only
        cases g with
        | true =>
          simp only [if_true]
          obtain ⟨t', grew, hpa, he, hrt, hnt, hht⟩ :=
            put_adjusted_spec l r' k v (b + 1) a hrl hrr' ⟨by omega, by omega⟩
              (fun _ => ⟨hnr', hh' rfl⟩) (fun h => by omega) (fun _ => hnr')
              (fun h => by omega)
          obtain ⟨hs1, hk1⟩ := rebuild_right cmp hc l r r' k key v b (b + 1) hs hsr' hk' hgt
          refine ⟨t', grew, a, hpa, hrt, hnt, hht, increasing_of_entries cmp _ _ he hs1, ?_, ?_⟩
          · rw [he]; simp [entries, hm']
          · intro x hx
            rw [keys_of_entries _ _ he] at hx
            exact hk1 x hx
        | false =>
          simp only [Bool.false_eq_true, if_false]
          obtain ⟨hs1, hk1⟩ := rebuild_right cmp hc l r r' k key v b b hs hsr' hk' hgt
          refine ⟨_, false, a, rfl, ⟨hrl, hrr', hb1, hb2⟩, by simp, by simp, hs1, ?_, hk1⟩
          simp [entries, hm']

/-- A put of a key the descent finds needs no allocation: it is defined, adds no
node, and the descent then finds the new value. -/
theorem put_node_present (cmp : K → K → Int) (alloc_ok : Bool) (key : K) (value v0 : V)
    (t : node K V) (h : get_node cmp key t = some v0) :
    ∃ t', put_node cmp alloc_ok key value t = put_result.done t' false false ∧
      get_node cmp key t' = some value ∧ keys t' = keys t := by
  induction t with
  | null => simp [get_node] at h
  | mk l k v b r ihl ihr =>
    unfold get_node at h
    unfold put_node
    by_cases h0 : cmp key k = 0
    · rw [if_pos h0]
      refine ⟨_, rfl, ?_, by rw [keys_mk, keys_mk]⟩
      unfold get_node
      rw [if_pos h0]
    · rw [if_neg h0] at h ⊢
      by_cases hlt : cmp key k < 0
      · rw [if_pos hlt] at h ⊢
        obtain ⟨l', hp, hg, hk⟩ := ihl h
        rw [hp]
        refine ⟨node.mk l' k v b r, by simp, ?_, by rw [keys_mk, keys_mk, hk]⟩
        unfold get_node
        rw [if_neg h0, if_pos hlt]; exact hg
      · rw [if_neg hlt] at h ⊢
        obtain ⟨r', hp, hg, hk⟩ := ihr h
        rw [hp]
        refine ⟨node.mk l k v b r', by simp, ?_, by rw [keys_mk, keys_mk, hk]⟩
        unfold get_node
        rw [if_neg h0, if_neg hlt]; exact hg

/-- A put of a key the descent does not find fails when its allocation fails. -/
theorem put_node_enomem (cmp : K → K → Int) (key : K) (value : V) (t : node K V)
    (h : get_node cmp key t = none) :
    put_node cmp false key value t = put_result.enomem := by
  induction t with
  | null => rfl
  | mk l k v b r ihl ihr =>
    unfold get_node at h
    unfold put_node
    by_cases h0 : cmp key k = 0
    · rw [if_pos h0] at h; exact absurd h (by simp)
    · rw [if_neg h0] at h ⊢
      by_cases hlt : cmp key k < 0
      · rw [if_pos hlt] at h ⊢
        rw [ihl h]
      · rw [if_neg hlt] at h ⊢
        rw [ihr h]

theorem compare_int_strict_total : comparator_strict_total compare_int := by
  refine ⟨?_, ?_, ?_⟩
  · intro a b; unfold compare_int; omega
  · intro a b; unfold compare_int; omega
  · intro a b c; unfold compare_int; omega

theorem remove_adjusted_entries (t t' : node K V) (s : Bool)
    (h : remove_adjusted t = remove_result.done t' s) : entries t' = entries t := by
  unfold remove_adjusted at h
  split at h
  · exact absurd h (by simp)
  · split at h
    · cases h; rfl
    · split at h
      · split at h
        · exact absurd h (by simp)
        · rename_i repaired hrep
          split at h <;> (cases h; exact repair_entries _ _ hrep)
      · cases h; rfl

/-- Unlinking the leftmost node takes the first entry away. -/
theorem remove_leftmost_entries (t t' : node K V) (sk : K) (sv : V) (s : Bool)
    (h : remove_leftmost t = leftmost_result.done sk sv t' s) :
    entries t = (sk, sv) :: entries t' := by
  induction t generalizing t' s sk sv with
  | null => simp [remove_leftmost] at h
  | mk l k v b r ihl _ =>
    cases l with
    | null =>
      simp only [remove_leftmost] at h
      cases h
      simp [entries]
    | mk ll lk lv lb lr =>
      simp only [remove_leftmost] at h
      split at h
      · exact absurd h (by simp)
      · rename_i sk0 sv0 l' shrank hrec
        have hl := ihl l' sk0 sv0 shrank hrec
        split at h
        · split at h
          · rename_i t0 s0 hadj
            cases h
            have he := remove_adjusted_entries _ _ _ hadj
            rw [he]
            simp only [entries] at hl ⊢
            rw [hl]
            simp
          · exact absurd h (by simp)
        · cases h
          simp only [entries] at hl ⊢
          rw [hl]
          simp

theorem remove_adjusted_ne_absent (t : node K V) :
    remove_adjusted t ≠ remove_result.absent := by
  intro h
  unfold remove_adjusted at h
  split at h
  · exact absurd h (by simp)
  · split at h
    · exact absurd h (by simp)
    · split at h
      · split at h
        · exact absurd h (by simp)
        · split at h <;> exact absurd h (by simp)
      · exact absurd h (by simp)

theorem filter_keep (cmp : K → K → Int) (key : K) (es : List (K × V))
    (h : ∀ e ∈ es, cmp key e.1 ≠ 0) :
    es.filter (fun e => !(cmp key e.1 == 0)) = es := by
  apply List.filter_eq_self.2
  intro e he
  simp [h e he]

theorem entry_key_mem (t : node K V) (e : K × V) (h : e ∈ entries t) : e.1 ∈ keys t :=
  List.mem_map.2 ⟨e, h, rfl⟩

/-- A removal that is defined takes away exactly the entry of the key, and reports
a key as absent only when the tree does not hold it. -/
theorem remove_node_entries (cmp : K → K → Int) (hc : comparator_strict_total cmp)
    (key : K) (t : node K V) (hs : strictly_increasing cmp t) :
    (remove_node cmp key t = remove_result.absent → key ∉ keys t) ∧
      ∀ t' s, remove_node cmp key t = remove_result.done t' s →
        entries t' = (entries t).filter (fun e => !(cmp key e.1 == 0)) ∧ key ∈ keys t := by
  induction t with
  | null =>
    refine ⟨fun _ => by simp [keys, entries], ?_⟩
    intro t' s h
    simp [remove_node] at h
  | mk l k v b r ihl ihr =>
    obtain ⟨hsl, hsr, hlk, hkr⟩ := (increasing_mk cmp hc l r k v b).1 hs
    by_cases h0 : cmp key k = 0
    · have hk : key = k := (hc.eq_iff key k).1 h0
      have hleft : ∀ e ∈ entries l, cmp key e.1 ≠ 0 := by
        intro e he
        have h1 := hlk e.1 (entry_key_mem l e he)
        have h2 := (hc.flip e.1 k).1 h1
        rw [hk]; omega
      have hright : ∀ e ∈ entries r, cmp key e.1 ≠ 0 := by
        intro e he
        have h1 := hkr e.1 (entry_key_mem r e he)
        rw [hk]; omega
      have hmem : key ∈ keys (node.mk l k v b r) := by
        rw [keys_mk, hk]; exact List.mem_append_right _ (List.mem_cons_self _ _)
      have hfil : (entries (node.mk l k v b r)).filter (fun e => !(cmp key e.1 == 0)) =
          entries l ++ entries r := by
        simp only [entries, List.filter_append, List.filter_cons]
        rw [filter_keep cmp key _ hleft, filter_keep cmp key _ hright]
        simp [h0]
      rw [hfil]
      unfold remove_node
      rw [if_pos h0]
      cases l with
      | null =>
        refine ⟨fun h => by simp at h, ?_⟩
        intro t' s h
        cases h
        exact ⟨by simp [entries], hmem⟩
      | mk ll lk lv lb lr =>
        cases r with
        | null =>
          refine ⟨fun h => by simp at h, ?_⟩
          intro t' s h
          cases h
          exact ⟨by simp [entries], hmem⟩
        | mk rl rk rv rb rr =>
          dsimp only
          cases hlm : remove_leftmost (node.mk rl rk rv rb rr) with
          | undefined =>
            refine ⟨fun h => by simp at h, ?_⟩
            intro t' s h
            simp at h
          | done sk sv r' shrank =>
            have he := remove_leftmost_entries _ _ _ _ _ hlm
            dsimp only
            cases shrank with
            | true =>
              simp only [if_true]
              refine ⟨?_, ?_⟩
              · intro h
                exact absurd h (remove_adjusted_ne_absent _)
              · intro t' s h
                have h1 := remove_adjusted_entries _ _ _ h
                rw [h1, he]
                exact ⟨by simp [entries], hmem⟩
            | false =>
              simp only [Bool.false_eq_true, if_false]
              refine ⟨fun h => by simp at h, ?_⟩
              intro t' s h
              cases h
              rw [he]
              exact ⟨by simp [entries], hmem⟩
    · have hkne : key ≠ k := fun h => h0 ((hc.eq_iff key k).2 h)
      unfold remove_node
      rw [if_neg h0]
      by_cases hlt : cmp key k < 0
      · rw [if_pos hlt]
        have hright : ∀ e ∈ entries r, cmp key e.1 ≠ 0 := by
          intro e he
          have h1 := hc.trans _ _ _ hlt (hkr e.1 (entry_key_mem r e he))
          omega
        have hnr : key ∉ keys r := by
          intro hmem
          have h1 := (hc.flip k key).1 (hkr key hmem)
          omega
        have hfil : (entries (node.mk l k v b r)).filter (fun e => !(cmp key e.1 == 0)) =
            (entries l).filter (fun e => !(cmp key e.1 == 0)) ++ (k, v) :: entries r := by
          simp only [entries, List.filter_append, List.filter_cons]
          rw [filter_keep cmp key _ hright]
          simp [h0]
        rw [hfil]
        cases hrec : remove_node cmp key l with
        | undefined =>
          refine ⟨fun h => by simp at h, ?_⟩
          intro t' s h
          simp at h
        | absent =>
          refine ⟨fun _ => ?_, ?_⟩
          · rw [keys_mk]
            intro hmem
            rcases List.mem_append.1 hmem with h | h
            · exact (ihl hsl).1 hrec h
            · rcases List.mem_cons.1 h with h | h
              · exact hkne h
              · exact hnr h
          · intro t' s h
            simp at h
        | done l' shrank =>
          obtain ⟨he, hm⟩ := (ihl hsl).2 l' shrank hrec
          have hmem : key ∈ keys (node.mk l k v b r) := by
            rw [keys_mk]; exact List.mem_append_left _ hm
          dsimp only
          cases shrank with
          | true =>
            simp only [if_true]
            refine ⟨fun h => absurd h (remove_adjusted_ne_absent _), ?_⟩
            intro t' s h
            have h1 := remove_adjusted_entries _ _ _ h
            rw [h1]
            exact ⟨by simp [entries, he], hmem⟩
          | false =>
            simp only [Bool.false_eq_true, if_false]
            refine ⟨fun h => by simp at h, ?_⟩
            intro t' s h
            cases h
            exact ⟨by simp [entries, he], hmem⟩
      · rw [if_neg hlt]
        have hgt : cmp k key < 0 := (hc.flip k key).2 (by omega)
        have hleft : ∀ e ∈ entries l, cmp key e.1 ≠ 0 := by
          intro e he
          have h1 := hc.trans _ _ _ (hlk e.1 (entry_key_mem l e he)) hgt
          have h2 := (hc.flip e.1 key).1 h1
          omega
        have hnl : key ∉ keys l := by
          intro hmem
          have h1 := hlk key hmem
          omega
        have hfil : (entries (node.mk l k v b r)).filter (fun e => !(cmp key e.1 == 0)) =
            entries l ++ (k, v) :: (entries r).filter (fun e => !(cmp key e.1 == 0)) := by
          simp only [entries, List.filter_append, List.filter_cons]
          rw [filter_keep cmp key _ hleft]
          simp [h0]
        rw [hfil]
        cases hrec : remove_node cmp key r with
        | undefined =>
          refine ⟨fun h => by simp at h, ?_⟩
          intro t' s h
          simp at h
        | absent =>
          refine ⟨fun _ => ?_, ?_⟩
          · rw [keys_mk]
            intro hmem
            rcases List.mem_append.1 hmem with h | h
            · exact hnl h
            · rcases List.mem_cons.1 h with h | h
              · exact hkne h
              · exact (ihr hsr).1 hrec h
          · intro t' s h
            simp at h
        | done r' shrank =>
          obtain ⟨he, hm⟩ := (ihr hsr).2 r' shrank hrec
          have hmem : key ∈ keys (node.mk l k v b r) := by
            rw [keys_mk]; exact List.mem_append_right _ (List.mem_cons_of_mem _ hm)
          dsimp only
          cases shrank with
          | true =>
            simp only [if_true]
            refine ⟨fun h => absurd h (remove_adjusted_ne_absent _), ?_⟩
            intro t' s h
            have h1 := remove_adjusted_entries _ _ _ h
            rw [h1]
            exact ⟨by simp [entries, he], hmem⟩
          | false =>
            simp only [Bool.false_eq_true, if_false]
            refine ⟨fun h => by simp at h, ?_⟩
            intro t' s h
            cases h
            exact ⟨by simp [entries, he], hmem⟩

/-! ## The AVL rule -/

theorem height_nonneg (t : node K V) : 0 ≤ height t := by
  cases t with
  | null => simp [height]
  | mk l k v b r =>
    have h1 := height_nonneg l
    have h2 := height_nonneg r
    simp only [height]
    omega

theorem balanced_range (t : node K V) (h : balanced t) : balances_in_range t := by
  induction t with
  | null => trivial
  | mk l k v b r ihl ihr =>
    obtain ⟨hl, hr, _, h1, h2⟩ := h
    exact ⟨ihl hl, ihr hr, h1, h2⟩

/-- Repair at a node whose right subtree is higher by 2: the result obeys the AVL
rule; it is shorter by one, with root balance 0, unless the child was balanced, and
then it keeps the height and its root has balance -1. -/
theorem repair_balanced_right (l r : node K V) (k : K) (v : V)
    (hl : balanced l) (hr : balanced r) (hd : height r - height l = 2) :
    ∃ t', map_repair (node.mk l k v 2 r) = some t' ∧ balanced t' ∧
      ((balance t' = 0 ∧ height t' = height r ∧ balance r ≠ 0) ∨
        (balance t' = -1 ∧ height t' = height r + 1 ∧ balance r = 0)) := by
  have h0 := height_nonneg l
  cases r with
  | null => simp only [height] at hd; omega
  | mk cl ck cv cb cr =>
    obtain ⟨hcl, hcr, hcb, hlo, hhi⟩ := hr
    have h1 := height_nonneg cl
    have h2 := height_nonneg cr
    simp only [height] at hd
    have hcases : cb = 0 ∨ cb = 1 ∨ cb = -1 := by omega
    rcases hcases with hb | hb | hb
    · refine ⟨node.mk (node.mk l k v 1 cl) ck cv (-1) cr, ?_, ?_, ?_⟩
      · simp [map_repair, hb]
      · simp only [balanced, height]
        refine ⟨⟨hl, hcl, ?_, ?_, ?_⟩, hcr, ?_, ?_, ?_⟩ <;> omega
      · right
        refine ⟨rfl, ?_, hb⟩
        simp only [height]
        omega
    · refine ⟨node.mk (node.mk l k v 0 cl) ck cv 0 cr, ?_, ?_, ?_⟩
      · simp [map_repair, hb]
      · simp only [balanced, height]
        refine ⟨⟨hl, hcl, ?_, ?_, ?_⟩, hcr, ?_, ?_, ?_⟩ <;> omega
      · left
        refine ⟨rfl, ?_, ?_⟩
        · simp only [height]
          omega
        · show cb ≠ 0
          omega
    · cases cl with
      | null => simp only [height] at hcb; omega
      | mk gl gk gv gb gr =>
        obtain ⟨hgl, hgr, hgb, hglo, hghi⟩ := hcl
        have h3 := height_nonneg gl
        have h4 := height_nonneg gr
        simp only [height] at hd hcb h1
        have hg : gb = 1 ∨ gb = 0 ∨ gb = -1 := by omega
        rcases hg with hg | hg | hg
        · refine ⟨node.mk (node.mk l k v (-1) gl) gk gv 0 (node.mk gr ck cv 0 cr), ?_, ?_, ?_⟩
          · simp [map_repair, hb, hg]
          · simp only [balanced, height]
            refine ⟨⟨hl, hgl, ?_, ?_, ?_⟩, ⟨hgr, hcr, ?_, ?_, ?_⟩, ?_, ?_, ?_⟩ <;> omega
          · left
            refine ⟨rfl, ?_, ?_⟩
            · simp only [height]
              omega
            · show cb ≠ 0
              omega
        · refine ⟨node.mk (node.mk l k v 0 gl) gk gv 0 (node.mk gr ck cv 0 cr), ?_, ?_, ?_⟩
          · simp [map_repair, hb, hg]
          · simp only [balanced, height]
            refine ⟨⟨hl, hgl, ?_, ?_, ?_⟩, ⟨hgr, hcr, ?_, ?_, ?_⟩, ?_, ?_, ?_⟩ <;> omega
          · left
            refine ⟨rfl, ?_, ?_⟩
            · simp only [height]
              omega
            · show cb ≠ 0
              omega
        · refine ⟨node.mk (node.mk l k v 0 gl) gk gv 0 (node.mk gr ck cv 1 cr), ?_, ?_, ?_⟩
          · simp [map_repair, hb, hg]
          · simp only [balanced, height]
            refine ⟨⟨hl, hgl, ?_, ?_, ?_⟩, ⟨hgr, hcr, ?_, ?_, ?_⟩, ?_, ?_, ?_⟩ <;> omega
          · left
            refine ⟨rfl, ?_, ?_⟩
            · simp only [height]
              omega
            · show cb ≠ 0
              omega

/-- Repair at a node whose left subtree is higher by 2, the mirror image. -/
theorem repair_balanced_left (l r : node K V) (k : K) (v : V)
    (hl : balanced l) (hr : balanced r) (hd : height r - height l = -2) :
    ∃ t', map_repair (node.mk l k v (-2) r) = some t' ∧ balanced t' ∧
      ((balance t' = 0 ∧ height t' = height l ∧ balance l ≠ 0) ∨
        (balance t' = 1 ∧ height t' = height l + 1 ∧ balance l = 0)) := by
  have h0 := height_nonneg r
  cases l with
  | null => simp only [height] at hd; omega
  | mk cl ck cv cb cr =>
    obtain ⟨hcl, hcr, hcb, hlo, hhi⟩ := hl
    have h1 := height_nonneg cl
    have h2 := height_nonneg cr
    simp only [height] at hd
    have hcases : cb = 0 ∨ cb = -1 ∨ cb = 1 := by omega
    rcases hcases with hb | hb | hb
    · refine ⟨node.mk cl ck cv 1 (node.mk cr k v (-1) r), ?_, ?_, ?_⟩
      · simp [map_repair, hb]
      · simp only [balanced, height]
        refine ⟨hcl, ⟨hcr, hr, ?_, ?_, ?_⟩, ?_, ?_, ?_⟩ <;> omega
      · right
        refine ⟨rfl, ?_, hb⟩
        simp only [height]
        omega
    · refine ⟨node.mk cl ck cv 0 (node.mk cr k v 0 r), ?_, ?_, ?_⟩
      · simp [map_repair, hb]
      · simp only [balanced, height]
        refine ⟨hcl, ⟨hcr, hr, ?_, ?_, ?_⟩, ?_, ?_, ?_⟩ <;> omega
      · left
        refine ⟨rfl, ?_, ?_⟩
        · simp only [height]
          omega
        · show cb ≠ 0
          omega
    · cases cr with
      | null => simp only [height] at hcb; omega
      | mk gl gk gv gb gr =>
        obtain ⟨hgl, hgr, hgb, hglo, hghi⟩ := hcr
        have h3 := height_nonneg gl
        have h4 := height_nonneg gr
        simp only [height] at hd hcb h2
        have hg : gb = 1 ∨ gb = 0 ∨ gb = -1 := by omega
        rcases hg with hg | hg | hg
        · refine ⟨node.mk (node.mk cl ck cv (-1) gl) gk gv 0 (node.mk gr k v 0 r), ?_, ?_, ?_⟩
          · simp [map_repair, hb, hg]
          · simp only [balanced, height]
            refine ⟨⟨hcl, hgl, ?_, ?_, ?_⟩, ⟨hgr, hr, ?_, ?_, ?_⟩, ?_, ?_, ?_⟩ <;> omega
          · left
            refine ⟨rfl, ?_, ?_⟩
            · simp only [height]
              omega
            · show cb ≠ 0
              omega
        · refine ⟨node.mk (node.mk cl ck cv 0 gl) gk gv 0 (node.mk gr k v 0 r), ?_, ?_, ?_⟩
          · simp [map_repair, hb, hg]
          · simp only [balanced, height]
            refine ⟨⟨hcl, hgl, ?_, ?_, ?_⟩, ⟨hgr, hr, ?_, ?_, ?_⟩, ?_, ?_, ?_⟩ <;> omega
          · left
            refine ⟨rfl, ?_, ?_⟩
            · simp only [height]
              omega
            · show cb ≠ 0
              omega
        · refine ⟨node.mk (node.mk cl ck cv 0 gl) gk gv 0 (node.mk gr k v 1 r), ?_, ?_, ?_⟩
          · simp [map_repair, hb, hg]
          · simp only [balanced, height]
            refine ⟨⟨hcl, hgl, ?_, ?_, ?_⟩, ⟨hgr, hr, ?_, ?_, ?_⟩, ?_, ?_, ?_⟩ <;> omega
          · left
            refine ⟨rfl, ?_, ?_⟩
            · simp only [height]
              omega
            · show cb ≠ 0
              omega

theorem put_adjusted_balanced (l r : node K V) (k : K) (v : V) (b : Int) (added : Bool)
    (hl : balanced l) (hr : balanced r) (hb : b = height r - height l)
    (hlo : -2 ≤ b) (hhi : b ≤ 2)
    (hpos : b = 2 → balance r ≠ 0) (hneg : b = -2 → balance l ≠ 0) :
    ∃ t' grew, put_adjusted (node.mk l k v b r) added = put_result.done t' grew added ∧
      balanced t' ∧
      ((grew = true ∧ (b = 1 ∨ b = -1) ∧ balance t' ≠ 0 ∧
          height t' = height (node.mk l k v b r)) ∨
        (grew = false ∧ b = 0 ∧ height t' = height (node.mk l k v b r)) ∨
        (grew = false ∧ (b = 2 ∨ b = -2) ∧ height t' = height (node.mk l k v b r) - 1)) := by
  have h1 := height_nonneg l
  have h2 := height_nonneg r
  have hcases : b = 0 ∨ b = 1 ∨ b = -1 ∨ b = 2 ∨ b = -2 := by omega
  rcases hcases with h | h | h | h | h
  · subst h
    exact ⟨node.mk l k v 0 r, false, by simp [put_adjusted],
      ⟨hl, hr, hb, by omega, by omega⟩, Or.inr (Or.inl ⟨rfl, rfl, rfl⟩)⟩
  · subst h
    exact ⟨node.mk l k v 1 r, true, by simp [put_adjusted],
      ⟨hl, hr, hb, by omega, by omega⟩, Or.inl ⟨rfl, Or.inl rfl, by simp [balance], rfl⟩⟩
  · subst h
    exact ⟨node.mk l k v (-1) r, true, by simp [put_adjusted],
      ⟨hl, hr, hb, by omega, by omega⟩, Or.inl ⟨rfl, Or.inr rfl, by simp [balance], rfl⟩⟩
  · subst h
    obtain ⟨t', hrep, hbal, hres⟩ := repair_balanced_right l r k v hl hr (by omega)
    refine ⟨t', false, by simp [put_adjusted, hrep], hbal, Or.inr (Or.inr ⟨rfl, Or.inl rfl, ?_⟩)⟩
    rcases hres with ⟨_, hh, _⟩ | ⟨_, _, h0⟩
    · simp only [height]; omega
    · exact absurd h0 (hpos rfl)
  · subst h
    obtain ⟨t', hrep, hbal, hres⟩ := repair_balanced_left l r k v hl hr (by omega)
    refine ⟨t', false, by simp [put_adjusted, hrep], hbal, Or.inr (Or.inr ⟨rfl, Or.inr rfl, ?_⟩)⟩
    rcases hres with ⟨_, hh, _⟩ | ⟨_, _, h0⟩
    · simp only [height]; omega
    · exact absurd h0 (hneg rfl)

/-- An insertion keeps the AVL rule: the result obeys it, its height is the old one or
one more, and a subtree that grew is a new leaf or has a root that leans. -/
theorem put_node_balanced (cmp : K → K → Int) (alloc_ok : Bool) (key : K) (value : V)
    (t : node K V) (ht : balanced t) :
    (put_node cmp alloc_ok key value t = put_result.enomem ∧ alloc_ok = false) ∨
      ∃ t' grew added, put_node cmp alloc_ok key value t = put_result.done t' grew added ∧
        balanced t' ∧ height t' = height t + (if grew = true then 1 else 0) ∧
        (grew = true → t = node.null ∨ balance t' ≠ 0) := by
  induction t with
  | null =>
    cases alloc_ok with
    | false => left; simp [put_node]
    | true =>
      right
      refine ⟨node.mk node.null key value 0 node.null, true, true, by simp [put_node], ?_, ?_,
        fun _ => Or.inl rfl⟩
      · simp [balanced, height]
      · simp [height]
  | mk l k v b r ihl ihr =>
    obtain ⟨hl, hr, hb, hlo, hhi⟩ := ht
    have h1 := height_nonneg l
    have h2 := height_nonneg r
    by_cases h0 : cmp key k = 0
    · right
      refine ⟨node.mk l k value b r, false, false, by simp [put_node, h0],
        ⟨hl, hr, hb, hlo, hhi⟩, by simp [height], fun h => absurd h (by simp)⟩
    · by_cases hlt : cmp key k < 0
      · rcases ihl hl with ⟨he, ha⟩ | ⟨l', g, a, he, hbl, hh, hg⟩
        · left
          rw [put_node, if_neg h0, if_pos hlt, he]
          exact ⟨rfl, ha⟩
        · right
          rw [put_node, if_neg h0, if_pos hlt, he]
          cases g with
          | false =>
            simp only [Bool.false_eq_true, if_false, add_zero] at hh ⊢
            refine ⟨node.mk l' k v b r, false, a, rfl, ⟨hbl, hr, by omega, hlo, hhi⟩, ?_,
              fun h => absurd h (by simp)⟩
            simp only [height, Bool.false_eq_true, if_false, add_zero]
            omega
          | true =>
            simp only [if_true] at hh ⊢
            have hnn : b = -1 → balance l' ≠ 0 := by
              intro hb1
              rcases hg rfl with hnull | hne
              · rw [hnull] at hb
                simp only [height] at hb
                omega
              · exact hne
            obtain ⟨t', grew, hput, hbal, hres⟩ :=
              put_adjusted_balanced l' r k v (b - 1) a hbl hr (by omega) (by omega) (by omega)
                (fun h => by omega) (fun h => hnn (by omega))
            refine ⟨t', grew, a, hput, hbal, ?_, ?_⟩
            · simp only [height] at hres ⊢
              rcases hres with ⟨hgr, _, _, hh'⟩ | ⟨hgr, _, hh'⟩ | ⟨hgr, _, hh'⟩ <;>
                subst hgr <;> simp only [if_true, Bool.false_eq_true, if_false, add_zero] <;>
                omega
            · intro hgt
              rcases hres with ⟨_, _, hne, _⟩ | ⟨hgr, _, _⟩ | ⟨hgr, _, _⟩
              · exact Or.inr hne
              · rw [hgr] at hgt; exact absurd hgt (by simp)
              · rw [hgr] at hgt; exact absurd hgt (by simp)
      · rcases ihr hr with ⟨he, ha⟩ | ⟨r', g, a, he, hbr, hh, hg⟩
        · left
          rw [put_node, if_neg h0, if_neg hlt, he]
          exact ⟨rfl, ha⟩
        · right
          rw [put_node, if_neg h0, if_neg hlt, he]
          cases g with
          | false =>
            simp only [Bool.false_eq_true, if_false, add_zero] at hh ⊢
            refine ⟨node.mk l k v b r', false, a, rfl, ⟨hl, hbr, by omega, hlo, hhi⟩, ?_,
              fun h => absurd h (by simp)⟩
            simp only [height, Bool.false_eq_true, if_false, add_zero]
            omega
          | true =>
            simp only [if_true] at hh ⊢
            have hnn : b = 1 → balance r' ≠ 0 := by
              intro hb1
              rcases hg rfl with hnull | hne
              · rw [hnull] at hb
                simp only [height] at hb
                omega
              · exact hne
            obtain ⟨t', grew, hput, hbal, hres⟩ :=
              put_adjusted_balanced l r' k v (b + 1) a hl hbr (by omega) (by omega) (by omega)
                (fun h => hnn (by omega)) (fun h => by omega)
            refine ⟨t', grew, a, hput, hbal, ?_, ?_⟩
            · simp only [height] at hres ⊢
              rcases hres with ⟨hgr, _, _, hh'⟩ | ⟨hgr, _, hh'⟩ | ⟨hgr, _, hh'⟩ <;>
                subst hgr <;> simp only [if_true, Bool.false_eq_true, if_false, add_zero] <;>
                omega
            · intro hgt
              rcases hres with ⟨_, _, hne, _⟩ | ⟨hgr, _, _⟩ | ⟨hgr, _, _⟩
              · exact Or.inr hne
              · rw [hgr] at hgt; exact absurd hgt (by simp)
              · rw [hgr] at hgt; exact absurd hgt (by simp)

theorem remove_adjusted_balanced (l r : node K V) (k : K) (v : V) (b : Int)
    (hl : balanced l) (hr : balanced r) (hb : b = height r - height l)
    (hlo : -2 ≤ b) (hhi : b ≤ 2) :
    ∃ t' s, remove_adjusted (node.mk l k v b r) = remove_result.done t' s ∧ balanced t' ∧
      ((s = true ∧ b = 0 ∧ height t' = height (node.mk l k v b r)) ∨
        (s = false ∧ (b = 1 ∨ b = -1) ∧ height t' = height (node.mk l k v b r)) ∨
        (s = true ∧ (b = 2 ∨ b = -2) ∧ height t' = height (node.mk l k v b r) - 1) ∨
        (s = false ∧ (b = 2 ∨ b = -2) ∧ height t' = height (node.mk l k v b r))) := by
  have h1 := height_nonneg l
  have h2 := height_nonneg r
  have hcases : b = 0 ∨ b = 1 ∨ b = -1 ∨ b = 2 ∨ b = -2 := by omega
  rcases hcases with h | h | h | h | h
  · subst h
    exact ⟨node.mk l k v 0 r, true, by simp [remove_adjusted],
      ⟨hl, hr, hb, by omega, by omega⟩, Or.inl ⟨rfl, rfl, rfl⟩⟩
  · subst h
    exact ⟨node.mk l k v 1 r, false, by simp [remove_adjusted],
      ⟨hl, hr, hb, by omega, by omega⟩, Or.inr (Or.inl ⟨rfl, Or.inl rfl, rfl⟩)⟩
  · subst h
    exact ⟨node.mk l k v (-1) r, false, by simp [remove_adjusted],
      ⟨hl, hr, hb, by omega, by omega⟩, Or.inr (Or.inl ⟨rfl, Or.inr rfl, rfl⟩)⟩
  · subst h
    obtain ⟨t', hrep, hbal, hres⟩ := repair_balanced_right l r k v hl hr (by omega)
    rcases hres with ⟨hb0, hh, _⟩ | ⟨hb1, hh, _⟩
    · refine ⟨t', true, by simp [remove_adjusted, hrep, hb0], hbal,
        Or.inr (Or.inr (Or.inl ⟨rfl, Or.inl rfl, ?_⟩))⟩
      simp only [height]; omega
    · refine ⟨t', false, by simp [remove_adjusted, hrep, hb1], hbal,
        Or.inr (Or.inr (Or.inr ⟨rfl, Or.inl rfl, ?_⟩))⟩
      simp only [height]; omega
  · subst h
    obtain ⟨t', hrep, hbal, hres⟩ := repair_balanced_left l r k v hl hr (by omega)
    rcases hres with ⟨hb0, hh, _⟩ | ⟨hb1, hh, _⟩
    · refine ⟨t', true, by simp [remove_adjusted, hrep, hb0], hbal,
        Or.inr (Or.inr (Or.inl ⟨rfl, Or.inr rfl, ?_⟩))⟩
      simp only [height]; omega
    · refine ⟨t', false, by simp [remove_adjusted, hrep, hb1], hbal,
        Or.inr (Or.inr (Or.inr ⟨rfl, Or.inr rfl, ?_⟩))⟩
      simp only [height]; omega

/-- Unlinking the leftmost node of a subtree keeps the AVL rule, and the height is the
old one, or one less when the walk reports that the subtree became shorter. -/
theorem remove_leftmost_balanced (t : node K V) (ht : balanced t) (hn : t ≠ node.null) :
    ∃ sk sv t' s, remove_leftmost t = leftmost_result.done sk sv t' s ∧ balanced t' ∧
      height t' + (if s = true then 1 else 0) = height t := by
  induction t with
  | null => exact absurd rfl hn
  | mk l k v b r ihl _ =>
    obtain ⟨hl, hr, hb, hlo, hhi⟩ := ht
    have h2 := height_nonneg r
    cases l with
    | null =>
      refine ⟨k, v, r, true, by simp [remove_leftmost], hr, ?_⟩
      simp only [height, if_true]
      omega
    | mk ll lk lv lb lr =>
      obtain ⟨sk, sv, l', s, hrec, hbl, hh⟩ := ihl hl (by simp)
      have h1 := height_nonneg l'
      rw [remove_leftmost, hrec]
      cases s with
      | false =>
        simp only [Bool.false_eq_true, if_false, add_zero] at hh ⊢
        refine ⟨sk, sv, node.mk l' k v b r, false, rfl, ⟨hbl, hr, by omega, hlo, hhi⟩, ?_⟩
        simp only [height, Bool.false_eq_true, if_false, add_zero] at hh ⊢
        omega
      | true =>
        simp only [if_true] at hh ⊢
        obtain ⟨t', s', hadj, hbal, hres⟩ :=
          remove_adjusted_balanced l' r k v (b + 1) hbl hr (by omega) (by omega) (by omega)
        rw [hadj]
        refine ⟨sk, sv, t', s', rfl, hbal, ?_⟩
        simp only [height] at hres hh hb ⊢
        rcases hres with ⟨hs, _, hh'⟩ | ⟨hs, _, hh'⟩ | ⟨hs, _, hh'⟩ | ⟨hs, _, hh'⟩ <;>
          subst hs <;> simp only [if_true, Bool.false_eq_true, if_false, add_zero] <;> omega

/-- A removal keeps the AVL rule, and the height is the old one, or one less when the
walk reports that the subtree became shorter. -/
theorem remove_node_balanced (cmp : K → K → Int) (key : K) (t : node K V)
    (ht : balanced t) :
    remove_node cmp key t = remove_result.absent ∨
      ∃ t' s, remove_node cmp key t = remove_result.done t' s ∧ balanced t' ∧
        height t' + (if s = true then 1 else 0) = height t := by
  induction t with
  | null => left; simp [remove_node]
  | mk l k v b r ihl ihr =>
    obtain ⟨hl, hr, hb, hlo, hhi⟩ := ht
    have h1 := height_nonneg l
    have h2 := height_nonneg r
    by_cases h0 : cmp key k = 0
    · right
      cases l with
      | null =>
        refine ⟨r, true, by simp [remove_node, h0], hr, ?_⟩
        simp only [height, if_true]
        omega
      | mk ll lk lv lb lr =>
        cases r with
        | null =>
          refine ⟨node.mk ll lk lv lb lr, true, by simp [remove_node, h0], hl, ?_⟩
          simp only [height, if_true] at h1 ⊢
          omega
        | mk rl rk rv rb rr =>
          obtain ⟨sk, sv, r', s, hrec, hbr, hh⟩ :=
            remove_leftmost_balanced (node.mk rl rk rv rb rr) hr (by simp)
          have h3 := height_nonneg r'
          rw [remove_node, if_pos h0]
          simp only [hrec]
          cases s with
          | false =>
            simp only [Bool.false_eq_true, if_false, add_zero] at hh ⊢
            refine ⟨_, false, rfl, ⟨hl, hbr, by omega, hlo, hhi⟩, ?_⟩
            simp only [height, Bool.false_eq_true, if_false, add_zero] at hh ⊢
            omega
          | true =>
            simp only [if_true] at hh ⊢
            obtain ⟨t', s', hadj, hbal, hres⟩ :=
              remove_adjusted_balanced (node.mk ll lk lv lb lr) r' sk sv (b - 1) hl hbr
                (by omega) (by omega) (by omega)
            rw [hadj]
            refine ⟨t', s', rfl, hbal, ?_⟩
            simp only [height] at hres hh hb h1 ⊢
            rcases hres with ⟨hs, _, hh'⟩ | ⟨hs, _, hh'⟩ | ⟨hs, _, hh'⟩ | ⟨hs, _, hh'⟩ <;>
              subst hs <;> simp only [if_true, Bool.false_eq_true, if_false, add_zero] <;>
              omega
    · by_cases hlt : cmp key k < 0
      · rcases ihl hl with he | ⟨l', s, he, hbl, hh⟩
        · left
          unfold remove_node
          rw [if_neg h0, if_pos hlt, he]
        · right
          have h3 := height_nonneg l'
          unfold remove_node
          rw [if_neg h0, if_pos hlt, he]
          cases s with
          | false =>
            simp only [Bool.false_eq_true, if_false, add_zero] at hh ⊢
            refine ⟨_, false, rfl, ⟨hbl, hr, by omega, hlo, hhi⟩, ?_⟩
            simp only [height, Bool.false_eq_true, if_false, add_zero]
            omega
          | true =>
            simp only [if_true] at hh ⊢
            obtain ⟨t', s', hadj, hbal, hres⟩ :=
              remove_adjusted_balanced l' r k v (b + 1) hbl hr (by omega) (by omega) (by omega)
            rw [hadj]
            refine ⟨t', s', rfl, hbal, ?_⟩
            simp only [height] at hres ⊢
            rcases hres with ⟨hs, _, hh'⟩ | ⟨hs, _, hh'⟩ | ⟨hs, _, hh'⟩ | ⟨hs, _, hh'⟩ <;>
              subst hs <;> simp only [if_true, Bool.false_eq_true, if_false, add_zero] <;>
              omega
      · rcases ihr hr with he | ⟨r', s, he, hbr, hh⟩
        · left
          unfold remove_node
          rw [if_neg h0, if_neg hlt, he]
        · right
          have h3 := height_nonneg r'
          unfold remove_node
          rw [if_neg h0, if_neg hlt, he]
          cases s with
          | false =>
            simp only [Bool.false_eq_true, if_false, add_zero] at hh ⊢
            refine ⟨_, false, rfl, ⟨hl, hbr, by omega, hlo, hhi⟩, ?_⟩
            simp only [height, Bool.false_eq_true, if_false, add_zero]
            omega
          | true =>
            simp only [if_true] at hh ⊢
            obtain ⟨t', s', hadj, hbal, hres⟩ :=
              remove_adjusted_balanced l r' k v (b - 1) hl hbr (by omega) (by omega) (by omega)
            rw [hadj]
            refine ⟨t', s', rfl, hbal, ?_⟩
            simp only [height] at hres ⊢
            rcases hres with ⟨hs, _, hh'⟩ | ⟨hs, _, hh'⟩ | ⟨hs, _, hh'⟩ | ⟨hs, _, hh'⟩ <;>
              subst hs <;> simp only [if_true, Bool.false_eq_true, if_false, add_zero] <;>
              omega

/-! ## Keys after a put or a remove -/

theorem put_adjusted_entries (t t' : node K V) (added g a : Bool)
    (h : put_adjusted t added = put_result.done t' g a) : entries t' = entries t := by
  unfold put_adjusted at h
  split at h
  · exact absurd h (by simp)
  · split at h
    · cases h; rfl
    · split at h
      · split at h
        · exact absurd h (by simp)
        · rename_i repaired hrep
          cases h
          exact repair_entries _ _ hrep
      · cases h; rfl

/-- No key is lost by a put. -/
theorem put_node_mono (cmp : K → K → Int) (alloc_ok : Bool) (key : K) (value : V)
    (t t' : node K V) (g a : Bool)
    (h : put_node cmp alloc_ok key value t = put_result.done t' g a) :
    ∀ x ∈ keys t, x ∈ keys t' := by
  induction t generalizing t' g a with
  | null => intro x hx; simp [keys, entries] at hx
  | mk l k v b r ihl ihr =>
    intro x hx
    rw [put_node] at h
    by_cases h0 : cmp key k = 0
    · rw [if_pos h0] at h
      cases h
      rw [keys_mk] at hx ⊢
      exact hx
    · rw [if_neg h0] at h
      by_cases hlt : cmp key k < 0
      · rw [if_pos hlt] at h
        cases hrec : put_node cmp alloc_ok key value l with
        | undefined => rw [hrec] at h; exact absurd h (by simp)
        | enomem => rw [hrec] at h; exact absurd h (by simp)
        | done l' grew added =>
          rw [hrec] at h
          dsimp only at h
          have hmem : x ∈ keys (node.mk l' k v b r) := by
            rw [keys_mk] at hx ⊢
            rcases List.mem_append.1 hx with hx | hx
            · exact List.mem_append_left _ (ihl l' grew added hrec x hx)
            · exact List.mem_append_right _ hx
          cases grew with
          | true =>
            simp only [if_true] at h
            rw [keys_of_entries _ _ (put_adjusted_entries _ _ _ _ _ h), keys_mk]
            rw [keys_mk] at hmem
            exact hmem
          | false =>
            simp only [Bool.false_eq_true, if_false] at h
            cases h
            exact hmem
      · rw [if_neg hlt] at h
        cases hrec : put_node cmp alloc_ok key value r with
        | undefined => rw [hrec] at h; exact absurd h (by simp)
        | enomem => rw [hrec] at h; exact absurd h (by simp)
        | done r' grew added =>
          rw [hrec] at h
          dsimp only at h
          have hmem : x ∈ keys (node.mk l k v b r') := by
            rw [keys_mk] at hx ⊢
            rcases List.mem_append.1 hx with hx | hx
            · exact List.mem_append_left _ hx
            · rcases List.mem_cons.1 hx with hx | hx
              · exact List.mem_append_right _ (hx ▸ List.mem_cons_self _ _)
              · exact List.mem_append_right _
                  (List.mem_cons_of_mem _ (ihr r' grew added hrec x hx))
          cases grew with
          | true =>
            simp only [if_true] at h
            rw [keys_of_entries _ _ (put_adjusted_entries _ _ _ _ _ h), keys_mk]
            rw [keys_mk] at hmem
            exact hmem
          | false =>
            simp only [Bool.false_eq_true, if_false] at h
            cases h
            exact hmem

/-- A key the descent finds is a key of the tree. -/
theorem get_node_mem (cmp : K → K → Int) (hc : comparator_strict_total cmp) (key : K)
    (t : node K V) (w : V) (h : get_node cmp key t = some w) : key ∈ keys t := by
  induction t with
  | null => simp [get_node] at h
  | mk l k v b r ihl ihr =>
    rw [keys_mk]
    rw [get_node] at h
    by_cases h0 : cmp key k = 0
    · rw [(hc.eq_iff key k).1 h0]
      exact List.mem_append_right _ (List.mem_cons_self _ _)
    · rw [if_neg h0] at h
      by_cases hlt : cmp key k < 0
      · rw [if_pos hlt] at h
        exact List.mem_append_left _ (ihl h)
      · rw [if_neg hlt] at h
        exact List.mem_append_right _ (List.mem_cons_of_mem _ (ihr h))

theorem contains_iff_mem (cmp : K → K → Int) (hc : comparator_strict_total cmp)
    (me : internal_map K V) (hcmp : me.comparator = cmp)
    (hs : strictly_increasing cmp me.root) (key : K) :
    (map_contains me key = 1 ↔ key ∈ keys me.root) ∧
      (map_contains me key = 0 ∨ map_contains me key = 1) := by
  unfold map_contains
  rw [hcmp]
  cases hg : get_node cmp key me.root with
  | some w =>
    exact ⟨⟨fun _ => get_node_mem cmp hc key _ w hg, fun _ => rfl⟩, Or.inr rfl⟩
  | none =>
    refine ⟨⟨fun h => by simp at h, fun h => ?_⟩, Or.inl rfl⟩
    obtain ⟨e, he, hk⟩ := List.mem_map.1 h
    have := get_node_of_mem cmp hc me.root e.1 e.2 hs he
    rw [hk, hg] at this
    exact absurd this (by simp)

/-! ## Calls and sequences of calls -/

theorem init_root (key_size value_size : Nat) (cmp : K → K → Int) (malloc_ok : Bool)
    (me : internal_map K V)
    (h : map_init key_size value_size (some cmp) malloc_ok = some me) :
    me.root = node.null ∧ me.comparator = cmp ∧ me.size = 0 := by
  unfold map_init at h
  dsimp only at h
  split at h
  · exact absurd h (by simp)
  · split at h
    · exact absurd h (by simp)
    · cases h
      exact ⟨rfl, rfl, rfl⟩

theorem map_put_step (cmp : K → K → Int) (hc : comparator_strict_total cmp)
    (a : node_alloc) (me : internal_map K V) (key : K) (value : V) (was : K → Bool)
    (hcmp : me.comparator = cmp) (hbal : balanced me.root)
    (hinc : strictly_increasing cmp me.root)
    (hkeys : ∀ k, k ∈ keys me.root ↔ was k = true) :
    ∃ rc m, map_put a me key value = some (rc, m) ∧ m.comparator = cmp ∧
      balanced m.root ∧ strictly_increasing cmp m.root ∧
      ∀ k, k ∈ keys m.root ↔ live_step cmp k (was k) (map_op.put a key value) = true := by
  have hbalanced := put_node_balanced cmp (a.node_ok && a.key_ok && a.value_ok) key value
    me.root hbal
  unfold map_put
  rw [hcmp]
  cases hg : get_node cmp key me.root with
  | some v0 =>
    obtain ⟨t', hp, _, hk⟩ :=
      put_node_present cmp (a.node_ok && a.key_ok && a.value_ok) key value v0 me.root hg
    have hb' : balanced t' := by
      rcases hbalanced with ⟨he, _⟩ | ⟨t2, g, ad, he, hb, _, _⟩
      · rw [hp] at he; exact absurd he (by simp)
      · rw [hp] at he
        cases he
        exact hb
    rw [hp]
    refine ⟨_, _, rfl, rfl, hb', ?_, ?_⟩
    · show (keys t').Pairwise _
      rw [hk]
      exact hinc
    · intro k
      show k ∈ keys t' ↔ _
      rw [hk, hkeys k]
      simp only [live_step]
      by_cases h0 : cmp key k = 0
      · have hkk : key = k := (hc.eq_iff key k).1 h0
        have hwas : was k = true := by
          rw [← hkk]
          exact (hkeys key).1 (get_node_mem cmp hc key _ v0 hg)
        rw [if_pos h0, hwas]
        simp
      · rw [if_neg h0]
  | none =>
    cases hal : (a.node_ok && a.key_ok && a.value_ok) with
    | false =>
      rw [put_node_enomem cmp key value me.root hg]
      refine ⟨_, _, rfl, hcmp, hbal, hinc, ?_⟩
      intro k
      rw [hkeys k]
      simp only [live_step, hal, Bool.or_false, ite_self]
    | true =>
      obtain ⟨t', g, ad, hp, _, _, _, hinc', hmem, hsub⟩ :=
        put_node_ok cmp hc key value me.root (balanced_range _ hbal) hinc
      have hb' : balanced t' := by
        rw [hal] at hbalanced
        rcases hbalanced with ⟨he, _⟩ | ⟨t2, g2, ad2, he, hb, _, _⟩
        · rw [hp] at he; exact absurd he (by simp)
        · rw [hp] at he
          cases he
          exact hb
      rw [hp]
      refine ⟨_, _, rfl, rfl, hb', hinc', ?_⟩
      intro k
      show k ∈ keys t' ↔ _
      simp only [live_step, hal, Bool.or_true]
      constructor
      · intro hk
        rcases hsub k hk with hk | hk
        · rw [hk, if_pos (cmp_self cmp hc key)]
        · by_cases h0 : cmp key k = 0
          · rw [if_pos h0]
          · rw [if_neg h0]; exact (hkeys k).1 hk
      · intro hk
        by_cases h0 : cmp key k = 0
        · rw [← (hc.eq_iff key k).1 h0]
          exact mem_keys_of_entry t' key value hmem
        · rw [if_neg h0] at hk
          exact put_node_mono cmp true key value me.root t' g ad hp k ((hkeys k).2 hk)

theorem map_remove_step (cmp : K → K → Int) (hc : comparator_strict_total cmp)
    (me : internal_map K V) (key : K) (was : K → Bool)
    (hcmp : me.comparator = cmp) (hbal : balanced me.root)
    (hinc : strictly_increasing cmp me.root)
    (hkeys : ∀ k, k ∈ keys me.root ↔ was k = true) :
    ∃ rc m, map_remove me key = some (rc, m) ∧ m.comparator = cmp ∧
      balanced m.root ∧ strictly_increasing cmp m.root ∧
      ∀ k, k ∈ keys m.root ↔
        live_step cmp k (was k) (map_op.remove key : map_op K V) = true := by
  have hent := remove_node_entries cmp hc key me.root hinc
  unfold map_remove
  rw [hcmp]
  rcases remove_node_balanced cmp key me.root hbal with he | ⟨t', s, he, hb, _⟩
  · rw [he]
    refine ⟨_, _, rfl, hcmp, hbal, hinc, ?_⟩
    intro k
    simp only [live_step]
    by_cases h0 : cmp key k = 0
    · rw [if_pos h0, ← (hc.eq_iff key k).1 h0]
      exact ⟨fun h => absurd h (hent.1 he), fun h => absurd h (by simp)⟩
    · rw [if_neg h0]
      exact hkeys k
  · rw [he]
    obtain ⟨hfil, _⟩ := hent.2 t' s he
    have hkeys' : ∀ k, k ∈ keys t' ↔ k ∈ keys me.root ∧ cmp key k ≠ 0 := by
      intro k
      unfold keys
      rw [hfil]
      simp only [List.mem_map, List.mem_filter, Bool.not_eq_true', beq_eq_false_iff_ne, ne_eq]
      constructor
      · rintro ⟨e, ⟨he1, he2⟩, rfl⟩
        exact ⟨⟨e, he1, rfl⟩, he2⟩
      · rintro ⟨⟨e, he1, rfl⟩, he2⟩
        exact ⟨e, ⟨he1, he2⟩, rfl⟩
    refine ⟨_, _, rfl, rfl, hb, ?_, ?_⟩
    · show (keys t').Pairwise _
      have hsub : (keys t').Sublist (keys me.root) := by
        unfold keys
        rw [hfil]
        exact (List.filter_sublist _).map _
      exact List.Pairwise.sublist hsub hinc
    · intro k
      show k ∈ keys t' ↔ _
      rw [hkeys' k]
      simp only [live_step]
      by_cases h0 : cmp key k = 0
      · rw [if_pos h0]
        exact ⟨fun h => absurd h0 h.2, fun h => absurd h (by simp)⟩
      · rw [if_neg h0]
        exact ⟨fun h => (hkeys k).1 h.1, fun h => ⟨(hkeys k).2 h, h0⟩⟩

/-- Every sequence of calls on a map that obeys the AVL rule and is in order leaves such
a map, and its keys are the keys put and not removed. -/
theorem map_run_keys (cmp : K → K → Int) (hc : comparator_strict_total cmp)
    (ops : List (map_op K V)) (me : internal_map K V) (was : K → Bool)
    (hcmp : me.comparator = cmp) (hbal : balanced me.root)
    (hinc : strictly_increasing cmp me.root)
    (hkeys : ∀ k, k ∈ keys me.root ↔ was k = true) :
    ∃ m, map_run me ops = some m ∧ m.comparator = cmp ∧ balanced m.root ∧
      strictly_increasing cmp m.root ∧
      ∀ k, k ∈ keys m.root ↔ ops.foldl (live_step cmp k) (was k) = true := by
  induction ops generalizing me was with
  | nil => exact ⟨me, rfl, hcmp, hbal, hinc, hkeys⟩
  | cons op rest ih =>
    have hstep : ∃ m, map_apply me op = some m ∧ m.comparator = cmp ∧ balanced m.root ∧
        strictly_increasing cmp m.root ∧
        ∀ k, k ∈ keys m.root ↔ live_step cmp k (was k) op = true := by
      cases op with
      | put a key value =>
        obtain ⟨rc, m, h, hrest⟩ := map_put_step cmp hc a me key value was hcmp hbal hinc hkeys
        exact ⟨m, by simp [map_apply, h], hrest⟩
      | remove key =>
        obtain ⟨rc, m, h, hrest⟩ := map_remove_step cmp hc me key was hcmp hbal hinc hkeys
        exact ⟨m, by simp [map_apply, h], hrest⟩
    obtain ⟨m, hm, hc1, hb1, hi1, hk1⟩ := hstep
    obtain ⟨m2, hm2, hc2, hb2, hi2, hk2⟩ :=
      ih m (fun k => live_step cmp k (was k) op) hc1 hb1 hi1 hk1
    refine ⟨m2, by simp only [map_run, hm]; exact hm2, hc2, hb2, hi2, ?_⟩
    intro k
    rw [hk2 k, List.foldl_cons]

/-! ## The assertions of `map_verify_recursive` -/

theorem key_of_mem (t : node K V) (x : K) (h : key_of t = some x) : x ∈ keys t := by
  cases t with
  | null => simp [key_of] at h
  | mk l k v b r =>
    simp only [key_of, Option.some.injEq] at h
    rw [keys_mk, ← h]
    exact List.mem_append_right _ (List.mem_cons_self _ _)

/-- The assertions of `map_verify_recursive` hold on every tree of `int` keys that obeys
the AVL rule and is in order, and its result is the height. -/
theorem verify_of_balanced (t : node Int Int) (hb : balanced t)
    (hs : strictly_increasing compare_int t) :
    map_verify_recursive t = some (height t) := by
  induction t with
  | null => rfl
  | mk l k v b r ihl ihr =>
    obtain ⟨hbl, hbr, hbal, _, _⟩ := hb
    obtain ⟨hsl, hsr, hlk, hkr⟩ :=
      (increasing_mk compare_int compare_int_strict_total l r k v b).1 hs
    have hmax : (if height l > height r then height l else height r) + 1 =
        1 + max (height l) (height r) := by
      split <;> omega
    rw [map_verify_recursive, ihl hbl hsl, ihr hbr hsr]
    simp only [height]
    rw [if_neg (by omega)]
    cases hkl : key_of l with
    | none => simp only [hmax]
    | some lv =>
      cases hkr' : key_of r with
      | none => simp only [hmax]
      | some rv =>
        have h1 := hlk lv (key_of_mem l lv hkl)
        have h2 := hkr rv (key_of_mem r rv hkr')
        unfold compare_int at h1 h2
        simp only
        rw [if_pos (by omega), hmax]

/-! ## The claims on the ordered map -/

/-- C14: for every map whose keys increase in order and whose balances are in range,
under the comparator of a strict total order, a put of `(k, v1)` with no allocation
failure returns 0 and `map_get` then finds `v1`; a further put of `(k, v2)`, whatever
the allocator does, returns 0, leaves `map_size` as it was after the first put, and
`map_get` then finds exactly `v2`. -/
theorem C14_put_overwrites (a : node_alloc) (me : internal_map K V) (k : K)
    (v1 v2 out : V) (hc : comparator_strict_total me.comparator)
    (hs : strictly_increasing me.comparator me.root) (hb : balances_in_range me.root) :
    ∃ m1 m2, map_put node_alloc_ok me k v1 = some (0, m1) ∧ map_get out m1 k = (1, v1) ∧
      map_put a m1 k v2 = some (0, m2) ∧ map_size m2 = map_size m1 ∧
      map_get out m2 k = (1, v2) := by
  obtain ⟨t1, g, ad, hp, _, _, _, hs1, hm1, _⟩ := put_node_ok me.comparator hc k v1 me.root hb hs
  have hg1 : get_node me.comparator k t1 = some v1 :=
    get_node_of_mem me.comparator hc t1 k v1 hs1 hm1
  obtain ⟨t2, hp2, hg2, _⟩ :=
    put_node_present me.comparator (a.node_ok && a.key_ok && a.value_ok) k v2 v1 t1 hg1
  refine ⟨{ me with root := t1, size := if ad then me.size + 1 else me.size },
    { me with root := t2, size := if ad then me.size + 1 else me.size }, ?_, ?_, ?_, rfl, ?_⟩
  · unfold map_put
    have : (node_alloc_ok.node_ok && node_alloc_ok.key_ok && node_alloc_ok.value_ok) = true := rfl
    rw [this, hp]
  · unfold map_get
    dsimp only
    rw [hg1]
  · unfold map_put
    dsimp only
    rw [hp2]
    simp
  · unfold map_get
    dsimp only
    rw [hg2]

/-- The calls of `test_override_value`: the key 5 is put with 17 and then with 97 into
the empty map. -/
theorem C14_put_overwrites_witness :
    comparator_strict_total int_map.comparator ∧
      strictly_increasing int_map.comparator int_map.root ∧ balances_in_range int_map.root ∧
      ∃ m1 m2, map_put node_alloc_ok int_map 5 17 = some (0, m1) ∧
        map_get 3735928559 m1 5 = (1, 17) ∧
        map_put node_alloc_ok m1 5 97 = some (0, m2) ∧ map_size m2 = map_size m1 ∧
        map_get 3735928559 m2 5 = (1, 97) :=
  ⟨compare_int_strict_total, List.Pairwise.nil, trivial,
    C14_put_overwrites node_alloc_ok int_map 5 17 97 3735928559 compare_int_strict_total
      List.Pairwise.nil trivial⟩

/-- C15: for every map and every key it does not contain, a put during which the
allocation of the node, of its key buffer or of its value buffer fails returns
`-ENOMEM` and leaves the map as it was: same size, same tree, the key still absent. -/
theorem C15_put_failure_atomic (a : node_alloc) (me : internal_map K V) (k : K) (v : V)
    (hfail : a.node_ok = false ∨ a.key_ok = false ∨ a.value_ok = false)
    (habsent : map_contains me k = 0) :
    map_put a me k v = some (-ENOMEM, me) ∧
      ∀ m, map_put a me k v = some (-ENOMEM, m) →
        map_size m = map_size me ∧ m.root = me.root ∧ map_contains m k = 0 := by
  have hnone : get_node me.comparator k me.root = none := by
    unfold map_contains at habsent
    cases hg : get_node me.comparator k me.root with
    | none => rfl
    | some w => rw [hg] at habsent; simp at habsent
  have hal : (a.node_ok && a.key_ok && a.value_ok) = false := by
    rcases hfail with h | h | h <;> simp [h]
  have hput : map_put a me k v = some (-ENOMEM, me) := by
    unfold map_put
    rw [hal, put_node_enomem me.comparator k v me.root hnone]
  refine ⟨hput, ?_⟩
  intro m hm
  rw [hput] at hm
  have e : me = m := (Prod.mk.inj (Option.some.inj hm)).2
  rw [← e]
  exact ⟨rfl, rfl, habsent⟩

/-- The calls of `test_put_on_left_out_of_memory`: the map holds 2, and the put of 1
fails at the allocation of the key buffer. -/
theorem C15_put_failure_atomic_witness :
    map_contains { int_map with root := node.mk node.null 2 2 0 node.null, size := 1 } 1 = 0 ∧
      map_put { node_ok := true, key_ok := false, value_ok := true }
          { int_map with root := node.mk node.null 2 2 0 node.null, size := 1 } 1 1 =
        some (-ENOMEM, { int_map with root := node.mk node.null 2 2 0 node.null, size := 1 }) :=
  ⟨by decide,
    (C15_put_failure_atomic { node_ok := true, key_ok := false, value_ok := true }
      { int_map with root := node.mk node.null 2 2 0 node.null, size := 1 } 1 1
      (Or.inr (Or.inl rfl)) (by decide)).1⟩


/-- C13: under the comparator of a strict total order, for every sequence of `map_put`
and `map_remove` calls applied to an empty map, every call is defined and after each
call (after the first `n` calls, for every `n`) the in-order key sequence of the tree
is strictly increasing and holds exactly the keys that were put and not subsequently
removed, and `map_contains` is 1 exactly for those keys and 0 for the others. -/
theorem C13_order_and_membership (key_size value_size : Nat) (cmp : K → K → Int)
    (me : internal_map K V) (ops : List (map_op K V)) (n : Nat)
    (hc : comparator_strict_total cmp)
    (hinit : map_init key_size value_size (some cmp) true = some me) :
    ∃ m, map_run me (ops.take n) = some m ∧ strictly_increasing cmp m.root ∧
      ∀ k, (k ∈ keys m.root ↔ live cmp (ops.take n) k = true) ∧
        (map_contains m k = 1 ↔ live cmp (ops.take n) k = true) ∧
        (map_contains m k = 0 ∨ map_contains m k = 1) := by
  obtain ⟨hroot, hcmp, _⟩ := init_root key_size value_size cmp true me hinit
  obtain ⟨m, hm, hc2, _, hinc, hkeys⟩ :=
    map_run_keys cmp hc (ops.take n) me (fun _ => false) hcmp (by rw [hroot]; trivial)
      (by rw [hroot]; exact List.Pairwise.nil)
      (fun k => by rw [hroot]; simp [keys, entries])
  refine ⟨m, hm, hinc, fun k => ?_⟩
  have hcon := contains_iff_mem cmp hc m hc2 hinc k
  exact ⟨hkeys k, hcon.1.trans (hkeys k), hcon.2⟩

/-- The puts of 5, 2, 6, 1, 3, 4 (a left-right double rotation) leave the keys 1 to 6 in
order; after the remove of 2 the key 2 is no longer put and the others are. -/
theorem C13_order_and_membership_witness :
    comparator_strict_total compare_int ∧
      map_init 4 4 (some compare_int) true = some int_map ∧
      (map_run int_map [map_op.put node_alloc_ok 5 5, map_op.put node_alloc_ok 2 2,
          map_op.put node_alloc_ok 6 6, map_op.put node_alloc_ok 1 1,
          map_op.put node_alloc_ok 3 3, map_op.put node_alloc_ok 4 4]).map
        (fun m => keys m.root) = some [1, 2, 3, 4, 5, 6] ∧
      (map_run int_map [map_op.put node_alloc_ok 5 5, map_op.put node_alloc_ok 2 2,
          map_op.put node_alloc_ok 6 6, map_op.put node_alloc_ok 1 1,
          map_op.put node_alloc_ok 3 3, map_op.put node_alloc_ok 4 4,
          map_op.remove 2]).map (fun m => keys m.root) = some [1, 3, 4, 5, 6] ∧
      live compare_int [map_op.put node_alloc_ok 5 5, map_op.put node_alloc_ok 2 2,
          map_op.put node_alloc_ok 6 6, map_op.put node_alloc_ok 1 1,
          map_op.put node_alloc_ok 3 3, map_op.put node_alloc_ok 4 4,
          (map_op.remove 2 : map_op Int Int)] 2 = false ∧
      ∃ m, map_run int_map ([map_op.put node_alloc_ok 5 5, map_op.put node_alloc_ok 2 2,
          map_op.put node_alloc_ok 6 6, map_op.put node_alloc_ok 1 1,
          map_op.put node_alloc_ok 3 3, map_op.put node_alloc_ok 4 4,
          map_op.remove 2].take 7) = some m ∧ strictly_increasing compare_int m.root ∧
        ∀ k, (k ∈ keys m.root ↔ live compare_int ([map_op.put node_alloc_ok 5 5,
            map_op.put node_alloc_ok 2 2, map_op.put node_alloc_ok 6 6,
            map_op.put node_alloc_ok 1 1, map_op.put node_alloc_ok 3 3,
            map_op.put node_alloc_ok 4 4, map_op.remove 2].take 7) k = true) ∧
          (map_contains m k = 1 ↔ live compare_int ([map_op.put node_alloc_ok 5 5,
            map_op.put node_alloc_ok 2 2, map_op.put node_alloc_ok 6 6,
            map_op.put node_alloc_ok 1 1, map_op.put node_alloc_ok 3 3,
            map_op.put node_alloc_ok 4 4, map_op.remove 2].take 7) k = true) ∧
          (map_contains m k = 0 ∨ map_contains m k = 1) :=
  ⟨compare_int_strict_total, rfl, by decide, by decide, by decide,
    C13_order_and_membership 4 4 compare_int int_map [map_op.put node_alloc_ok 5 5,
      map_op.put node_alloc_ok 2 2, map_op.put node_alloc_ok 6 6,
      map_op.put node_alloc_ok 1 1, map_op.put node_alloc_ok 3 3,
      map_op.put node_alloc_ok 4 4, map_op.remove 2] 7 compare_int_strict_total rfl⟩

/-- C21 as stated fails: at node 2 with balance +2, no left child and the balanced
right child 4 (children 3 and 5), the node that the remove of 1 reaches in
`test_rotate_left_balanced_child`, no left rotation can leave both nodes with a stored
balance 0 that is the height difference: after the rotation node 2 has the leaf 3 on
its right and nothing on its left. -/
theorem C21_single_left_rotation_counterexample :
    ¬ ∀ (l cl cr : node Int Int) (k v ck cv cb : Int), 0 ≤ cb →
      balanced l → balanced (node.mk cl ck cv cb cr) →
      height (node.mk cl ck cv cb cr) - height l = 2 →
      ∃ b1 b2, map_repair (node.mk l k v 2 (node.mk cl ck cv cb cr)) =
          some (node.mk (node.mk l k v b1 cl) ck cv b2 cr) ∧
        b1 = 0 ∧ b2 = 0 ∧ b1 = height cl - height l ∧
        b2 = height cr - height (node.mk l k v b1 cl) := by
  intro h
  obtain ⟨b1, b2, _, h1, _, h3, _⟩ := h node.null (node.mk node.null 3 3 0 node.null)
    (node.mk node.null 5 5 0 node.null) 2 2 4 4 0 (by decide)
    trivial (by simp [balanced, height]) (by simp [height])
  rw [h1] at h3
  simp [height] at h3

/-- C21, amended: at a node `parent` of balance +2 whose right child `child` has
balance `>= 0`, Repair is one left rotation at `parent` (the child takes the place of
the parent, the parent becomes its left child and takes over the child's left
subtree).  When the child was balanced the parent ends with balance +1 and the child
with -1; otherwise both end with balance 0.  When the balances +2 and 0 or +1 were the
height differences before, the stored balances after are right height minus left
height of the rotated nodes. -/
theorem C21_single_left_rotation (l cl cr : node K V) (k ck : K) (v cv : V) (cb : Int)
    (hcb : 0 ≤ cb) :
    (cb = 0 → map_repair (node.mk l k v 2 (node.mk cl ck cv cb cr)) =
        some (node.mk (node.mk l k v 1 cl) ck cv (-1) cr)) ∧
      (cb ≠ 0 → map_repair (node.mk l k v 2 (node.mk cl ck cv cb cr)) =
        some (node.mk (node.mk l k v 0 cl) ck cv 0 cr)) ∧
      (cb ≤ 1 → cb = height cr - height cl →
        height (node.mk cl ck cv cb cr) - height l = 2 →
        ∃ b1 b2, map_repair (node.mk l k v 2 (node.mk cl ck cv cb cr)) =
            some (node.mk (node.mk l k v b1 cl) ck cv b2 cr) ∧
          b1 = height cl - height l ∧ b2 = height cr - height (node.mk l k v b1 cl)) := by
  have h0 : cb = 0 → map_repair (node.mk l k v 2 (node.mk cl ck cv cb cr)) =
      some (node.mk (node.mk l k v 1 cl) ck cv (-1) cr) := by
    intro h
    simp [map_repair, h]
  have h1 : cb ≠ 0 → map_repair (node.mk l k v 2 (node.mk cl ck cv cb cr)) =
      some (node.mk (node.mk l k v 0 cl) ck cv 0 cr) := by
    intro h
    simp [map_repair, h, hcb]
  refine ⟨h0, h1, ?_⟩
  intro hle hdiff hd
  by_cases hz : cb = 0
  · refine ⟨1, -1, h0 hz, ?_, ?_⟩ <;> simp only [height] at hd ⊢ <;> omega
  · refine ⟨0, 0, h1 hz, ?_, ?_⟩ <;> simp only [height] at hd ⊢ <;> omega

/-- Repair at node 2 of `test_rotate_left_balanced_child` (balanced child 4) stores +1
in node 2 and -1 in node 4, the height differences, and `map_verify_recursive` accepts
the rotated subtree; at node 1 after the puts of 1, 2, 3 (child 2 of balance +1) it
stores 0 in both. -/
theorem C21_single_left_rotation_witness :
    map_repair (node.mk node.null 2 2 2
        (node.mk (node.mk node.null 3 3 0 node.null) 4 4 0
          (node.mk node.null 5 5 0 (node.null : node Int Int)))) =
        some (node.mk (node.mk node.null 2 2 1 (node.mk node.null 3 3 0 node.null)) 4 4 (-1)
          (node.mk node.null 5 5 0 node.null)) ∧
      map_verify_recursive
        (node.mk (node.mk node.null 2 2 1 (node.mk node.null 3 3 0 node.null)) 4 4 (-1)
          (node.mk node.null 5 5 0 node.null)) = some 3 ∧
      map_repair (node.mk node.null 1 1 2
        (node.mk node.null 2 2 1 (node.mk node.null 3 3 0 (node.null : node Int Int)))) =
        some (node.mk (node.mk node.null 1 1 0 node.null) 2 2 0
          (node.mk node.null 3 3 0 node.null)) ∧
      ∃ b1 b2, map_repair (node.mk node.null 2 2 2
          (node.mk (node.mk node.null 3 3 0 node.null) 4 4 0
            (node.mk node.null 5 5 0 (node.null : node Int Int)))) =
          some (node.mk (node.mk node.null 2 2 b1 (node.mk node.null 3 3 0 node.null)) 4 4 b2
            (node.mk node.null 5 5 0 node.null)) ∧
        b1 = height (node.mk node.null 3 3 0 (node.null : node Int Int)) -
          height (node.null : node Int Int) ∧
        b2 = height (node.mk node.null 5 5 0 (node.null : node Int Int)) -
          height (node.mk node.null 2 2 b1
            (node.mk node.null 3 3 0 (node.null : node Int Int))) :=
  ⟨(C21_single_left_rotation node.null (node.mk node.null 3 3 0 node.null)
      (node.mk node.null 5 5 0 node.null) 2 4 2 4 0 (by decide)).1 rfl,
    by decide,
    (C21_single_left_rotation node.null node.null (node.mk node.null 3 3 0 node.null)
      1 2 1 2 1 (by decide)).2.1 (by decide),
    (C21_single_left_rotation node.null (node.mk node.null 3 3 0 node.null)
      (node.mk node.null 5 5 0 node.null) 2 4 2 4 0 (by decide)).2.2 (by decide)
      (by decide) (by decide)⟩

end OMap
